import Mathlib

/-!
regex_matcher: parser, compiler and backtracking matcher

A shallow embedding of `src/ast.h`, `src/parser.h` and `src/vm.h`.

Conventions of the embedding:

* A `Char` stands for one 8-bit code unit of a `std::string` (its `toNat` is below 256).
* A scan position `(current, end)` of the parser is the text that is left, a `List Char`.
* A tree of `Atom` nodes reached through an `AtomPointer` is a value of the inductive type
  `AtomPointer`; `nullptr` is the constructor `null`, and every node carries its `next` link.
* The parse functions call each other recursively; they take a call budget and return `none`
  when it is used up. `parse` supplies `5 * length + 5` calls, which is always enough
  (`parse_budget_suffices`).
* `match_fragment` recurses and loops without a bound in the source; the embedding takes a
  step budget and reports `Verdict.out_of_fuel` when it is used up.
* Offsets (`long`, `int`, `size_t` in the source) are integers; program lengths stay far below
  the wrap-around of the machine types.
* `deallocate` is the list of the `delete` statements it executes; a node is named by the
  fields (`next`, `inner`, `lhs`, `rhs`) that lead to it from the root.
-/

namespace re

/-! ## ast.h -/

inductive RepetitionType
  | ZeroOrOne
  | ZeroOrMore
  | OneOrMore
  deriving DecidableEq, Repr

inductive CharacterClassType
  | All
  | Word
  | Digits
  | Whitespace
  deriving DecidableEq, Repr

inductive AssertionType
  | BeginOfString
  | EndOfString
  deriving DecidableEq, Repr

/-- The nodes `Character`, `CharacterClass`, `Repetition`, `Alternation`, `Assertion` of
`ast.h`, each with the `next` field of its base `Atom`, as seen through a pointer. -/
inductive AtomPointer
  | null
  | Character (c : Char) (next : AtomPointer)
  | CharacterClass (char_class_type : CharacterClassType) (negate : Bool) (next : AtomPointer)
  | Repetition (type : RepetitionType) (inner : AtomPointer) (next : AtomPointer)
  | Alternation (lhs : AtomPointer) (rhs : AtomPointer) (next : AtomPointer)
  | Assertion (assertion_type : AssertionType) (next : AtomPointer)
  deriving DecidableEq, Repr

/-- The field `p->next`. -/
def AtomPointer.next : AtomPointer → AtomPointer
  | .null => .null
  | .Character _ n => n
  | .CharacterClass _ _ n => n
  | .Repetition _ _ n => n
  | .Alternation _ _ n => n
  | .Assertion _ n => n

/-- The assignment `unboxed->next = tail`: the head node gets a new `next`, whatever it
pointed to before is no longer reachable. -/
def AtomPointer.set_next : AtomPointer → AtomPointer → AtomPointer
  | .null, _ => .null
  | .Character c _, t => .Character c t
  | .CharacterClass k b _, t => .CharacterClass k b t
  | .Repetition k i _, t => .Repetition k i t
  | .Alternation l r _, t => .Alternation l r t
  | .Assertion k _, t => .Assertion k t

/-! ## parser.h -/

def is_reserved_character (c : Char) : Bool :=
  c == '\\' || c == '|' || c == '(' || c == ')' || c == '*' || c == '+' || c == '?' || c == '.' ||
    c == '^' || c == '$'

/-- Returns whether `c` was consumed, and the scan position afterwards. -/
def consume_constant (c : Char) (current : List Char) : Bool × List Char :=
  match current with
  | x :: rest => if x = c then (true, rest) else (false, current)
  | [] => (false, current)

/-- The call `std::isalpha(*current)`; at the end of the text `*current` reads the
terminating zero of the string. -/
def isalpha_at (current : List Char) : Bool :=
  (current.headD (Char.ofNat 0)).isAlpha

def parse_raw_character (current : List Char) : Option AtomPointer × List Char :=
  match current with
  | c :: rest => (some (.Character c .null), rest)
  | [] => (none, current)

def parse_character_class (current : List Char) : Option AtomPointer × List Char :=
  match current with
  | c :: rest =>
    if c = 'd' then (some (.CharacterClass .Digits false .null), rest)
    else if c = 'D' then (some (.CharacterClass .Digits true .null), rest)
    else if c = 's' then (some (.CharacterClass .Whitespace false .null), rest)
    else if c = 'S' then (some (.CharacterClass .Whitespace true .null), rest)
    else if c = 'w' then (some (.CharacterClass .Word false .null), rest)
    else if c = 'W' then (some (.CharacterClass .Word true .null), rest)
    else (none, current)
  | [] => (none, current)

mutual

def parse_regex : Nat → List Char → Option (Option AtomPointer × List Char)
  | 0, _ => none
  | fuel + 1, current =>
    match parse_alternation fuel current with
    | none => none
    | some (some ast, cur1) => some (some ast, cur1)
    | some (none, _) => parse_concatenation fuel current

def parse_alternation : Nat → List Char → Option (Option AtomPointer × List Char)
  | 0, _ => none
  | fuel + 1, current =>
    match parse_concatenation fuel current with
    | none => none
    | some (none, _) => some (none, current)
    | some (some lhs, cur1) =>
      match consume_constant '|' cur1 with
      | (false, _) => some (none, current)
      | (true, cur2) =>
        match parse_regex fuel cur2 with
        | none => none
        | some (some rhs, cur3) => some (some (.Alternation lhs rhs .null), cur3)
        | some (none, _) => some (none, current)

def parse_concatenation : Nat → List Char → Option (Option AtomPointer × List Char)
  | 0, _ => none
  | fuel + 1, current =>
    match parse_repetition fuel current with
    | none => none
    | some (none, cur1) => some (none, cur1)
    | some (some ast, cur1) =>
      match parse_concatenation fuel cur1 with
      | none => none
      | some (some tail, cur2) => some (some (ast.set_next tail), cur2)
      | some (none, _) => some (some ast, cur1)

def parse_repetition : Nat → List Char → Option (Option AtomPointer × List Char)
  | 0, _ => none
  | fuel + 1, current =>
    match parse_atom fuel current with
    | none => none
    | some (none, cur1) => some (none, cur1)
    | some (some ast, cur1) =>
      match consume_constant '?' cur1 with
      | (true, cur2) => some (some (.Repetition .ZeroOrOne ast .null), cur2)
      | (false, _) =>
        match consume_constant '*' cur1 with
        | (true, cur2) => some (some (.Repetition .ZeroOrMore ast .null), cur2)
        | (false, _) =>
          match consume_constant '+' cur1 with
          | (true, cur2) => some (some (.Repetition .OneOrMore ast .null), cur2)
          | (false, _) => some (some ast, cur1)

def parse_atom : Nat → List Char → Option (Option AtomPointer × List Char)
  | 0, _ => none
  | fuel + 1, current =>
    match current with
    | [] => some (none, current)
    | x :: _ =>
      match consume_constant '(' current with
      | (true, cur1) =>
        match parse_regex fuel cur1 with
        | none => none
        | some (ast, cur2) =>
          match consume_constant ')' cur2 with
          | (true, cur3) => some (ast, cur3)
          | (false, cur3) => some (none, cur3)
      | (false, _) =>
        match consume_constant '\\' current with
        | (true, cur1) =>
          if isalpha_at cur1 then some (parse_character_class cur1)
          else some (parse_raw_character cur1)
        | (false, _) =>
          if !is_reserved_character x then some (parse_raw_character current)
          else
            match consume_constant '.' current with
            | (true, cur1) => some (some (.CharacterClass .All false .null), cur1)
            | (false, _) =>
              match consume_constant '^' current with
              | (true, cur1) => some (some (.Assertion .BeginOfString .null), cur1)
              | (false, _) =>
                match consume_constant '$' current with
                | (true, cur1) => some (some (.Assertion .EndOfString .null), cur1)
                | (false, _) => some (none, current)

end

/-- The entry point `re::parse`: `parse_regex` from the start of the pattern; the scan
position reached is dropped. -/
def parse (re : List Char) : Option AtomPointer :=
  match parse_regex (5 * re.length + 5) re with
  | some (ast, _) => ast
  | none => none

/-! ## vm.h -/

/-- The cursor `Range<std::string>` over the input: `offset` is `counter - begin`, `rest` holds
the code units from `counter` up to `end`. -/
structure Range where
  offset : Nat
  rest : List Char
  deriving DecidableEq, Repr

/-- A cursor at the start of `inner`, the constructor `Range(const T &inner)`. -/
def Range.of (inner : List Char) : Range := ⟨0, inner⟩

def Range.is_start (r : Range) : Bool := r.offset == 0

def Range.empty (r : Range) : Bool := r.rest.isEmpty

/-- The method `Assertion::test`. -/
def AssertionType.test (assertion_type : AssertionType) (view : Range) : Bool :=
  match assertion_type with
  | .BeginOfString => view.is_start
  | .EndOfString => view.empty

/-- The conversion `(size_t) c` of a `char`, on the usual ABI with a signed `char` and a
64-bit `size_t`: code units from 128 on are negative and wrap around. -/
def size_t_of_char (c : Char) : Nat :=
  if c.toNat < 128 then c.toNat else 2 ^ 64 - 256 + c.toNat

/-- The class `Bitset`: `mask` holds the bits of the `std::bitset<255>`, bit `i` of the
number is entry `i` of the mask. -/
structure Bitset where
  mask : Nat := 0
  deriving DecidableEq, Repr

/-- Number of entries of the mask, the `255` of `std::bitset<255>`. -/
def Bitset.size : Nat := 255

/-- Whether `(size_t) c` is an index of the mask. -/
def Bitset.index_valid (c : Char) : Bool := decide (size_t_of_char c < Bitset.size)

/-- The method `Bitset::set`. For an index outside the mask `std::bitset::set` throws
`std::out_of_range`; the mask is then left as it is. -/
def Bitset.set (b : Bitset) (c : Char) : Bitset :=
  if Bitset.index_valid c then ⟨b.mask ||| (1 <<< size_t_of_char c)⟩ else b

/-- The operator `~` of `Bitset`: every one of the 255 entries is inverted. -/
def Bitset.complement (b : Bitset) : Bitset := ⟨b.mask ^^^ (2 ^ Bitset.size - 1)⟩

/-- The operator `|` of `Bitset`. -/
def Bitset.union (a b : Bitset) : Bitset := ⟨a.mask ||| b.mask⟩

/-- The method `Bitset::match`, `mask[(size_t) other]`: `std::bitset::operator[]` does not
check its index, outside the mask the read is undefined (`none`). -/
def Bitset.match_ (b : Bitset) (other : Char) : Option Bool :=
  if Bitset.index_valid other then some (b.mask.testBit (size_t_of_char other)) else none

/-- The loop `for (char c = start; c <= end; ++c) b.set(c)`. -/
def make_range (start end_ : Char) : Bitset :=
  (List.range (end_.toNat + 1 - start.toNat)).foldl
    (fun b i => b.set (Char.ofNat (start.toNat + i))) {}

inductive Instruction
  | Assertion (assertion_type : AssertionType)
  | Character (c : Char)
  | Bitset (b : Bitset)
  | Split (lhs : Int) (rhs : Int)
  | Jump (target : Int)
  | Match
  deriving DecidableEq, Repr

/-- The mask that `compile_atom` builds for a `CharacterClass` node. -/
def class_mask (char_class_type : CharacterClassType) (negate : Bool) : Bitset :=
  let inst : Bitset :=
    match char_class_type with
    | .Digits => make_range '0' '9'
    | .Word => ((make_range 'a' 'z').union (make_range 'A' 'Z')).union (make_range '_' '_')
    | .Whitespace => ((make_range ' ' ' ').union (make_range '\t' '\t')).union (make_range '\n' '\n')
    | .All => (make_range '\n' '\n').complement
  if negate then inst.complement else inst

/-- Code of an `Alternation` node from the code of its two sides. -/
def alternation_code (lhs rhs : List Instruction) : List Instruction :=
  [Instruction.Split 1 (lhs.length + 2)] ++ lhs ++ [Instruction.Jump (rhs.length + 1)] ++ rhs

/-- Code of a `Repetition` node from the code of its inner chain. -/
def repetition_code (type : RepetitionType) (inner : List Instruction) : List Instruction :=
  match type with
  | .ZeroOrOne => [Instruction.Split 1 (inner.length + 1)] ++ inner
  | .ZeroOrMore =>
    [Instruction.Split 1 (inner.length + 2)] ++ inner ++ [Instruction.Jump (-(inner.length : Int) - 1)]
  | .OneOrMore => inner ++ [Instruction.Split (-(inner.length : Int)) 1]

/-- The loop of `compile_fragment` over the `next` chain, with the code that `compile_atom`
gives for each node spliced in order. -/
def compile_fragment : AtomPointer → List Instruction
  | .null => []
  | .Character c next => [Instruction.Character c] ++ compile_fragment next
  | .CharacterClass t negate next => [Instruction.Bitset (class_mask t negate)] ++ compile_fragment next
  | .Alternation lhs rhs next =>
    alternation_code (compile_fragment lhs) (compile_fragment rhs) ++ compile_fragment next
  | .Assertion t next => [Instruction.Assertion t] ++ compile_fragment next
  | .Repetition type inner next =>
    repetition_code type (compile_fragment inner) ++ compile_fragment next

/-- The code of the node `root` alone, without its `next` chain. -/
def compile_atom : AtomPointer → List Instruction
  | .null => []
  | .Character c _ => [Instruction.Character c]
  | .CharacterClass t negate _ => [Instruction.Bitset (class_mask t negate)]
  | .Alternation lhs rhs _ => alternation_code (compile_fragment lhs) (compile_fragment rhs)
  | .Assertion t _ => [Instruction.Assertion t]
  | .Repetition type inner _ => repetition_code type (compile_fragment inner)

/-- What a run of the matcher ends with: a returned boolean, a read outside the program or
outside a mask (undefined in the source), or a used-up step budget. -/
inductive Verdict
  | returned (b : Bool)
  | undefined
  | out_of_fuel
  deriving DecidableEq, Repr

/-- The instruction under the program cursor, when the cursor is inside the program. -/
def fetch (program : List Instruction) (pc : Int) : Option Instruction :=
  if 0 ≤ pc then program.get? pc.toNat else none

/-- The function `match_fragment`. The program cursor is the index `pc` into `program`,
the data cursor is `data`. Every pass of the `while` loop and every recursive call uses one
unit of the budget. -/
def match_fragment (program : List Instruction) : Nat → Int → Range → Verdict
  | 0, _, _ => .out_of_fuel
  | fuel + 1, pc, data =>
    if pc = program.length then .returned false
    else
      match fetch program pc with
      | none => .undefined
      | some (.Character c) =>
        match data.rest with
        | x :: rest =>
          if c = x then match_fragment program fuel (pc + 1) ⟨data.offset + 1, rest⟩
          else .returned false
        | [] => .returned false
      | some (.Bitset b) =>
        match data.rest with
        | x :: rest =>
          match b.match_ x with
          | some true => match_fragment program fuel (pc + 1) ⟨data.offset + 1, rest⟩
          | some false => .returned false
          | none => .undefined
        | [] => .returned false
      | some (.Split lhs rhs) =>
        match match_fragment program fuel (pc + lhs) data with
        | .returned false => match_fragment program fuel (pc + rhs) data
        | result => result
      | some (.Assertion t) =>
        if t.test data then match_fragment program fuel (pc + 1) data else .returned false
      | some (.Jump target) => match_fragment program fuel (pc + target) data
      | some .Match => .returned true

def compile_partial (re : List Char) : Option (List Instruction) :=
  match parse re with
  | some ast =>
    some ([Instruction.Split 3 1, Instruction.Bitset (make_range '\n' '\n').complement,
        Instruction.Jump (-2)] ++ compile_fragment ast ++ [Instruction.Match])
  | none => none

def compile_full (re : List Char) : Option (List Instruction) :=
  match parse re with
  | some ast =>
    some (compile_fragment ast ++ [Instruction.Assertion .EndOfString, Instruction.Match])
  | none => none

/-- The function `re::match` with a step budget. -/
def match_ (fuel : Nat) (re : List Instruction) (s : List Char) : Verdict :=
  match_fragment re fuel 0 (Range.of s)

def full_match (fuel : Nat) (re : List Char) (s : List Char) : Verdict :=
  match compile_full re with
  | some compiled => match_ fuel compiled s
  | none => .returned false

def partial_match (fuel : Nat) (re : List Char) (s : List Char) : Verdict :=
  match compile_partial re with
  | some compiled => match_ fuel compiled s
  | none => .returned false

/-! ## Walks, code placement and branch targets -/

/-- A walk of `program` from the instruction at `pc` and the data cursor `data` that follows
the instruction rules and reaches a `Match` instruction with the data cursor at `final`. -/
inductive Reaches (program : List Instruction) : Int → Range → Range → Prop
  | done {pc : Int} {data : Range} :
      fetch program pc = some .Match → Reaches program pc data data
  | character {pc : Int} {data final : Range} {c : Char} {rest : List Char} :
      fetch program pc = some (.Character c) → data.rest = c :: rest →
      Reaches program (pc + 1) ⟨data.offset + 1, rest⟩ final → Reaches program pc data final
  | bitset {pc : Int} {data final : Range} {m : Bitset} {x : Char} {rest : List Char} :
      fetch program pc = some (.Bitset m) → data.rest = x :: rest → m.match_ x = some true →
      Reaches program (pc + 1) ⟨data.offset + 1, rest⟩ final → Reaches program pc data final
  | assertion {pc : Int} {data final : Range} {t : AssertionType} :
      fetch program pc = some (.Assertion t) → t.test data = true →
      Reaches program (pc + 1) data final → Reaches program pc data final
  | jump {pc : Int} {data final : Range} {target : Int} :
      fetch program pc = some (.Jump target) →
      Reaches program (pc + target) data final → Reaches program pc data final
  | split_lhs {pc : Int} {data final : Range} {lhs rhs : Int} :
      fetch program pc = some (.Split lhs rhs) →
      Reaches program (pc + lhs) data final → Reaches program pc data final
  | split_rhs {pc : Int} {data final : Range} {lhs rhs : Int} :
      fetch program pc = some (.Split lhs rhs) →
      Reaches program (pc + rhs) data final → Reaches program pc data final

/-- The program `P` holds the instructions `C` from index `k` on. -/
def code_at (P : List Instruction) (k : Nat) (C : List Instruction) : Prop :=
  ∃ pre post, P = pre ++ C ++ post ∧ pre.length = k

/-- The instruction at index `idx` is not `Match` and, when it is a `Split` or a `Jump`, its
targets lie between `lo` and `hi`. -/
def Instruction.inner_ok (ins : Instruction) (idx lo hi : Int) : Prop :=
  match ins with
  | .Split lhs rhs => (lo ≤ idx + lhs ∧ idx + lhs ≤ hi) ∧ (lo ≤ idx + rhs ∧ idx + rhs ≤ hi)
  | .Jump target => lo ≤ idx + target ∧ idx + target ≤ hi
  | .Match => False
  | _ => True

/-- Every instruction of `code`, placed from index `idx` on, satisfies `inner_ok`. -/
def code_within : List Instruction → Int → Int → Int → Prop
  | [], _, _, _ => True
  | ins :: rest, idx, lo, hi => ins.inner_ok idx lo hi ∧ code_within rest (idx + 1) lo hi

/-- The program that `compile_full` assembles around the pattern code. -/
def full_program (code : List Instruction) : List Instruction :=
  code ++ [Instruction.Assertion .EndOfString, Instruction.Match]

/-- The program that `compile_partial` assembles around the pattern code. -/
def partial_program (code : List Instruction) : List Instruction :=
  [Instruction.Split 3 1, Instruction.Bitset (make_range '\n' '\n').complement,
    Instruction.Jump (-2)] ++ code ++ [Instruction.Match]

/-- The program of the pattern `(a*)*` under `compile_full`. -/
def nested_star_program : List Instruction :=
  [.Split 1 5, .Split 1 3, .Character 'a', .Jump (-2), .Jump (-4), .Assertion .EndOfString,
    .Match]

/-! ## Parser results under a sufficient call budget -/

/-- The parse function `g` gives the result `r` at the scan position `current` for every call
budget from `5 * current.length + k` on. -/
def yields (g : Nat → List Char → Option (Option AtomPointer × List Char)) (k : Nat)
    (current : List Char) (r : Option AtomPointer × List Char) : Prop :=
  ∀ fuel, 5 * current.length + k ≤ fuel → g fuel current = some r

/-- The next character of the pattern is none of the repetition marks `?`, `*`, `+`. -/
def no_mark (current : List Char) : Prop :=
  ∀ x rest, current = x :: rest → x ≠ '?' ∧ x ≠ '*' ∧ x ≠ '+'

/-- The chain of `Character` nodes for the code units `w`, linked through `next` and ending
in `tail`. -/
def chars : List Char → AtomPointer → AtomPointer
  | [], tail => tail
  | c :: w, tail => .Character c (chars w tail)

/-- The pattern text is at its end, or its next character is `)` or `|`. -/
def stops (current : List Char) : Prop :=
  ∀ x rest, current = x :: rest → x = ')' ∨ x = '|'

/-- The matcher, started at instruction `pc` with the data cursor `data`, returns `b` under
some step budget (and then under every larger one, `match_fragment_mono`). -/
def Returns (P : List Instruction) (pc : Int) (data : Range) (b : Bool) : Prop :=
  ∃ fuel, match_fragment P fuel pc data = .returned b

/-- The code of a chain of `Character` nodes. -/
def lit (w : List Char) : List Instruction := w.map Instruction.Character

/-- The pattern text for the literal `w`: a backslash goes before each reserved character,
every other character stands as it is. -/
def esc : List Char → List Char
  | [] => []
  | c :: w => if is_reserved_character c then '\\' :: c :: esc w else c :: esc w

/-- Every code unit of `w` is a character that is not reserved. -/
def plain (w : List Char) : Prop := ∀ c ∈ w, is_reserved_character c = false

instance (w : List Char) : Decidable (plain w) :=
  inferInstanceAs (Decidable (∀ c ∈ w, is_reserved_character c = false))

/-- Whether `w` occurs in `data` at an offset that is reached over code units other than
newline only. -/
def search (w : List Char) : List Char → Bool
  | [] => w.isPrefixOf []
  | x :: rest => w.isPrefixOf (x :: rest) || (x != '\n' && search w rest)

/-- What a parse function may give back when called at `current`: the scan position is a
suffix of `current`, and a proper one when a node was produced. -/
def result_ok (current : List Char) (r : Option AtomPointer × List Char) : Prop :=
  r.2 <:+ current ∧ (r.1.isSome = true → r.2.length < current.length)

/-! ## Compilation with its failures made explicit -/

/-- The method `Bitset::set` with the exception of `std::bitset::set` for an index outside
the mask. -/
def Bitset.set_checked (b : Bitset) (c : Char) : Except String Bitset :=
  if Bitset.index_valid c then .ok (b.set c) else .error "bitset::set: out of range"

/-- The loop of `make_range`, stopping at the first `set` that throws. -/
def make_range_checked (start end_ : Char) : Except String Bitset :=
  (List.range (end_.toNat + 1 - start.toNat)).foldlM
    (fun b i => b.set_checked (Char.ofNat (start.toNat + i))) {}

/-- The mask of a `CharacterClass` node, built with `make_range_checked`. -/
def class_mask_checked (char_class_type : CharacterClassType) (negate : Bool) :
    Except String Bitset := do
  let inst : Bitset ←
    match char_class_type with
    | .Digits => make_range_checked '0' '9'
    | .Word => do
      let a ← make_range_checked 'a' 'z'
      let b ← make_range_checked 'A' 'Z'
      let c ← make_range_checked '_' '_'
      pure ((a.union b).union c)
    | .Whitespace => do
      let a ← make_range_checked ' ' ' '
      let b ← make_range_checked '\t' '\t'
      let c ← make_range_checked '\n' '\n'
      pure ((a.union b).union c)
    | .All => do
      let a ← make_range_checked '\n' '\n'
      pure a.complement
  pure (if negate then inst.complement else inst)

/-- The chain `if ... else if ... else throw` of `compile_atom` over the repetition type. -/
def repetition_code_checked (type : RepetitionType) (inner : List Instruction) :
    Except String (List Instruction) :=
  if type = .ZeroOrOne then
    .ok ([Instruction.Split 1 (inner.length + 1)] ++ inner)
  else if type = .ZeroOrMore then
    .ok ([Instruction.Split 1 (inner.length + 2)] ++ inner ++
      [Instruction.Jump (-(inner.length : Int) - 1)])
  else if type = .OneOrMore then
    .ok (inner ++ [Instruction.Split (-(inner.length : Int)) 1])
  else .error "Compilation error. Unknown repetition type"

/-- The functions `compile_fragment` and `compile_atom` with the exceptions they can raise:
the `throw` for an unknown repetition type and the exception of `Bitset::set`. -/
def compile_fragment_checked : AtomPointer → Except String (List Instruction)
  | .null => .ok []
  | .Character c next => do
    let rest ← compile_fragment_checked next
    pure ([Instruction.Character c] ++ rest)
  | .CharacterClass t negate next => do
    let inst ← class_mask_checked t negate
    let rest ← compile_fragment_checked next
    pure ([Instruction.Bitset inst] ++ rest)
  | .Alternation lhs rhs next => do
    let l ← compile_fragment_checked lhs
    let r ← compile_fragment_checked rhs
    let rest ← compile_fragment_checked next
    pure (alternation_code l r ++ rest)
  | .Assertion t next => do
    let rest ← compile_fragment_checked next
    pure ([Instruction.Assertion t] ++ rest)
  | .Repetition type inner next => do
    let i ← compile_fragment_checked inner
    let code ← repetition_code_checked type i
    let rest ← compile_fragment_checked next
    pure (code ++ rest)

/-- The operands of the `Split` or `Jump` instruction `ins` at index `idx`, added to `idx`,
are indices of a program of `n` instructions. -/
def Instruction.targets_in (ins : Instruction) (idx n : Int) : Prop :=
  match ins with
  | .Split lhs rhs => (0 ≤ idx + lhs ∧ idx + lhs < n) ∧ (0 ≤ idx + rhs ∧ idx + rhs < n)
  | .Jump target => 0 ≤ idx + target ∧ idx + target < n
  | _ => True

/-- Every branch target of `program` is an index of `program`. -/
def branches_in_bounds (program : List Instruction) : Prop :=
  ∀ (i : Nat) (ins : Instruction), program.get? i = some ins →
    ins.targets_in i program.length

/-- The value of a 64-bit `size_t` expression: the integer `z` modulo `2 ^ 64`. -/
def size_t_wrap (z : Int) : Nat := (z % 2 ^ 64).toNat

/-- The conversion of a 64-bit `size_t` value to `long`. -/
def long_of_size_t (u : Nat) : Int := if u < 2 ^ 63 then (u : Int) else (u : Int) - 2 ^ 64

/-- The program holds no `Assertion(BeginOfString)` instruction. -/
def no_begin_assertion (program : List Instruction) : Prop :=
  ∀ ins ∈ program, ins ≠ Instruction.Assertion .BeginOfString

/-- The program of the pattern `b|(a*)*` under `compile_partial`. -/
def bar_nested_star_program : List Instruction :=
  [.Split 3 1, .Bitset (make_range '\n' '\n').complement, .Jump (-2),
    .Split 1 3, .Character 'b', .Jump 6,
    .Split 1 5, .Split 1 3, .Character 'a', .Jump (-2), .Jump (-4), .Match]

/-! ## Patterns whose loops read input -/

/-- Whether the chain may be passed without reading a code unit; an assertion counts as
passable. -/
def nullable : AtomPointer → Bool
  | .null => true
  | .Character _ _ => false
  | .CharacterClass _ _ _ => false
  | .Assertion _ next => nullable next
  | .Alternation lhs rhs next => (nullable lhs || nullable rhs) && nullable next
  | .Repetition .ZeroOrOne _ next => nullable next
  | .Repetition .ZeroOrMore _ next => nullable next
  | .Repetition .OneOrMore inner next => nullable inner && nullable next

/-- Every `*` and every `+` of the tree stands on an inner chain that is not `nullable`:
each pass of a loop reads at least one code unit. -/
def loops_read : AtomPointer → Bool
  | .null => true
  | .Character _ next => loops_read next
  | .CharacterClass _ _ next => loops_read next
  | .Assertion _ next => loops_read next
  | .Alternation lhs rhs next => loops_read lhs && loops_read rhs && loops_read next
  | .Repetition .ZeroOrOne inner next => loops_read inner && loops_read next
  | .Repetition .ZeroOrMore inner next => !nullable inner && loops_read inner && loops_read next
  | .Repetition .OneOrMore inner next => !nullable inner && loops_read inner && loops_read next

/-- The matcher, started at instruction `pc` with the data cursor `data`, returns a
boolean under some step budget. -/
def Halts (P : List Instruction) (pc : Int) (data : Range) : Prop :=
  ∃ b, Returns P pc data b

/-! ## Walks that leave a fragment, and the meaning of a tree -/

/-- One step of a walk: the rule of the instruction under the program cursor. -/
inductive Step (program : List Instruction) : Int → Range → Int → Range → Prop
  | character {pc : Int} {data : Range} {c : Char} {rest : List Char} :
      fetch program pc = some (.Character c) → data.rest = c :: rest →
      Step program pc data (pc + 1) ⟨data.offset + 1, rest⟩
  | bitset {pc : Int} {data : Range} {m : Bitset} {x : Char} {rest : List Char} :
      fetch program pc = some (.Bitset m) → data.rest = x :: rest → m.match_ x = some true →
      Step program pc data (pc + 1) ⟨data.offset + 1, rest⟩
  | assertion {pc : Int} {data : Range} {t : AssertionType} :
      fetch program pc = some (.Assertion t) → t.test data = true →
      Step program pc data (pc + 1) data
  | jump {pc : Int} {data : Range} {target : Int} :
      fetch program pc = some (.Jump target) → Step program pc data (pc + target) data
  | split_lhs {pc : Int} {data : Range} {lhs rhs : Int} :
      fetch program pc = some (.Split lhs rhs) → Step program pc data (pc + lhs) data
  | split_rhs {pc : Int} {data : Range} {lhs rhs : Int} :
      fetch program pc = some (.Split lhs rhs) → Step program pc data (pc + rhs) data

/-- A walk of `n` steps from one program and data cursor to another. -/
inductive Walk (program : List Instruction) : Nat → Int → Range → Int → Range → Prop
  | stop (pc : Int) (data : Range) : Walk program 0 pc data pc data
  | step {n : Nat} {pc pc1 pc2 : Int} {data data1 data2 : Range} :
      Step program pc data pc1 data1 → Walk program n pc1 data1 pc2 data2 →
      Walk program (n + 1) pc data pc2 data2

/-- The data cursor over the input `s` at position `i`. -/
def cursor (s : List Char) (i : Nat) : Range := ⟨i, s.drop i⟩

/-- Membership of a code unit in a named class, as the specification words it: digits are
`0`..`9`; word characters are `a`..`z`, `A`..`Z` and `_`; whitespace is space, tab and
newline; "all" is every code unit but newline; a negated class is the complement. -/
def in_class (t : CharacterClassType) (negate : Bool) (x : Char) : Bool :=
  let named : Bool :=
    match t with
    | .Digits => decide ('0' ≤ x ∧ x ≤ '9')
    | .Word => decide (('a' ≤ x ∧ x ≤ 'z') ∨ ('A' ≤ x ∧ x ≤ 'Z') ∨ x = '_')
    | .Whitespace => decide (x = ' ' ∨ x = '\t' ∨ x = '\n')
    | .All => decide (x ≠ '\n')
  if negate then !named else named

/-- The reference meaning of a tree, as the specification words it: `Matches s a i j` says
that the part of `s` from position `i` up to position `j` matches the chain `a`. A
`Character` is exactly that code unit, a `CharacterClass` one code unit of the class, an
`Alternation` its `lhs` or its `rhs`, a `Repetition` zero or one, zero or more, one or more
copies of `inner`, an `Assertion` is empty and holds at position 0 (start) or at the length
of `s` (end), and a `next` chain is its nodes one after another. -/
inductive Matches (s : List Char) : AtomPointer → Nat → Nat → Prop
  | null (i : Nat) : Matches s .null i i
  | character {c : Char} {next : AtomPointer} {i j : Nat} :
      s.get? i = some c → Matches s next (i + 1) j → Matches s (.Character c next) i j
  | char_class {t : CharacterClassType} {negate : Bool} {next : AtomPointer} {x : Char}
      {i j : Nat} :
      s.get? i = some x → in_class t negate x = true → Matches s next (i + 1) j →
      Matches s (.CharacterClass t negate next) i j
  | begin_of_string {next : AtomPointer} {j : Nat} :
      Matches s next 0 j → Matches s (.Assertion .BeginOfString next) 0 j
  | end_of_string {next : AtomPointer} {j : Nat} :
      Matches s next s.length j → Matches s (.Assertion .EndOfString next) s.length j
  | alternation_lhs {lhs rhs next : AtomPointer} {i m j : Nat} :
      Matches s lhs i m → Matches s next m j → Matches s (.Alternation lhs rhs next) i j
  | alternation_rhs {lhs rhs next : AtomPointer} {i m j : Nat} :
      Matches s rhs i m → Matches s next m j → Matches s (.Alternation lhs rhs next) i j
  | zero_or_one_none {inner next : AtomPointer} {i j : Nat} :
      Matches s next i j → Matches s (.Repetition .ZeroOrOne inner next) i j
  | zero_or_one_once {inner next : AtomPointer} {i m j : Nat} :
      Matches s inner i m → Matches s next m j →
      Matches s (.Repetition .ZeroOrOne inner next) i j
  | zero_or_more_none {inner next : AtomPointer} {i j : Nat} :
      Matches s next i j → Matches s (.Repetition .ZeroOrMore inner next) i j
  | zero_or_more_again {inner next : AtomPointer} {i m j : Nat} :
      Matches s inner i m → Matches s (.Repetition .ZeroOrMore inner next) m j →
      Matches s (.Repetition .ZeroOrMore inner next) i j
  | one_or_more_once {inner next : AtomPointer} {i m j : Nat} :
      Matches s inner i m → Matches s next m j →
      Matches s (.Repetition .OneOrMore inner next) i j
  | one_or_more_again {inner next : AtomPointer} {i m j : Nat} :
      Matches s inner i m → Matches s (.Repetition .OneOrMore inner next) m j →
      Matches s (.Repetition .OneOrMore inner next) i j

/-! ## Scan positions after a failed parse, and teardown of the tree -/

/-- The text at the scan position begins with `(` or with a backslash. -/
def opens_or_escapes (current : List Char) : Bool :=
  match current with
  | x :: _ => x == '(' || x == '\\'
  | [] => false

/-- A pointer field of a node: `next` of the base `Atom`, `inner` of a `Repetition`, `lhs`
and `rhs` of an `Alternation`. -/
inductive Link
  | next
  | inner
  | lhs
  | rhs
  deriving DecidableEq, Repr

/-- The function `deallocate` of `ast.h`, as the list of its `delete` statements in the
order they are executed: each deleted node is named by the fields that lead to it from `p`
(the parser stores every node it creates in one field, so the nodes under `p` form a tree).
A `Character` or `CharacterClass` node tears down `next` and is deleted, a `Repetition`
tears down `inner` and `next`, an `Alternation` `lhs`, `rhs` and `next`; the chain of
`if`/`else if` has no branch for `Type::Assertion`, so for such a node the function returns
without a recursive call and without a `delete`. -/
def deallocate : AtomPointer → List (List Link)
  | .null => []
  | .Character _ next => (deallocate next).map (List.cons Link.next) ++ [[]]
  | .CharacterClass _ _ next => (deallocate next).map (List.cons Link.next) ++ [[]]
  | .Repetition _ inner next =>
    (deallocate inner).map (List.cons Link.inner) ++
      (deallocate next).map (List.cons Link.next) ++ [[]]
  | .Alternation lhs rhs next =>
    (deallocate lhs).map (List.cons Link.lhs) ++ (deallocate rhs).map (List.cons Link.rhs) ++
      (deallocate next).map (List.cons Link.next) ++ [[]]
  | .Assertion _ _ => []

/-- The nodes reachable from `p` through `next`, `inner`, `lhs` and `rhs`, each named by the
fields that lead to it from `p`; `[]` is the node `p` points to. -/
def reachable : AtomPointer → List (List Link)
  | .null => []
  | .Character _ next => [] :: (reachable next).map (List.cons Link.next)
  | .CharacterClass _ _ next => [] :: (reachable next).map (List.cons Link.next)
  | .Repetition _ inner next =>
    [] :: ((reachable inner).map (List.cons Link.inner) ++
      (reachable next).map (List.cons Link.next))
  | .Alternation lhs rhs next =>
    [] :: ((reachable lhs).map (List.cons Link.lhs) ++
      (reachable rhs).map (List.cons Link.rhs) ++ (reachable next).map (List.cons Link.next))
  | .Assertion _ next => [] :: (reachable next).map (List.cons Link.next)

/-- No node reachable from `p` is an `Assertion`. -/
def assertion_free : AtomPointer → Bool
  | .null => true
  | .Character _ next => assertion_free next
  | .CharacterClass _ _ next => assertion_free next
  | .Repetition _ inner next => assertion_free inner && assertion_free next
  | .Alternation lhs rhs next => assertion_free lhs && assertion_free rhs && assertion_free next
  | .Assertion _ _ => false

/-! ## The matcher: one pass of the loop -/

theorem fetch_bounds {P : List Instruction} {pc : Int} {ins : Instruction}
    (h : fetch P pc = some ins) : 0 ≤ pc ∧ pc < P.length := by
  unfold fetch at h
  split at h
  · rename_i h0
    refine ⟨h0, ?_⟩
    have hlt : pc.toNat < P.length := by
      by_contra hge
      rw [List.get?_eq_none.mpr (Nat.le_of_not_lt hge)] at h
      cases h
    omega
  · cases h

theorem fetch_ne_length {P : List Instruction} {pc : Int} {ins : Instruction}
    (h : fetch P pc = some ins) : pc ≠ P.length := by
  have := fetch_bounds h
  omega

theorem mf_end {P : List Instruction} {pc : Int} (n : Nat) (data : Range)
    (h : pc = P.length) : match_fragment P (n + 1) pc data = .returned false := by
  rw [match_fragment]; simp [h]

theorem mf_outside {P : List Instruction} {pc : Int} (n : Nat) (data : Range)
    (h : pc ≠ P.length) (hf : fetch P pc = none) :
    match_fragment P (n + 1) pc data = .undefined := by
  rw [match_fragment]; simp [h, hf]

theorem mf_character_hit {P : List Instruction} {pc : Int} {c : Char} (n : Nat) {data : Range}
    {rest : List Char} (hf : fetch P pc = some (.Character c)) (hd : data.rest = c :: rest) :
    match_fragment P (n + 1) pc data = match_fragment P n (pc + 1) ⟨data.offset + 1, rest⟩ := by
  rw [match_fragment]; simp [fetch_ne_length hf, hf, hd]

theorem mf_character_miss {P : List Instruction} {pc : Int} {c x : Char} (n : Nat) {data : Range}
    {rest : List Char} (hf : fetch P pc = some (.Character c)) (hd : data.rest = x :: rest)
    (hx : c ≠ x) : match_fragment P (n + 1) pc data = .returned false := by
  rw [match_fragment]; simp [fetch_ne_length hf, hf, hd, hx]

theorem mf_character_empty {P : List Instruction} {pc : Int} {c : Char} (n : Nat) {data : Range}
    (hf : fetch P pc = some (.Character c)) (hd : data.rest = []) :
    match_fragment P (n + 1) pc data = .returned false := by
  rw [match_fragment]; simp [fetch_ne_length hf, hf, hd]

theorem mf_bitset_hit {P : List Instruction} {pc : Int} {m : Bitset} (n : Nat) {data : Range}
    {x : Char} {rest : List Char} (hf : fetch P pc = some (.Bitset m)) (hd : data.rest = x :: rest)
    (hm : m.match_ x = some true) :
    match_fragment P (n + 1) pc data = match_fragment P n (pc + 1) ⟨data.offset + 1, rest⟩ := by
  rw [match_fragment]; simp [fetch_ne_length hf, hf, hd, hm]

theorem mf_bitset_miss {P : List Instruction} {pc : Int} {m : Bitset} (n : Nat) {data : Range}
    {x : Char} {rest : List Char} (hf : fetch P pc = some (.Bitset m)) (hd : data.rest = x :: rest)
    (hm : m.match_ x = some false) : match_fragment P (n + 1) pc data = .returned false := by
  rw [match_fragment]; simp [fetch_ne_length hf, hf, hd, hm]

theorem mf_bitset_outside {P : List Instruction} {pc : Int} {m : Bitset} (n : Nat) {data : Range}
    {x : Char} {rest : List Char} (hf : fetch P pc = some (.Bitset m)) (hd : data.rest = x :: rest)
    (hm : m.match_ x = none) : match_fragment P (n + 1) pc data = .undefined := by
  rw [match_fragment]; simp [fetch_ne_length hf, hf, hd, hm]

theorem mf_bitset_empty {P : List Instruction} {pc : Int} {m : Bitset} (n : Nat) {data : Range}
    (hf : fetch P pc = some (.Bitset m)) (hd : data.rest = []) :
    match_fragment P (n + 1) pc data = .returned false := by
  rw [match_fragment]; simp [fetch_ne_length hf, hf, hd]

theorem mf_split {P : List Instruction} {pc lhs rhs : Int} (n : Nat) (data : Range)
    (hf : fetch P pc = some (.Split lhs rhs)) :
    match_fragment P (n + 1) pc data =
      match match_fragment P n (pc + lhs) data with
      | .returned false => match_fragment P n (pc + rhs) data
      | result => result := by
  rw [match_fragment]; simp [fetch_ne_length hf, hf]

theorem mf_assertion_holds {P : List Instruction} {pc : Int} {t : AssertionType} (n : Nat)
    {data : Range} (hf : fetch P pc = some (.Assertion t)) (ht : t.test data = true) :
    match_fragment P (n + 1) pc data = match_fragment P n (pc + 1) data := by
  rw [match_fragment]; simp [fetch_ne_length hf, hf, ht]

theorem mf_assertion_fails {P : List Instruction} {pc : Int} {t : AssertionType} (n : Nat)
    {data : Range} (hf : fetch P pc = some (.Assertion t)) (ht : t.test data = false) :
    match_fragment P (n + 1) pc data = .returned false := by
  rw [match_fragment]; simp [fetch_ne_length hf, hf, ht]

theorem mf_jump {P : List Instruction} {pc target : Int} (n : Nat) (data : Range)
    (hf : fetch P pc = some (.Jump target)) :
    match_fragment P (n + 1) pc data = match_fragment P n (pc + target) data := by
  rw [match_fragment]; simp [fetch_ne_length hf, hf]

theorem mf_match {P : List Instruction} {pc : Int} (n : Nat) (data : Range)
    (hf : fetch P pc = some .Match) : match_fragment P (n + 1) pc data = .returned true := by
  rw [match_fragment]; simp [fetch_ne_length hf, hf]

theorem mf_split_false {P : List Instruction} {pc lhs rhs : Int} {n : Nat} {data : Range}
    (hf : fetch P pc = some (.Split lhs rhs))
    (h : match_fragment P (n + 1) pc data = .returned false) :
    match_fragment P n (pc + lhs) data = .returned false ∧
      match_fragment P n (pc + rhs) data = .returned false := by
  rw [mf_split _ _ hf] at h
  cases hl : match_fragment P n (pc + lhs) data with
  | returned v =>
    cases v with
    | true => simp [hl] at h
    | false => simp only [hl] at h; exact ⟨rfl, h⟩
  | undefined => simp [hl] at h
  | out_of_fuel => simp [hl] at h

theorem mf_split_true {P : List Instruction} {pc lhs rhs : Int} {n : Nat} {data : Range}
    (hf : fetch P pc = some (.Split lhs rhs))
    (h : match_fragment P (n + 1) pc data = .returned true) :
    match_fragment P n (pc + lhs) data = .returned true ∨
      (match_fragment P n (pc + lhs) data = .returned false ∧
        match_fragment P n (pc + rhs) data = .returned true) := by
  rw [mf_split _ _ hf] at h
  cases hl : match_fragment P n (pc + lhs) data with
  | returned v =>
    cases v with
    | true => exact Or.inl rfl
    | false => simp only [hl] at h; exact Or.inr ⟨rfl, h⟩
  | undefined => simp [hl] at h
  | out_of_fuel => simp [hl] at h

/-- A larger budget does not change a returned value. -/
theorem match_fragment_succ_fuel (P : List Instruction) :
    ∀ (fuel : Nat) (pc : Int) (data : Range) (b : Bool),
      match_fragment P fuel pc data = .returned b →
      match_fragment P (fuel + 1) pc data = .returned b := by
  intro fuel
  induction fuel with
  | zero => intro pc data b h; simp [match_fragment] at h
  | succ n ih =>
    intro pc data b h
    by_cases hpc : pc = P.length
    · rw [mf_end _ _ hpc] at h; rw [mf_end _ _ hpc]; exact h
    cases hf : fetch P pc with
    | none => rw [mf_outside _ _ hpc hf] at h; cases h
    | some ins =>
      cases ins with
      | Character c =>
        cases hd : data.rest with
        | nil => rw [mf_character_empty _ hf hd] at h ⊢; exact h
        | cons x rest =>
          by_cases hc : c = x
          · subst hc
            rw [mf_character_hit _ hf hd] at h ⊢
            exact ih _ _ _ h
          · rw [mf_character_miss _ hf hd hc] at h ⊢; exact h
      | Bitset m =>
        cases hd : data.rest with
        | nil => rw [mf_bitset_empty _ hf hd] at h ⊢; exact h
        | cons x rest =>
          cases hm : m.match_ x with
          | none => rw [mf_bitset_outside _ hf hd hm] at h; cases h
          | some v =>
            cases v with
            | true => rw [mf_bitset_hit _ hf hd hm] at h ⊢; exact ih _ _ _ h
            | false => rw [mf_bitset_miss _ hf hd hm] at h ⊢; exact h
      | Split lhs rhs =>
        rw [mf_split _ _ hf] at h ⊢
        cases hl : match_fragment P n (pc + lhs) data with
        | returned v =>
          cases v with
          | true =>
            simp only [hl] at h
            simp only [ih _ _ _ hl]
            exact h
          | false =>
            simp only [hl] at h
            simp only [ih _ _ _ hl]
            exact ih _ _ _ h
        | undefined => simp [hl] at h
        | out_of_fuel => simp [hl] at h
      | Assertion t =>
        cases ht : t.test data with
        | true => rw [mf_assertion_holds _ hf ht] at h ⊢; exact ih _ _ _ h
        | false => rw [mf_assertion_fails _ hf ht] at h ⊢; exact h
      | Jump target => rw [mf_jump _ _ hf] at h ⊢; exact ih _ _ _ h
      | Match => rw [mf_match _ _ hf]; rw [mf_match _ _ hf] at h; exact h

theorem match_fragment_mono (P : List Instruction) {fuel fuel2 : Nat} (hle : fuel ≤ fuel2)
    {pc : Int} {data : Range} {b : Bool}
    (h : match_fragment P fuel pc data = .returned b) :
    match_fragment P fuel2 pc data = .returned b := by
  induction hle with
  | refl => exact h
  | step _ ih => exact match_fragment_succ_fuel P _ _ _ _ ih

/-- Two budgets under which the matcher returns give the same value. -/
theorem match_fragment_det (P : List Instruction) {f1 f2 : Nat} {pc : Int} {data : Range}
    {b1 b2 : Bool} (h1 : match_fragment P f1 pc data = .returned b1)
    (h2 : match_fragment P f2 pc data = .returned b2) : b1 = b2 := by
  have e1 := match_fragment_mono P (Nat.le_max_left f1 f2) h1
  have e2 := match_fragment_mono P (Nat.le_max_right f1 f2) h2
  rw [e1] at e2
  cases e2
  rfl

/-! ## Walks -/

/-- A returned `true` comes with a walk to `Match`. -/
theorem match_fragment_sound (P : List Instruction) :
    ∀ (fuel : Nat) (pc : Int) (data : Range),
      match_fragment P fuel pc data = .returned true → ∃ final, Reaches P pc data final := by
  intro fuel
  induction fuel with
  | zero => intro pc data h; simp [match_fragment] at h
  | succ n ih =>
    intro pc data h
    by_cases hpc : pc = P.length
    · rw [mf_end _ _ hpc] at h; cases h
    cases hf : fetch P pc with
    | none => rw [mf_outside _ _ hpc hf] at h; cases h
    | some ins =>
      cases ins with
      | Character c =>
        cases hd : data.rest with
        | nil => rw [mf_character_empty _ hf hd] at h; cases h
        | cons x rest =>
          by_cases hc : c = x
          · subst hc
            rw [mf_character_hit _ hf hd] at h
            obtain ⟨final, hr⟩ := ih _ _ h
            exact ⟨final, Reaches.character hf hd hr⟩
          · rw [mf_character_miss _ hf hd hc] at h; cases h
      | Bitset m =>
        cases hd : data.rest with
        | nil => rw [mf_bitset_empty _ hf hd] at h; cases h
        | cons x rest =>
          cases hm : m.match_ x with
          | none => rw [mf_bitset_outside _ hf hd hm] at h; cases h
          | some v =>
            cases v with
            | true =>
              rw [mf_bitset_hit _ hf hd hm] at h
              obtain ⟨final, hr⟩ := ih _ _ h
              exact ⟨final, Reaches.bitset hf hd hm hr⟩
            | false => rw [mf_bitset_miss _ hf hd hm] at h; cases h
      | Split lhs rhs =>
        rw [mf_split _ _ hf] at h
        cases hl : match_fragment P n (pc + lhs) data with
        | returned v =>
          cases v with
          | true =>
            obtain ⟨final, hr⟩ := ih _ _ hl
            exact ⟨final, Reaches.split_lhs hf hr⟩
          | false =>
            simp only [hl] at h
            obtain ⟨final, hr⟩ := ih _ _ h
            exact ⟨final, Reaches.split_rhs hf hr⟩
        | undefined => simp [hl] at h
        | out_of_fuel => simp [hl] at h
      | Assertion t =>
        cases ht : t.test data with
        | true =>
          rw [mf_assertion_holds _ hf ht] at h
          obtain ⟨final, hr⟩ := ih _ _ h
          exact ⟨final, Reaches.assertion hf ht hr⟩
        | false => rw [mf_assertion_fails _ hf ht] at h; cases h
      | Jump target =>
        rw [mf_jump _ _ hf] at h
        obtain ⟨final, hr⟩ := ih _ _ h
        exact ⟨final, Reaches.jump hf hr⟩
      | Match => exact ⟨data, Reaches.done hf⟩

/-- A returned `false` excludes every walk to `Match`. -/
theorem match_fragment_complete (P : List Instruction) :
    ∀ (fuel : Nat) (pc : Int) (data : Range),
      match_fragment P fuel pc data = .returned false → ∀ final, ¬ Reaches P pc data final := by
  intro fuel
  induction fuel with
  | zero => intro pc data h; simp [match_fragment] at h
  | succ n ih =>
    intro pc data h final hr
    cases hr with
    | done hf => rw [mf_match _ _ hf] at h; cases h
    | character hf hd hr =>
      rw [mf_character_hit _ hf hd] at h
      exact ih _ _ h _ hr
    | bitset hf hd hm hr =>
      rw [mf_bitset_hit _ hf hd hm] at h
      exact ih _ _ h _ hr
    | assertion hf ht hr =>
      rw [mf_assertion_holds _ hf ht] at h
      exact ih _ _ h _ hr
    | jump hf hr =>
      rw [mf_jump _ _ hf] at h
      exact ih _ _ h _ hr
    | split_lhs hf hr => exact ih _ _ (mf_split_false hf h).1 _ hr
    | split_rhs hf hr => exact ih _ _ (mf_split_false hf h).2 _ hr

/-! ## Code inside a program -/

theorem code_at_self (P : List Instruction) : code_at P 0 P :=
  ⟨[], [], by simp, rfl⟩

theorem code_at_front (A B : List Instruction) : code_at (A ++ B) 0 A :=
  ⟨[], B, by simp, rfl⟩

theorem code_at_suffix (A B : List Instruction) : code_at (A ++ B) A.length B :=
  ⟨A, [], by simp, rfl⟩

theorem code_at_head {P : List Instruction} {k : Nat} {ins : Instruction} {C : List Instruction}
    (h : code_at P k (ins :: C)) : fetch P k = some ins := by
  obtain ⟨pre, post, hP, hk⟩ := h
  subst hP hk
  simp only [fetch, Int.toNat_ofNat, List.append_assoc, List.cons_append]
  rw [if_pos (Int.ofNat_nonneg _), List.get?_eq_getElem?,
    List.getElem?_append_right (Nat.le_refl _)]
  simp

theorem code_at_tail {P : List Instruction} {k : Nat} {ins : Instruction} {C : List Instruction}
    (h : code_at P k (ins :: C)) : code_at P (k + 1) C := by
  obtain ⟨pre, post, hP, hk⟩ := h
  exact ⟨pre ++ [ins], post, by simp [hP], by simp [hk]⟩

theorem code_at_append_left {P : List Instruction} {k : Nat} {A B : List Instruction}
    (h : code_at P k (A ++ B)) : code_at P k A := by
  obtain ⟨pre, post, hP, hk⟩ := h
  exact ⟨pre, B ++ post, by simp [hP], hk⟩

theorem code_at_append_right {P : List Instruction} {k : Nat} {A B : List Instruction}
    (h : code_at P k (A ++ B)) : code_at P (k + A.length) B := by
  obtain ⟨pre, post, hP, hk⟩ := h
  exact ⟨pre ++ A, post, by simp [hP], by simp [hk]⟩

theorem code_at_get {P : List Instruction} {k : Nat} {C : List Instruction}
    (h : code_at P k C) {i : Nat} {ins : Instruction} (hi : C.get? i = some ins) :
    fetch P ((k + i : Nat) : Int) = some ins := by
  obtain ⟨pre, post, hP, hk⟩ := h
  subst hP hk
  have hlt : i < C.length := by
    by_contra hge
    rw [List.get?_eq_none.mpr (Nat.le_of_not_lt hge)] at hi
    cases hi
  simp only [fetch, Int.toNat_ofNat, List.append_assoc]
  rw [if_pos (Int.ofNat_nonneg _)]
  rw [List.get?_eq_getElem?, List.getElem?_append_right (by omega)]
  rw [List.getElem?_append_left (by omega)]
  rw [List.get?_eq_getElem?] at hi
  simpa using hi

theorem code_at_length {P : List Instruction} {k : Nat} {C : List Instruction}
    (h : code_at P k C) : k + C.length ≤ P.length := by
  obtain ⟨pre, post, hP, hk⟩ := h
  subst hP hk
  simp

/-! ## Branch targets of compiled code -/

theorem code_within_nil (idx lo hi : Int) : code_within [] idx lo hi ↔ True := Iff.rfl

theorem code_within_cons (ins : Instruction) (rest : List Instruction) (idx lo hi : Int) :
    code_within (ins :: rest) idx lo hi ↔
      ins.inner_ok idx lo hi ∧ code_within rest (idx + 1) lo hi := Iff.rfl

theorem inner_ok_mono {ins : Instruction} {idx lo hi lo2 hi2 : Int} (hlo : lo2 ≤ lo)
    (hhi : hi ≤ hi2) (h : ins.inner_ok idx lo hi) : ins.inner_ok idx lo2 hi2 := by
  cases ins <;> simp only [Instruction.inner_ok] at h ⊢ <;> omega

theorem code_within_mono {code : List Instruction} :
    ∀ {idx lo hi lo2 hi2 : Int}, lo2 ≤ lo → hi ≤ hi2 → code_within code idx lo hi →
      code_within code idx lo2 hi2 := by
  induction code with
  | nil => intro idx lo hi lo2 hi2 _ _ _; exact trivial
  | cons ins rest ih =>
    intro idx lo hi lo2 hi2 hlo hhi h
    exact ⟨inner_ok_mono hlo hhi h.1, ih hlo hhi h.2⟩

theorem code_within_append {A B : List Instruction} :
    ∀ {idx lo hi : Int}, code_within (A ++ B) idx lo hi ↔
      code_within A idx lo hi ∧ code_within B (idx + A.length) lo hi := by
  induction A with
  | nil => intro idx lo hi; simp [code_within_nil]
  | cons ins rest ih =>
    intro idx lo hi
    have e : idx + 1 + (rest.length : Int) = idx + ((rest.length : Int) + 1) := by ring
    simp only [List.cons_append, code_within_cons, List.length_cons, ih, Nat.cast_add,
      Nat.cast_one, e, and_assoc]

theorem code_within_get {code : List Instruction} :
    ∀ {idx lo hi : Int} {i : Nat} {ins : Instruction}, code_within code idx lo hi →
      code.get? i = some ins → ins.inner_ok (idx + i) lo hi := by
  induction code with
  | nil => intro idx lo hi i ins _ hi2; simp at hi2
  | cons head rest ih =>
    intro idx lo hi i ins h hget
    cases i with
    | zero =>
      simp at hget
      subst hget
      simpa using h.1
    | succ j =>
      simp at hget
      have := ih h.2 (by simpa using hget)
      have e : idx + 1 + (j : Int) = idx + ((j + 1 : Nat) : Int) := by push_cast; ring
      rw [e] at this
      exact this

/-- Compiled code branches only to its own instructions and to the index just after it,
and holds no `Match`. -/
theorem compile_fragment_within :
    ∀ (a : AtomPointer) (idx : Int),
      code_within (compile_fragment a) idx idx (idx + (compile_fragment a).length) := by
  intro a
  induction a with
  | null => intro idx; simp [compile_fragment, code_within_nil]
  | Character c next ih =>
    intro idx
    simp only [compile_fragment, List.singleton_append, code_within_cons, Instruction.inner_ok,
      true_and, List.length_cons, Nat.cast_add, Nat.cast_one]
    exact code_within_mono (by omega) (by omega) (ih (idx + 1))
  | CharacterClass t negate next ih =>
    intro idx
    simp only [compile_fragment, List.singleton_append, code_within_cons, Instruction.inner_ok,
      true_and, List.length_cons, Nat.cast_add, Nat.cast_one]
    exact code_within_mono (by omega) (by omega) (ih (idx + 1))
  | Assertion t next ih =>
    intro idx
    simp only [compile_fragment, List.singleton_append, code_within_cons, Instruction.inner_ok,
      true_and, List.length_cons, Nat.cast_add, Nat.cast_one]
    exact code_within_mono (by omega) (by omega) (ih (idx + 1))
  | Alternation lhs rhs next ihl ihr ihn =>
    intro idx
    simp only [compile_fragment, alternation_code, code_within_append, List.length_append,
      List.length_cons, List.length_nil, code_within_cons, code_within_nil,
      Instruction.inner_ok, Nat.cast_add, Nat.cast_one, and_true, Nat.cast_zero, zero_add]
    repeat' apply And.intro
    all_goals
      first
      | omega
      | (refine code_within_mono ?_ ?_ (ihl _) <;> omega)
      | (refine code_within_mono ?_ ?_ (ihr _) <;> omega)
      | (refine code_within_mono ?_ ?_ (ihn _) <;> omega)
  | Repetition type inner next ihi ihn =>
    intro idx
    cases type <;>
    · simp only [compile_fragment, repetition_code, code_within_append, List.length_append,
        List.length_cons, List.length_nil, code_within_cons, code_within_nil,
        Instruction.inner_ok, Nat.cast_add, Nat.cast_one, and_true, Nat.cast_zero, zero_add]
      repeat' apply And.intro
      all_goals
        first
        | omega
        | (refine code_within_mono ?_ ?_ (ihi _) <;> omega)
        | (refine code_within_mono ?_ ?_ (ihn _) <;> omega)

/-! ## The full-match program -/

theorem fetch_nat (P : List Instruction) (k : Nat) : fetch P (k : Int) = P.get? k := by
  simp [fetch]

theorem fetch_append_inner {code tail : List Instruction} {k : Nat} (hk : k < code.length) :
    fetch (code ++ tail) (k : Int) = code.get? k := by
  rw [fetch_nat, List.get?_eq_getElem?, List.get?_eq_getElem?, List.getElem?_append_left hk]

theorem fetch_append_tail {code tail : List Instruction} (j : Nat) :
    fetch (code ++ tail) ((code.length + j : Nat) : Int) = tail.get? j := by
  rw [fetch_nat, List.get?_eq_getElem?, List.get?_eq_getElem?,
    List.getElem?_append_right (Nat.le_add_right _ _)]
  simp

/-- Along a walk the code units read and the code units left add up to the same total. -/
theorem reaches_total {P : List Instruction} {pc : Int} {data final : Range}
    (h : Reaches P pc data final) :
    final.offset + final.rest.length = data.offset + data.rest.length := by
  induction h with
  | done _ => rfl
  | character _ hd _ ih => rw [ih, hd]; simp; omega
  | bitset _ hd _ _ ih => rw [ih, hd]; simp; omega
  | assertion _ _ _ ih => exact ih
  | jump _ _ ih => exact ih
  | split_lhs _ _ ih => exact ih
  | split_rhs _ _ ih => exact ih

theorem compile_full_eq {p : List Char} {compiled : List Instruction}
    (h : compile_full p = some compiled) :
    ∃ ast, parse p = some ast ∧ compiled = full_program (compile_fragment ast) := by
  unfold compile_full at h
  cases hp : parse p with
  | none => simp [hp] at h
  | some ast =>
    simp only [hp, Option.some.injEq] at h
    exact ⟨ast, rfl, h.symm⟩

theorem compile_partial_eq {p : List Char} {compiled : List Instruction}
    (h : compile_partial p = some compiled) :
    ∃ ast, parse p = some ast ∧ compiled = partial_program (compile_fragment ast) := by
  unfold compile_partial at h
  cases hp : parse p with
  | none => simp [hp] at h
  | some ast =>
    simp only [hp, Option.some.injEq] at h
    exact ⟨ast, rfl, h.symm⟩

theorem full_program_at_end (code : List Instruction) :
    fetch (full_program code) (code.length : Int) = some (.Assertion .EndOfString) := by
  have := @fetch_append_tail code [Instruction.Assertion .EndOfString, Instruction.Match] 0
  simpa [full_program] using this

theorem full_program_at_match (code : List Instruction) :
    fetch (full_program code) ((code.length : Int) + 1) = some .Match := by
  have := @fetch_append_tail code [Instruction.Assertion .EndOfString, Instruction.Match] 1
  simpa [full_program] using this

/-- A walk that starts on the final `Match` of a full program stops there. -/
theorem reaches_from_match {code : List Instruction} {data final : Range}
    (h : Reaches (full_program code) ((code.length : Int) + 1) data final) : final = data := by
  have hm := full_program_at_match code
  cases h with
  | done _ => rfl
  | character hf _ _ => rw [hm] at hf; cases hf
  | bitset hf _ _ _ => rw [hm] at hf; cases hf
  | assertion hf _ _ => rw [hm] at hf; cases hf
  | jump hf _ => rw [hm] at hf; cases hf
  | split_lhs hf _ => rw [hm] at hf; cases hf
  | split_rhs hf _ => rw [hm] at hf; cases hf

/-- In a full program every walk from inside the pattern code to `Match` passes the end
assertion, so it ends with no code unit left. -/
theorem full_program_walk_consumes {code : List Instruction}
    (hc : code_within code 0 0 code.length) {pc : Int} {data final : Range}
    (h : Reaches (full_program code) pc data final) :
    0 ≤ pc → pc ≤ code.length → final.rest = [] := by
  induction h with
  | @done pc data hf =>
    intro h0 hn
    obtain ⟨k, rfl⟩ := Int.eq_ofNat_of_zero_le h0
    by_cases hk : k < code.length
    · rw [full_program, fetch_append_inner hk] at hf
      have := code_within_get hc hf
      simp [Instruction.inner_ok] at this
    · have hk2 : k = code.length := by omega
      subst hk2
      rw [full_program_at_end] at hf
      cases hf
  | @character pc data final c rest hf hd hr ih =>
    intro h0 hn
    obtain ⟨k, rfl⟩ := Int.eq_ofNat_of_zero_le h0
    by_cases hk : k < code.length
    · exact ih (by omega) (by omega)
    · have hk2 : k = code.length := by omega
      subst hk2
      rw [full_program_at_end] at hf
      cases hf
  | @bitset pc data final m x rest hf hd hm hr ih =>
    intro h0 hn
    obtain ⟨k, rfl⟩ := Int.eq_ofNat_of_zero_le h0
    by_cases hk : k < code.length
    · exact ih (by omega) (by omega)
    · have hk2 : k = code.length := by omega
      subst hk2
      rw [full_program_at_end] at hf
      cases hf
  | @assertion pc data final t hf ht hr ih =>
    intro h0 hn
    obtain ⟨k, rfl⟩ := Int.eq_ofNat_of_zero_le h0
    by_cases hk : k < code.length
    · exact ih (by omega) (by omega)
    · have hk2 : k = code.length := by omega
      subst hk2
      rw [full_program_at_end] at hf
      cases hf
      have := reaches_from_match hr
      subst this
      simpa [AssertionType.test, Range.empty] using ht
  | @jump pc data final target hf hr ih =>
    intro h0 hn
    obtain ⟨k, rfl⟩ := Int.eq_ofNat_of_zero_le h0
    by_cases hk : k < code.length
    · rw [full_program, fetch_append_inner hk] at hf
      have := code_within_get hc hf
      simp only [Instruction.inner_ok, zero_add] at this
      exact ih this.1 this.2
    · have hk2 : k = code.length := by omega
      subst hk2
      rw [full_program_at_end] at hf
      cases hf
  | @split_lhs pc data final lhs rhs hf hr ih =>
    intro h0 hn
    obtain ⟨k, rfl⟩ := Int.eq_ofNat_of_zero_le h0
    by_cases hk : k < code.length
    · rw [full_program, fetch_append_inner hk] at hf
      have := code_within_get hc hf
      simp only [Instruction.inner_ok, zero_add] at this
      exact ih this.1.1 this.1.2
    · have hk2 : k = code.length := by omega
      subst hk2
      rw [full_program_at_end] at hf
      cases hf
  | @split_rhs pc data final lhs rhs hf hr ih =>
    intro h0 hn
    obtain ⟨k, rfl⟩ := Int.eq_ofNat_of_zero_le h0
    by_cases hk : k < code.length
    · rw [full_program, fetch_append_inner hk] at hf
      have := code_within_get hc hf
      simp only [Instruction.inner_ok, zero_add] at this
      exact ih this.2.1 this.2.2
    · have hk2 : k = code.length := by omega
      subst hk2
      rw [full_program_at_end] at hf
      cases hf

theorem compile_fragment_closed (a : AtomPointer) :
    code_within (compile_fragment a) 0 0 (compile_fragment a).length := by
  have := compile_fragment_within a 0
  simpa using this

/-! ## The partial-match program runs the pattern code first -/

theorem partial_program_inner {code : List Instruction} {k : Nat} (hk : k < code.length) :
    fetch (partial_program code) ((k : Int) + 3) = code.get? k := by
  have h : code_at (partial_program code) 3 code := ⟨_, [Instruction.Match], rfl, rfl⟩
  cases hg : code.get? k with
  | none =>
    rw [List.get?_eq_none] at hg
    omega
  | some ins =>
    have := code_at_get h hg
    rw [← this]
    congr 1
    push_cast
    ring

theorem partial_program_at_match (code : List Instruction) :
    fetch (partial_program code) ((code.length : Int) + 3) = some .Match := by
  have h : code_at (partial_program code) (3 + code.length) [Instruction.Match] :=
    ⟨[Instruction.Split 3 1, Instruction.Bitset (make_range '\n' '\n').complement,
      Instruction.Jump (-2)] ++ code, [], by simp [partial_program], by simp; omega⟩
  have := code_at_head h
  rw [← this]
  congr 1
  push_cast
  ring

theorem partial_program_at_start (code : List Instruction) :
    fetch (partial_program code) 0 = some (.Split 3 1) := rfl

/-- Where the full program returns from a place in the pattern code, the partial program
returns from the same place with the same budget, and it returns `true` when the full
program does. -/
theorem partial_follows_full {code : List Instruction}
    (hc : code_within code 0 0 code.length) :
    ∀ (fuel : Nat) (pc : Int) (data : Range) (b : Bool), 0 ≤ pc → pc ≤ code.length →
      match_fragment (full_program code) fuel pc data = .returned b →
      match_fragment (partial_program code) fuel (pc + 3) data = .returned true ∨
        (b = false ∧
          match_fragment (partial_program code) fuel (pc + 3) data = .returned false) := by
  intro fuel
  induction fuel with
  | zero => intro pc data b _ _ h; simp [match_fragment] at h
  | succ n ih =>
    intro pc data b h0 hn h
    obtain ⟨k, rfl⟩ := Int.eq_ofNat_of_zero_le h0
    by_cases hk : k < code.length
    · have hF : fetch (full_program code) (k : Int) = code.get? k := by
        rw [full_program, fetch_append_inner hk]
      have hQ := @partial_program_inner code k hk
      cases hg : code.get? k with
      | none =>
        rw [List.get?_eq_none] at hg
        omega
      | some ins =>
        rw [hg] at hF hQ
        have hok := code_within_get hc hg
        cases ins with
        | Character c =>
          cases hd : data.rest with
          | nil =>
            rw [mf_character_empty _ hF hd] at h
            rw [mf_character_empty _ hQ hd]
            cases h
            exact Or.inr ⟨rfl, rfl⟩
          | cons x rest =>
            by_cases hcx : c = x
            · subst hcx
              rw [mf_character_hit _ hF hd] at h
              rw [mf_character_hit _ hQ hd]
              have := ih _ _ _ (by omega) (by omega) h
              rw [show ((k : Int) + 1 + 3) = (k : Int) + 3 + 1 by ring] at this
              exact this
            · rw [mf_character_miss _ hF hd hcx] at h
              rw [mf_character_miss _ hQ hd hcx]
              cases h
              exact Or.inr ⟨rfl, rfl⟩
        | Bitset m =>
          cases hd : data.rest with
          | nil =>
            rw [mf_bitset_empty _ hF hd] at h
            rw [mf_bitset_empty _ hQ hd]
            cases h
            exact Or.inr ⟨rfl, rfl⟩
          | cons x rest =>
            cases hm : m.match_ x with
            | none => rw [mf_bitset_outside _ hF hd hm] at h; cases h
            | some v =>
              cases v with
              | true =>
                rw [mf_bitset_hit _ hF hd hm] at h
                rw [mf_bitset_hit _ hQ hd hm]
                have := ih _ _ _ (by omega) (by omega) h
                rw [show ((k : Int) + 1 + 3) = (k : Int) + 3 + 1 by ring] at this
                exact this
              | false =>
                rw [mf_bitset_miss _ hF hd hm] at h
                rw [mf_bitset_miss _ hQ hd hm]
                cases h
                exact Or.inr ⟨rfl, rfl⟩
        | Assertion t =>
          cases ht : t.test data with
          | true =>
            rw [mf_assertion_holds _ hF ht] at h
            rw [mf_assertion_holds _ hQ ht]
            have := ih _ _ _ (by omega) (by omega) h
            rw [show ((k : Int) + 1 + 3) = (k : Int) + 3 + 1 by ring] at this
            exact this
          | false =>
            rw [mf_assertion_fails _ hF ht] at h
            rw [mf_assertion_fails _ hQ ht]
            cases h
            exact Or.inr ⟨rfl, rfl⟩
        | Jump target =>
          simp only [Instruction.inner_ok, zero_add] at hok
          rw [mf_jump _ _ hF] at h
          rw [mf_jump _ _ hQ]
          have := ih _ _ _ hok.1 hok.2 h
          rw [show ((k : Int) + target + 3) = (k : Int) + 3 + target by ring] at this
          exact this
        | Split lhs rhs =>
          simp only [Instruction.inner_ok, zero_add] at hok
          have el : ((k : Int) + lhs + 3) = (k : Int) + 3 + lhs := by ring
          have er : ((k : Int) + rhs + 3) = (k : Int) + 3 + rhs := by ring
          rw [mf_split _ _ hQ]
          cases b with
          | true =>
            left
            rcases mf_split_true hF h with hl | ⟨hl, hr⟩
            · rcases ih _ _ _ hok.1.1 hok.1.2 hl with q | ⟨q, _⟩
              · rw [el] at q; simp [q]
              · cases q
            · rcases ih _ _ _ hok.1.1 hok.1.2 hl with q | ⟨_, q⟩
              · rw [el] at q; simp [q]
              · rw [el] at q
                simp only [q]
                rcases ih _ _ _ hok.2.1 hok.2.2 hr with q2 | ⟨q2, _⟩
                · rw [er] at q2; exact q2
                · cases q2
          | false =>
            obtain ⟨hl, hr⟩ := mf_split_false hF h
            rcases ih _ _ _ hok.1.1 hok.1.2 hl with q | ⟨_, q⟩
            · rw [el] at q; simp [q]
            · rw [el] at q
              simp only [q]
              rcases ih _ _ _ hok.2.1 hok.2.2 hr with q2 | ⟨_, q2⟩
              · rw [er] at q2; exact Or.inl q2
              · rw [er] at q2; exact Or.inr ⟨trivial, q2⟩
        | Match => simp [Instruction.inner_ok] at hok
    · have hk2 : k = code.length := by omega
      subst hk2
      left
      exact mf_match _ _ (partial_program_at_match code)

/-- A `true` of the full program is a `true` of the partial program. -/
theorem partial_of_full (code : List Instruction) (hc : code_within code 0 0 code.length)
    (fuel : Nat) (data : Range)
    (h : match_fragment (full_program code) fuel 0 data = .returned true) :
    match_fragment (partial_program code) (fuel + 1) 0 data = .returned true := by
  rw [mf_split _ _ (partial_program_at_start code)]
  rcases partial_follows_full hc fuel 0 data true (le_refl _) (by omega) h with q | ⟨q, _⟩
  · simp only [zero_add] at q ⊢
    simp [q]
  · cases q

/-! ## A pattern on which the matcher does not return -/

theorem nested_star_compiled : compile_full "(a*)*".toList = some nested_star_program := by
  decide

/-- On the empty input the program of `(a*)*` comes back to its first `Split` without
reading anything, whatever the budget. -/
theorem nested_star_loops :
    ∀ fuel : Nat,
      match_fragment nested_star_program fuel 0 (Range.of []) = .out_of_fuel ∧
      match_fragment nested_star_program fuel 1 (Range.of []) = .out_of_fuel ∧
      match_fragment nested_star_program fuel 4 (Range.of []) = .out_of_fuel := by
  intro fuel
  induction fuel with
  | zero => exact ⟨rfl, rfl, rfl⟩
  | succ n ih =>
    obtain ⟨h0, h1, h4⟩ := ih
    have f0 : fetch nested_star_program 0 = some (.Split 1 5) := rfl
    have f1 : fetch nested_star_program 1 = some (.Split 1 3) := rfl
    have f2 : fetch nested_star_program 2 = some (.Character 'a') := rfl
    have f4 : fetch nested_star_program 4 = some (.Jump (-4)) := rfl
    refine ⟨?_, ?_, ?_⟩
    · rw [mf_split _ _ f0]
      simp only [zero_add, h1]
    · rw [mf_split _ _ f1]
      cases n with
      | zero => rfl
      | succ m =>
        have e : match_fragment nested_star_program (m + 1) (1 + 1) (Range.of []) =
            .returned false := mf_character_empty _ f2 rfl
        simp only [e]
        exact h4
    · rw [mf_jump _ _ f4]
      exact h0

/-! ## Rules of the parser -/

theorem consume_constant_hit (c : Char) (rest : List Char) :
    consume_constant c (c :: rest) = (true, rest) := by
  simp [consume_constant]

theorem consume_constant_miss {c x : Char} (rest : List Char) (h : x ≠ c) :
    consume_constant c (x :: rest) = (false, x :: rest) := by
  simp [consume_constant, h]

theorem consume_constant_nil (c : Char) : consume_constant c [] = (false, []) := rfl

theorem consume_constant_no_mark {current : List Char} (h : no_mark current) :
    consume_constant '?' current = (false, current) ∧
    consume_constant '*' current = (false, current) ∧
    consume_constant '+' current = (false, current) := by
  cases current with
  | nil => exact ⟨rfl, rfl, rfl⟩
  | cons x rest =>
    obtain ⟨h1, h2, h3⟩ := h x rest rfl
    exact ⟨consume_constant_miss _ h1, consume_constant_miss _ h2, consume_constant_miss _ h3⟩

theorem not_reserved {c : Char} (h : is_reserved_character c = false) :
    c ≠ '\\' ∧ c ≠ '|' ∧ c ≠ '(' ∧ c ≠ ')' ∧ c ≠ '*' ∧ c ≠ '+' ∧ c ≠ '?' ∧ c ≠ '.' ∧
      c ≠ '^' ∧ c ≠ '$' := by
  simp only [is_reserved_character, Bool.or_eq_false_iff, beq_eq_false_iff_ne, ne_eq] at h
  tauto

/-- A code unit that is not reserved parses as a `Character`. -/
theorem atom_character {c : Char} (rest : List Char) (h : is_reserved_character c = false) :
    yields parse_atom 1 (c :: rest) (some (.Character c .null), rest) := by
  intro fuel hf
  obtain ⟨n, rfl⟩ : ∃ n, fuel = n + 1 := ⟨fuel - 1, by omega⟩
  obtain ⟨h1, _, h3, _⟩ := not_reserved h
  rw [parse_atom]
  simp [consume_constant_miss _ h3, consume_constant_miss _ h1, h, parse_raw_character]

theorem reserved_not_alpha {c : Char} (h : is_reserved_character c = true) :
    c.isAlpha = false := by
  simp only [is_reserved_character, Bool.or_eq_true, beq_iff_eq] at h
  rcases h with ((((((((h | h) | h) | h) | h) | h) | h) | h) | h) | h <;> subst h <;> rfl

/-- A backslash before a reserved character parses as that `Character`. -/
theorem atom_escaped {c : Char} (rest : List Char) (h : is_reserved_character c = true) :
    yields parse_atom 1 ('\\' :: c :: rest) (some (.Character c .null), rest) := by
  intro fuel hf
  obtain ⟨n, rfl⟩ : ∃ n, fuel = n + 1 := ⟨fuel - 1, by omega⟩
  rw [parse_atom]
  have h1 : consume_constant '(' ('\\' :: c :: rest) = (false, '\\' :: c :: rest) :=
    consume_constant_miss _ (by decide)
  simp [h1, consume_constant_hit, isalpha_at, reserved_not_alpha h, parse_raw_character]

/-- A group: `(`, a regex, `)`. -/
theorem atom_group {cur1 cur3 : List Char} {ast : Option AtomPointer}
    (h : yields parse_regex 5 cur1 (ast, ')' :: cur3)) :
    yields parse_atom 1 ('(' :: cur1) (ast, cur3) := by
  intro fuel hf
  obtain ⟨n, rfl⟩ : ∃ n, fuel = n + 1 := ⟨fuel - 1, by omega⟩
  rw [parse_atom]
  simp only [consume_constant_hit]
  rw [h n (by simp at hf; omega)]
  simp [consume_constant_hit]

/-- At the end of the text, at `)` and at `|` no atom starts, and nothing is consumed. -/
theorem atom_stops {current : List Char} (h : stops current) :
    yields parse_atom 1 current (none, current) := by
  intro fuel hf
  obtain ⟨n, rfl⟩ : ∃ n, fuel = n + 1 := ⟨fuel - 1, by omega⟩
  cases current with
  | nil => rfl
  | cons x rest =>
    rw [parse_atom]
    rcases h x rest rfl with hx | hx <;> subst hx <;>
      simp [consume_constant, is_reserved_character]

theorem repetition_plain {current cur1 : List Char} {ast : AtomPointer}
    (h : yields parse_atom 1 current (some ast, cur1)) (hn : no_mark cur1) :
    yields parse_repetition 2 current (some ast, cur1) := by
  intro fuel hf
  obtain ⟨n, rfl⟩ : ∃ n, fuel = n + 1 := ⟨fuel - 1, by omega⟩
  obtain ⟨h1, h2, h3⟩ := consume_constant_no_mark hn
  rw [parse_repetition, h n (by omega)]
  simp [h1, h2, h3]

theorem repetition_zero_or_one {current cur2 : List Char} {ast : AtomPointer}
    (h : yields parse_atom 1 current (some ast, '?' :: cur2)) :
    yields parse_repetition 2 current (some (.Repetition .ZeroOrOne ast .null), cur2) := by
  intro fuel hf
  obtain ⟨n, rfl⟩ : ∃ n, fuel = n + 1 := ⟨fuel - 1, by omega⟩
  rw [parse_repetition, h n (by omega)]
  simp [consume_constant]

theorem repetition_zero_or_more {current cur2 : List Char} {ast : AtomPointer}
    (h : yields parse_atom 1 current (some ast, '*' :: cur2)) :
    yields parse_repetition 2 current (some (.Repetition .ZeroOrMore ast .null), cur2) := by
  intro fuel hf
  obtain ⟨n, rfl⟩ : ∃ n, fuel = n + 1 := ⟨fuel - 1, by omega⟩
  rw [parse_repetition, h n (by omega)]
  simp [consume_constant]

theorem repetition_one_or_more {current cur2 : List Char} {ast : AtomPointer}
    (h : yields parse_atom 1 current (some ast, '+' :: cur2)) :
    yields parse_repetition 2 current (some (.Repetition .OneOrMore ast .null), cur2) := by
  intro fuel hf
  obtain ⟨n, rfl⟩ : ∃ n, fuel = n + 1 := ⟨fuel - 1, by omega⟩
  rw [parse_repetition, h n (by omega)]
  simp [consume_constant]

theorem repetition_none {current cur1 : List Char}
    (h : yields parse_atom 1 current (none, cur1)) :
    yields parse_repetition 2 current (none, cur1) := by
  intro fuel hf
  obtain ⟨n, rfl⟩ : ∃ n, fuel = n + 1 := ⟨fuel - 1, by omega⟩
  rw [parse_repetition, h n (by omega)]

theorem concatenation_cons {current cur1 cur2 : List Char} {ast tail : AtomPointer}
    (h : yields parse_repetition 2 current (some ast, cur1)) (hlt : cur1.length < current.length)
    (ht : yields parse_concatenation 3 cur1 (some tail, cur2)) :
    yields parse_concatenation 3 current (some (ast.set_next tail), cur2) := by
  intro fuel hf
  obtain ⟨n, rfl⟩ : ∃ n, fuel = n + 1 := ⟨fuel - 1, by omega⟩
  rw [parse_concatenation, h n (by omega)]
  simp only
  rw [ht n (by omega)]

theorem concatenation_last {current cur1 cur2 : List Char} {ast : AtomPointer}
    (h : yields parse_repetition 2 current (some ast, cur1)) (hlt : cur1.length < current.length)
    (ht : yields parse_concatenation 3 cur1 (none, cur2)) :
    yields parse_concatenation 3 current (some ast, cur1) := by
  intro fuel hf
  obtain ⟨n, rfl⟩ : ∃ n, fuel = n + 1 := ⟨fuel - 1, by omega⟩
  rw [parse_concatenation, h n (by omega)]
  simp only
  rw [ht n (by omega)]

theorem concatenation_none {current cur1 : List Char}
    (h : yields parse_repetition 2 current (none, cur1)) :
    yields parse_concatenation 3 current (none, cur1) := by
  intro fuel hf
  obtain ⟨n, rfl⟩ : ∃ n, fuel = n + 1 := ⟨fuel - 1, by omega⟩
  rw [parse_concatenation, h n (by omega)]

theorem concatenation_stops {current : List Char} (h : stops current) :
    yields parse_concatenation 3 current (none, current) :=
  concatenation_none (repetition_none (atom_stops h))

theorem alternation_both {current cur2 cur3 : List Char} {lhs rhs : AtomPointer}
    (h : yields parse_concatenation 3 current (some lhs, '|' :: cur2))
    (hlt : cur2.length < current.length)
    (hr : yields parse_regex 5 cur2 (some rhs, cur3)) :
    yields parse_alternation 4 current (some (.Alternation lhs rhs .null), cur3) := by
  intro fuel hf
  obtain ⟨n, rfl⟩ : ∃ n, fuel = n + 1 := ⟨fuel - 1, by omega⟩
  rw [parse_alternation, h n (by omega)]
  simp only [consume_constant_hit]
  rw [hr n (by omega)]

theorem alternation_no_bar {current cur1 : List Char} {lhs : Option AtomPointer}
    (h : yields parse_concatenation 3 current (lhs, cur1))
    (hb : ∀ rest, cur1 ≠ '|' :: rest) :
    yields parse_alternation 4 current (none, current) := by
  intro fuel hf
  obtain ⟨n, rfl⟩ : ∃ n, fuel = n + 1 := ⟨fuel - 1, by omega⟩
  rw [parse_alternation, h n (by omega)]
  cases lhs with
  | none => rfl
  | some l =>
    have : consume_constant '|' cur1 = (false, cur1) := by
      cases cur1 with
      | nil => rfl
      | cons x rest =>
        apply consume_constant_miss
        intro hx
        exact hb rest (by rw [hx])
    simp [this]

theorem regex_alternation {current cur1 : List Char} {ast : AtomPointer}
    (h : yields parse_alternation 4 current (some ast, cur1)) :
    yields parse_regex 5 current (some ast, cur1) := by
  intro fuel hf
  obtain ⟨n, rfl⟩ : ∃ n, fuel = n + 1 := ⟨fuel - 1, by omega⟩
  rw [parse_regex, h n (by omega)]

theorem regex_concatenation {current cur1 : List Char} {r : Option AtomPointer × List Char}
    (h : yields parse_alternation 4 current (none, cur1))
    (hc : yields parse_concatenation 3 current r) :
    yields parse_regex 5 current r := by
  intro fuel hf
  obtain ⟨n, rfl⟩ : ∃ n, fuel = n + 1 := ⟨fuel - 1, by omega⟩
  rw [parse_regex, h n (by omega)]
  exact hc n (by omega)

/-- A regex without a `|` after its first concatenation is that concatenation. -/
theorem regex_no_bar {current cur1 : List Char} {ast : Option AtomPointer}
    (h : yields parse_concatenation 3 current (ast, cur1))
    (hb : ∀ rest, cur1 ≠ '|' :: rest) :
    yields parse_regex 5 current (ast, cur1) :=
  regex_concatenation (alternation_no_bar h hb) h

theorem parse_of_regex {re : List Char} {ast : Option AtomPointer} {rest : List Char}
    (h : yields parse_regex 5 re (ast, rest)) : parse re = ast := by
  unfold parse
  rw [h _ (le_refl _)]

/-! ## Rules of the matcher -/

theorem Returns.mono {P : List Instruction} {pc : Int} {data : Range} {b : Bool}
    (h : Returns P pc data b) : ∃ N, ∀ fuel, N ≤ fuel → match_fragment P fuel pc data = .returned b := by
  obtain ⟨n, hn⟩ := h
  exact ⟨n, fun fuel hf => match_fragment_mono P hf hn⟩

theorem returns_character_hit {P : List Instruction} {pc : Int} {c : Char} {data : Range}
    {rest : List Char} {b : Bool} (hf : fetch P pc = some (.Character c))
    (hd : data.rest = c :: rest) (h : Returns P (pc + 1) ⟨data.offset + 1, rest⟩ b) :
    Returns P pc data b := by
  obtain ⟨n, hn⟩ := h
  exact ⟨n + 1, by rw [mf_character_hit _ hf hd]; exact hn⟩

theorem returns_character_miss {P : List Instruction} {pc : Int} {c x : Char} {data : Range}
    {rest : List Char} (hf : fetch P pc = some (.Character c))
    (hd : data.rest = x :: rest) (hx : c ≠ x) : Returns P pc data false :=
  ⟨1, mf_character_miss _ hf hd hx⟩

theorem returns_character_empty {P : List Instruction} {pc : Int} {c : Char} {data : Range}
    (hf : fetch P pc = some (.Character c)) (hd : data.rest = []) : Returns P pc data false :=
  ⟨1, mf_character_empty _ hf hd⟩

theorem returns_bitset_hit {P : List Instruction} {pc : Int} {m : Bitset} {data : Range}
    {x : Char} {rest : List Char} {b : Bool} (hf : fetch P pc = some (.Bitset m))
    (hd : data.rest = x :: rest) (hm : m.match_ x = some true)
    (h : Returns P (pc + 1) ⟨data.offset + 1, rest⟩ b) : Returns P pc data b := by
  obtain ⟨n, hn⟩ := h
  exact ⟨n + 1, by rw [mf_bitset_hit _ hf hd hm]; exact hn⟩

theorem returns_bitset_miss {P : List Instruction} {pc : Int} {m : Bitset} {data : Range}
    {x : Char} {rest : List Char} (hf : fetch P pc = some (.Bitset m))
    (hd : data.rest = x :: rest) (hm : m.match_ x = some false) : Returns P pc data false :=
  ⟨1, mf_bitset_miss _ hf hd hm⟩

theorem returns_bitset_empty {P : List Instruction} {pc : Int} {m : Bitset} {data : Range}
    (hf : fetch P pc = some (.Bitset m)) (hd : data.rest = []) : Returns P pc data false :=
  ⟨1, mf_bitset_empty _ hf hd⟩

theorem returns_assertion_holds {P : List Instruction} {pc : Int} {t : AssertionType}
    {data : Range} {b : Bool} (hf : fetch P pc = some (.Assertion t)) (ht : t.test data = true)
    (h : Returns P (pc + 1) data b) : Returns P pc data b := by
  obtain ⟨n, hn⟩ := h
  exact ⟨n + 1, by rw [mf_assertion_holds _ hf ht]; exact hn⟩

theorem returns_assertion_fails {P : List Instruction} {pc : Int} {t : AssertionType}
    {data : Range} (hf : fetch P pc = some (.Assertion t)) (ht : t.test data = false) :
    Returns P pc data false :=
  ⟨1, mf_assertion_fails _ hf ht⟩

theorem returns_jump {P : List Instruction} {pc target : Int} {data : Range} {b : Bool}
    (hf : fetch P pc = some (.Jump target)) (h : Returns P (pc + target) data b) :
    Returns P pc data b := by
  obtain ⟨n, hn⟩ := h
  exact ⟨n + 1, by rw [mf_jump _ _ hf]; exact hn⟩

theorem returns_match {P : List Instruction} {pc : Int} {data : Range}
    (hf : fetch P pc = some .Match) : Returns P pc data true :=
  ⟨1, mf_match _ _ hf⟩

/-- A `Split` whose two continuations return gives the first `true` of them. -/
theorem returns_split {P : List Instruction} {pc lhs rhs : Int} {data : Range} {b1 b2 : Bool}
    (hf : fetch P pc = some (.Split lhs rhs)) (h1 : Returns P (pc + lhs) data b1)
    (h2 : b1 = false → Returns P (pc + rhs) data b2) : Returns P pc data (b1 || b2) := by
  obtain ⟨n1, hn1⟩ := h1
  cases b1 with
  | true =>
    exact ⟨n1 + 1, by rw [mf_split _ _ hf, hn1]; rfl⟩
  | false =>
    obtain ⟨n2, hn2⟩ := h2 rfl
    refine ⟨max n1 n2 + 1, ?_⟩
    rw [mf_split _ _ hf, match_fragment_mono P (Nat.le_max_left n1 n2) hn1]
    simp only [Bool.false_or]
    exact match_fragment_mono P (Nat.le_max_right n1 n2) hn2

theorem returns_unique {P : List Instruction} {pc : Int} {data : Range} {b1 b2 : Bool}
    (h1 : Returns P pc data b1) (h2 : Returns P pc data b2) : b1 = b2 := by
  obtain ⟨n1, hn1⟩ := h1
  obtain ⟨n2, hn2⟩ := h2
  exact match_fragment_det P hn1 hn2

/-! ## Literal code -/

theorem compile_fragment_chars (w : List Char) (tail : AtomPointer) :
    compile_fragment (chars w tail) = lit w ++ compile_fragment tail := by
  induction w with
  | nil => rfl
  | cons c w ih => simp [chars, compile_fragment, lit, ih] at *

theorem lit_length (w : List Char) : (lit w).length = w.length := by simp [lit]

theorem lit_append (u v : List Char) : lit (u ++ v) = lit u ++ lit v := by simp [lit]

/-- Literal code reads its word off the input and goes on behind it, or returns `false`. -/
theorem returns_lit {P : List Instruction} {b : Bool} :
    ∀ (w : List Char) (k : Nat) (off : Nat) (data : List Char), code_at P k (lit w) →
      (w.isPrefixOf data = true →
        Returns P ((k + w.length : Nat) : Int) ⟨off + w.length, data.drop w.length⟩ b) →
      Returns P (k : Int) ⟨off, data⟩ (w.isPrefixOf data && b) := by
  intro w
  induction w with
  | nil =>
    intro k off data _ h
    simpa using h (by simp)
  | cons c w ih =>
    intro k off data hc h
    have hf : fetch P (k : Int) = some (.Character c) := code_at_head hc
    cases data with
    | nil => simpa using returns_character_empty hf rfl
    | cons x rest =>
      by_cases hx : c = x
      · subst hx
        have hrec := ih (k + 1) (off + 1) rest (code_at_tail hc) (by
          intro hp
          have := h (by simpa using hp)
          simp only [List.length_cons, List.drop_succ_cons] at this
          rw [show k + 1 + w.length = k + (w.length + 1) by omega,
            show off + 1 + w.length = off + (w.length + 1) by omega]
          exact this)
        have hrec2 : Returns P ((k : Int) + 1) ⟨off + 1, rest⟩ (w.isPrefixOf rest && b) := by
          have e : ((k + 1 : Nat) : Int) = (k : Int) + 1 := by push_cast; ring
          rw [← e]
          exact hrec
        have := @returns_character_hit P k c ⟨off, c :: rest⟩ rest _ hf rfl hrec2
        simpa using this
      · have := @returns_character_miss P k c x ⟨off, x :: rest⟩ rest hf rfl hx
        have e : ((c :: w).isPrefixOf (x :: rest) && b) = false := by
          simp [List.isPrefixOf, hx]
        rw [e]
        exact this

theorem front_and_rest (u w data : List Char) :
    (u.isPrefixOf data && decide (data.drop u.length = w)) = decide (data = u ++ w) := by
  by_cases h : u <+: data
  · obtain ⟨t, rfl⟩ := h
    simp
  · have h1 : u.isPrefixOf data = false := by
      rw [Bool.eq_false_iff]
      intro hp
      exact h (List.isPrefixOf_iff_prefix.mp hp)
    have h2 : data ≠ u ++ w := by
      intro he
      exact h ⟨w, he.symm⟩
    simp [h1, h2]

/-- Literal code for `w` followed by the end assertion and `Match` returns whether the
input that is left is exactly `w`. -/
theorem returns_lit_end {P : List Instruction} (w : List Char) (k off : Nat) (data : List Char)
    (hc : code_at P k (lit w ++ [Instruction.Assertion .EndOfString, Instruction.Match])) :
    Returns P (k : Int) ⟨off, data⟩ (decide (data = w)) := by
  have hend := code_at_append_right hc
  rw [lit_length] at hend
  have hf : fetch P ((k + w.length : Nat) : Int) = some (.Assertion .EndOfString) :=
    code_at_head hend
  have hm : fetch P (((k + w.length : Nat) : Int) + 1) = some .Match := by
    have := code_at_head (code_at_tail hend)
    rw [← this]
    congr 1
  have hcont : ∀ (o : Nat) (d : List Char),
      Returns P ((k + w.length : Nat) : Int) ⟨o, d⟩ (decide (d = [])) := by
    intro o d
    cases d with
    | nil =>
      simpa using returns_assertion_holds hf (by rfl) (returns_match hm)
    | cons x rest =>
      simpa using @returns_assertion_fails P _ _ ⟨o, x :: rest⟩ hf (by rfl)
  have := returns_lit w k off data (code_at_append_left hc) (fun _ => hcont _ _)
  rw [front_and_rest] at this
  simpa using this

/-! ## Parsing literal text -/

theorem stops_nil : stops [] := by
  intro x rest h; cases h

theorem stops_close (rest : List Char) : stops (')' :: rest) := by
  intro x r h; cases h; exact Or.inl rfl

theorem stops_bar (rest : List Char) : stops ('|' :: rest) := by
  intro x r h; cases h; exact Or.inr rfl

theorem no_mark_nil : no_mark [] := by
  intro x rest h; cases h

theorem no_mark_cons {x : Char} (rest : List Char) (h : x ≠ '?' ∧ x ≠ '*' ∧ x ≠ '+') :
    no_mark (x :: rest) := by
  intro y r he; cases he; exact h

theorem no_mark_plain_append {w rest : List Char} (hw : plain w) (hr : no_mark rest) :
    no_mark (w ++ rest) := by
  cases w with
  | nil => simpa using hr
  | cons c w =>
    obtain ⟨_, _, _, _, h5, h6, h7, _⟩ := not_reserved (hw c (by simp))
    exact no_mark_cons _ ⟨h7, h5, h6⟩

theorem plain_tail {c : Char} {w : List Char} (h : plain (c :: w)) : plain w :=
  fun x hx => h x (by simp [hx])

theorem plain_append {u v : List Char} (hu : plain u) (hv : plain v) : plain (u ++ v) := by
  intro c hc
  rcases List.mem_append.mp hc with h | h
  · exact hu c h
  · exact hv c h

/-- Plain text in front of a parsed concatenation gives the chain of its characters in
front of that concatenation. -/
theorem concatenation_plain_then {w rest cur2 : List Char} {tail : AtomPointer} (hw : plain w)
    (hn : no_mark rest) (h : yields parse_concatenation 3 rest (some tail, cur2)) :
    yields parse_concatenation 3 (w ++ rest) (some (chars w tail), cur2) := by
  induction w with
  | nil => simpa [chars] using h
  | cons c w ih =>
    have hrep : yields parse_repetition 2 (c :: (w ++ rest))
        (some (.Character c .null), w ++ rest) :=
      repetition_plain (atom_character _ (hw c (by simp)))
        (no_mark_plain_append (plain_tail hw) hn)
    exact concatenation_cons hrep (by simp) (ih (plain_tail hw))

/-- Plain text up to a place where no concatenation goes on gives the chain of its
characters. -/
theorem concatenation_plain_last {w rest cur2 : List Char} (hw : plain w) (hne : w ≠ [])
    (hn : no_mark rest) (h : yields parse_concatenation 3 rest (none, cur2)) :
    yields parse_concatenation 3 (w ++ rest) (some (chars w .null), rest) := by
  induction w with
  | nil => exact absurd rfl hne
  | cons c w ih =>
    have hrep : yields parse_repetition 2 (c :: (w ++ rest))
        (some (.Character c .null), w ++ rest) :=
      repetition_plain (atom_character _ (hw c (by simp)))
        (no_mark_plain_append (plain_tail hw) hn)
    cases w with
    | nil => exact concatenation_last hrep (by simp) (by simpa using h)
    | cons d w =>
      exact concatenation_cons hrep (by simp) (ih (plain_tail hw) (by simp))

theorem stops_no_mark {rest : List Char} (h : stops rest) : no_mark rest := by
  intro x r he
  rcases h x r he with hx | hx <;> subst hx <;> decide

/-- Plain text up to the end of the pattern, a `)` or a `|`. -/
theorem concatenation_plain {w rest : List Char} (hw : plain w) (hne : w ≠ [])
    (hs : stops rest) :
    yields parse_concatenation 3 (w ++ rest) (some (chars w .null), rest) :=
  concatenation_plain_last hw hne (stops_no_mark hs) (concatenation_stops hs)

theorem no_mark_esc (w : List Char) : no_mark (esc w) := by
  cases w with
  | nil => exact no_mark_nil
  | cons c w =>
    cases hc : is_reserved_character c with
    | true =>
      simp only [esc, hc, if_true]
      exact no_mark_cons _ (by decide)
    | false =>
      simp only [esc, hc]
      obtain ⟨_, _, _, _, h5, h6, h7, _⟩ := not_reserved hc
      exact no_mark_cons _ ⟨h7, h5, h6⟩

theorem esc_length_pos (c : Char) (w : List Char) : 0 < (esc (c :: w)).length := by
  simp only [esc]
  split <;> simp

theorem repetition_esc (c : Char) (w : List Char) :
    yields parse_repetition 2 (esc (c :: w)) (some (.Character c .null), esc w) := by
  cases hc : is_reserved_character c with
  | true =>
    simp only [esc, hc, if_true]
    exact repetition_plain (atom_escaped _ hc) (no_mark_esc w)
  | false =>
    simp only [esc, hc]
    exact repetition_plain (atom_character _ hc) (no_mark_esc w)

theorem esc_length_lt (c : Char) (w : List Char) : (esc w).length < (esc (c :: w)).length := by
  simp only [esc]
  split
  · simp only [List.length_cons]; omega
  · simp

/-- The escaped text of a non-empty literal parses as the chain of its characters. -/
theorem concatenation_esc (w : List Char) (hne : w ≠ []) :
    yields parse_concatenation 3 (esc w) (some (chars w .null), []) := by
  induction w with
  | nil => exact absurd rfl hne
  | cons c w ih =>
    cases w with
    | nil =>
      exact concatenation_last (repetition_esc c []) (esc_length_lt c [])
        (concatenation_stops stops_nil)
    | cons d w =>
      exact concatenation_cons (repetition_esc c (d :: w)) (esc_length_lt c (d :: w))
        (ih (by simp))

theorem parse_esc (w : List Char) (hne : w ≠ []) : parse (esc w) = some (chars w .null) :=
  parse_of_regex (regex_no_bar (concatenation_esc w hne) (by intro rest h; cases h))

theorem esc_plain {w : List Char} (hw : plain w) : esc w = w := by
  induction w with
  | nil => rfl
  | cons c w ih =>
    simp only [esc, hw c (by simp), Bool.false_eq_true, if_false, ih (plain_tail hw)]

/-! ## From the pattern to the run of its program -/

theorem full_match_of_parse {p : List Char} {ast : AtomPointer} (h : parse p = some ast)
    (fuel : Nat) (s : List Char) :
    full_match fuel p s =
      match_fragment (full_program (compile_fragment ast)) fuel 0 (Range.of s) := by
  simp [full_match, compile_full, h, match_, full_program]

theorem partial_match_of_parse {p : List Char} {ast : AtomPointer} (h : parse p = some ast)
    (fuel : Nat) (s : List Char) :
    partial_match fuel p s =
      match_fragment (partial_program (compile_fragment ast)) fuel 0 (Range.of s) := by
  simp [partial_match, compile_partial, h, match_, partial_program]

theorem full_match_returns {p : List Char} {ast : AtomPointer} (h : parse p = some ast)
    {s : List Char} {b : Bool}
    (hr : Returns (full_program (compile_fragment ast)) 0 (Range.of s) b) :
    ∃ N, ∀ fuel, N ≤ fuel → full_match fuel p s = .returned b := by
  obtain ⟨N, hN⟩ := hr.mono
  exact ⟨N, fun fuel hf => by rw [full_match_of_parse h]; exact hN fuel hf⟩

theorem partial_match_returns {p : List Char} {ast : AtomPointer} (h : parse p = some ast)
    {s : List Char} {b : Bool}
    (hr : Returns (partial_program (compile_fragment ast)) 0 (Range.of s) b) :
    ∃ N, ∀ fuel, N ≤ fuel → partial_match fuel p s = .returned b := by
  obtain ⟨N, hN⟩ := hr.mono
  exact ⟨N, fun fuel hf => by rw [partial_match_of_parse h]; exact hN fuel hf⟩

theorem full_match_mono {p s : List Char} {fuel fuel2 : Nat} {b : Bool} (hle : fuel ≤ fuel2)
    (h : full_match fuel p s = .returned b) : full_match fuel2 p s = .returned b := by
  unfold full_match at h ⊢
  cases hc : compile_full p with
  | none => simpa [hc] using h
  | some compiled =>
    simp only [hc, match_] at h ⊢
    exact match_fragment_mono _ hle h

theorem partial_match_mono {p s : List Char} {fuel fuel2 : Nat} {b : Bool} (hle : fuel ≤ fuel2)
    (h : partial_match fuel p s = .returned b) : partial_match fuel2 p s = .returned b := by
  unfold partial_match at h ⊢
  cases hc : compile_partial p with
  | none => simpa [hc] using h
  | some compiled =>
    simp only [hc, match_] at h ⊢
    exact match_fragment_mono _ hle h

theorem parse_plain {w : List Char} (hw : plain w) (hne : w ≠ []) :
    parse w = some (chars w .null) := by
  have := parse_esc w hne
  rwa [esc_plain hw] at this

theorem compile_fragment_chars_null (w : List Char) :
    compile_fragment (chars w .null) = lit w := by
  rw [compile_fragment_chars]
  simp [compile_fragment]

/-! ## Groups with an alternation or a `?` between plain text -/

theorem no_mark_plain {w : List Char} (hw : plain w) : no_mark w := by
  have := no_mark_plain_append hw no_mark_nil
  simpa using this

/-- A node parsed by `parse_repetition`, followed by plain text up to the end of the
pattern: the text is linked as the `next` chain of the node. -/
theorem concatenation_then_plain_end {current w : List Char} {ast : AtomPointer}
    (hrep : yields parse_repetition 2 current (some ast, w)) (hlt : w.length < current.length)
    (hw : plain w) :
    yields parse_concatenation 3 current
      (some (if w = [] then ast else ast.set_next (chars w .null)), []) := by
  cases w with
  | nil => simpa using concatenation_last hrep hlt (concatenation_stops stops_nil)
  | cons c w =>
    have ht : yields parse_concatenation 3 (c :: w) (some (chars (c :: w) .null), []) := by
      have := concatenation_plain hw (by simp) stops_nil
      simpa using this
    simpa using concatenation_cons hrep hlt ht

theorem parse_alternation_group {t u v w : List Char} (ht : plain t) (hu : plain u)
    (hv : plain v) (hw : plain w) (hune : u ≠ []) (hvne : v ≠ []) :
    parse (t ++ ['('] ++ u ++ ['|'] ++ v ++ [')'] ++ w) =
      some (chars t (.Alternation (chars u .null) (chars v .null) (chars w .null))) := by
  have hlhs : yields parse_concatenation 3 (u ++ '|' :: (v ++ ')' :: w))
      (some (chars u .null), '|' :: (v ++ ')' :: w)) :=
    concatenation_plain hu hune (stops_bar _)
  have hrhs : yields parse_regex 5 (v ++ ')' :: w) (some (chars v .null), ')' :: w) :=
    regex_no_bar (concatenation_plain hv hvne (stops_close _)) (by intro rest h; cases h)
  have hgroup := atom_group (regex_alternation
    (alternation_both hlhs (by simp; omega) hrhs))
  have hrep := repetition_plain hgroup (no_mark_plain hw)
  have hconc := concatenation_then_plain_end hrep (by simp; omega) hw
  have hnode : (if w = [] then
        AtomPointer.Alternation (chars u .null) (chars v .null) .null
      else (AtomPointer.Alternation (chars u .null) (chars v .null) .null).set_next
        (chars w .null)) =
      AtomPointer.Alternation (chars u .null) (chars v .null) (chars w .null) := by
    cases w <;> simp [chars, AtomPointer.set_next]
  rw [hnode] at hconc
  have htotal := concatenation_plain_then ht (no_mark_cons _ (by decide)) hconc
  have := parse_of_regex (regex_no_bar htotal (by intro rest h; cases h))
  simpa using this

theorem parse_optional_group {u v w : List Char} (hu : plain u) (hv : plain v)
    (hw : plain w) (hvne : v ≠ []) :
    parse (u ++ ['('] ++ v ++ [')', '?'] ++ w) =
      some (chars u (.Repetition .ZeroOrOne (chars v .null) (chars w .null))) := by
  have hin : yields parse_regex 5 (v ++ ')' :: '?' :: w) (some (chars v .null), ')' :: '?' :: w) :=
    regex_no_bar (concatenation_plain hv hvne (stops_close _)) (by intro rest h; cases h)
  have hrep := repetition_zero_or_one (atom_group hin)
  have hconc := concatenation_then_plain_end hrep (by simp; omega) hw
  have hnode : (if w = [] then
        AtomPointer.Repetition .ZeroOrOne (chars v .null) .null
      else (AtomPointer.Repetition .ZeroOrOne (chars v .null) .null).set_next (chars w .null)) =
      AtomPointer.Repetition .ZeroOrOne (chars v .null) (chars w .null) := by
    cases w <;> simp [chars, AtomPointer.set_next]
  rw [hnode] at hconc
  have htotal := concatenation_plain_then hu (no_mark_cons _ (by decide)) hconc
  have := parse_of_regex (regex_no_bar htotal (by intro rest h; cases h))
  simpa using this

/-- The code of an alternation of two literals, followed by a literal, the end assertion and
`Match`: it returns whether the input left is the first or the second literal followed by
the third. -/
theorem returns_alternation_end {P : List Instruction} (u v w : List Char) (k off : Nat)
    (data : List Char)
    (hc : code_at P k (Instruction.Split 1 ((u.length : Int) + 2) :: (lit u ++
      Instruction.Jump ((v.length : Int) + 1) :: (lit v ++ (lit w ++
      [Instruction.Assertion .EndOfString, Instruction.Match]))))) :
    Returns P (k : Int) ⟨off, data⟩ (decide (data = u ++ w) || decide (data = v ++ w)) := by
  have hsplit := code_at_head hc
  have hu := code_at_tail hc
  have hjump := code_at_append_right hu
  have hv := code_at_tail hjump
  have hw := code_at_append_right hv
  simp only [lit_length] at hjump hv hw hsplit
  have hj := code_at_head hjump
  -- the left branch
  have hleft : Returns P ((k : Int) + 1) ⟨off, data⟩ (decide (data = u ++ w)) := by
    have hcont : Returns P ((k + 1 + u.length : Nat) : Int)
        ⟨off + u.length, data.drop u.length⟩ (decide (data.drop u.length = w)) := by
      refine returns_jump hj ?_
      have e : ((k + 1 + u.length : Nat) : Int) + ((v.length : Int) + 1) =
          ((k + 1 + u.length + 1 + v.length : Nat) : Int) := by push_cast; ring
      rw [e]
      exact returns_lit_end w _ _ _ hw
    have := returns_lit u (k + 1) off data (code_at_append_left hu) (fun _ => hcont)
    rw [front_and_rest] at this
    have e : ((k + 1 : Nat) : Int) = (k : Int) + 1 := by push_cast; ring
    rw [← e]
    exact this
  -- the right branch
  have hright : Returns P ((k : Int) + ((u.length : Int) + 2)) ⟨off, data⟩
      (decide (data = v ++ w)) := by
    have hvw : code_at P (k + 1 + u.length + 1)
        (lit (v ++ w) ++ [Instruction.Assertion .EndOfString, Instruction.Match]) := by
      rw [lit_append, List.append_assoc]
      exact hv
    have e : (k : Int) + ((u.length : Int) + 2) = ((k + 1 + u.length + 1 : Nat) : Int) := by
      push_cast; ring
    rw [e]
    exact returns_lit_end (v ++ w) _ _ _ hvw
  exact returns_split hsplit hleft (fun _ => hright)

/-- The code of an optional literal, followed by a literal, the end assertion and `Match`. -/
theorem returns_optional_end {P : List Instruction} (v w : List Char) (k off : Nat)
    (data : List Char)
    (hc : code_at P k (Instruction.Split 1 ((v.length : Int) + 1) :: (lit v ++ (lit w ++
      [Instruction.Assertion .EndOfString, Instruction.Match])))) :
    Returns P (k : Int) ⟨off, data⟩ (decide (data = v ++ w) || decide (data = w)) := by
  have hsplit := code_at_head hc
  have hv := code_at_tail hc
  have hw := code_at_append_right hv
  simp only [lit_length] at hw hsplit
  have hleft : Returns P ((k : Int) + 1) ⟨off, data⟩ (decide (data = v ++ w)) := by
    have hvw : code_at P (k + 1)
        (lit (v ++ w) ++ [Instruction.Assertion .EndOfString, Instruction.Match]) := by
      rw [lit_append, List.append_assoc]
      exact hv
    have e : ((k + 1 : Nat) : Int) = (k : Int) + 1 := by push_cast; ring
    rw [← e]
    exact returns_lit_end (v ++ w) _ _ _ hvw
  have hright : Returns P ((k : Int) + ((v.length : Int) + 1)) ⟨off, data⟩
      (decide (data = w)) := by
    have e : (k : Int) + ((v.length : Int) + 1) = ((k + 1 + v.length : Nat) : Int) := by
      push_cast; ring
    rw [e]
    exact returns_lit_end w _ _ _ hw
  exact returns_split hsplit hleft (fun _ => hright)

theorem front_and_either (t a b data : List Char) :
    (t.isPrefixOf data &&
        (decide (data.drop t.length = a) || decide (data.drop t.length = b))) =
      decide (data = t ++ a ∨ data = t ++ b) := by
  rw [Bool.and_or_distrib_left, front_and_rest, front_and_rest]
  simp [Bool.decide_or]

/-! ## Star and plus on one character -/

theorem parse_star {c : Char} (hc : is_reserved_character c = false) :
    parse [c, '*'] = some (.Repetition .ZeroOrMore (.Character c .null) .null) :=
  parse_of_regex (regex_no_bar
    (concatenation_last (repetition_zero_or_more (atom_character _ hc)) (by simp)
      (concatenation_stops stops_nil))
    (by intro rest h; cases h))

theorem parse_plus {c : Char} (hc : is_reserved_character c = false) :
    parse [c, '+'] = some (.Repetition .OneOrMore (.Character c .null) .null) :=
  parse_of_regex (regex_no_bar
    (concatenation_last (repetition_one_or_more (atom_character _ hc)) (by simp)
      (concatenation_stops stops_nil))
    (by intro rest h; cases h))

/-- The program of `c*`: it returns whether every code unit left equals `c`. -/
theorem returns_star (c : Char) :
    ∀ (data : List Char) (off : Nat),
      Returns [.Split 1 3, .Character c, .Jump (-2), .Assertion .EndOfString, .Match] 0
        ⟨off, data⟩ (data.all (fun x => x == c)) := by
  have f0 : fetch [.Split 1 3, .Character c, .Jump (-2), .Assertion .EndOfString, .Match] 0
      = some (.Split 1 3) := rfl
  have f1 : fetch [.Split 1 3, .Character c, .Jump (-2), .Assertion .EndOfString, .Match]
      (0 + 1) = some (.Character c) := rfl
  have f2 : fetch [.Split 1 3, .Character c, .Jump (-2), .Assertion .EndOfString, .Match]
      (0 + 1 + 1) = some (.Jump (-2)) := rfl
  have f3 : fetch [.Split 1 3, .Character c, .Jump (-2), .Assertion .EndOfString, .Match]
      (0 + 3) = some (.Assertion .EndOfString) := rfl
  have f4 : fetch [.Split 1 3, .Character c, .Jump (-2), .Assertion .EndOfString, .Match]
      (0 + 3 + 1) = some .Match := rfl
  intro data
  induction data with
  | nil =>
    intro off
    have h1 := @returns_character_empty _ _ _ ⟨off, []⟩ f1 rfl
    have h2 := @returns_assertion_holds _ _ _ ⟨off, []⟩ _ f3 rfl (returns_match f4)
    simpa using returns_split f0 h1 (fun _ => h2)
  | cons x rest ih =>
    intro off
    have hexit := @returns_assertion_fails _ _ _ ⟨off, x :: rest⟩ f3 rfl
    by_cases hx : c = x
    · subst hx
      have hloop : Returns _ (0 + 1) ⟨off, c :: rest⟩ (rest.all (fun x => x == c)) :=
        returns_character_hit f1 rfl (returns_jump f2 (ih (off + 1)))
      simpa using returns_split f0 hloop (fun _ => hexit)
    · have hmiss := @returns_character_miss _ _ _ _ ⟨off, x :: rest⟩ rest f1 rfl hx
      have hne : (x == c) = false := by
        rw [beq_eq_false_iff_ne]
        exact fun h => hx h.symm
      simpa [hne] using returns_split f0 hmiss (fun _ => hexit)

/-- The program of `c+` behind its first `Character`: it returns whether every code unit
left equals `c`. -/
theorem returns_plus_loop (c : Char) :
    ∀ (data : List Char) (off : Nat),
      Returns [.Character c, .Split (-1) 1, .Assertion .EndOfString, .Match] 1
        ⟨off, data⟩ (data.all (fun x => x == c)) := by
  have f0 : fetch [.Character c, .Split (-1) 1, .Assertion .EndOfString, .Match] (1 + -1)
      = some (.Character c) := rfl
  have f1 : fetch [.Character c, .Split (-1) 1, .Assertion .EndOfString, .Match] 1
      = some (.Split (-1) 1) := rfl
  have f2 : fetch [.Character c, .Split (-1) 1, .Assertion .EndOfString, .Match] (1 + 1)
      = some (.Assertion .EndOfString) := rfl
  have f3 : fetch [.Character c, .Split (-1) 1, .Assertion .EndOfString, .Match] (1 + 1 + 1)
      = some .Match := rfl
  intro data
  induction data with
  | nil =>
    intro off
    have h1 := @returns_character_empty _ _ _ ⟨off, []⟩ f0 rfl
    have h2 := @returns_assertion_holds _ _ _ ⟨off, []⟩ _ f2 rfl (returns_match f3)
    simpa using returns_split f1 h1 (fun _ => h2)
  | cons x rest ih =>
    intro off
    have hexit := @returns_assertion_fails _ _ _ ⟨off, x :: rest⟩ f2 rfl
    by_cases hx : c = x
    · subst hx
      have hloop : Returns _ (1 + -1) ⟨off, c :: rest⟩ (rest.all (fun x => x == c)) :=
        returns_character_hit f0 rfl (ih (off + 1))
      simpa using returns_split f1 hloop (fun _ => hexit)
    · have hmiss := @returns_character_miss _ _ _ _ ⟨off, x :: rest⟩ rest f0 rfl hx
      have hne : (x == c) = false := by
        rw [beq_eq_false_iff_ne]
        exact fun h => hx h.symm
      simpa [hne] using returns_split f1 hmiss (fun _ => hexit)

theorem returns_plus (c : Char) (data : List Char) :
    Returns [.Character c, .Split (-1) 1, .Assertion .EndOfString, .Match] 0
      ⟨0, data⟩ (!data.isEmpty && data.all (fun x => x == c)) := by
  have f0 : fetch [.Character c, .Split (-1) 1, .Assertion .EndOfString, .Match] 0
      = some (.Character c) := rfl
  cases data with
  | nil => simpa using @returns_character_empty _ _ _ ⟨0, []⟩ f0 rfl
  | cons x rest =>
    by_cases hx : c = x
    · subst hx
      have := @returns_character_hit _ _ _ ⟨0, c :: rest⟩ rest _ f0 rfl
        (returns_plus_loop c rest 1)
      simpa using this
    · have hmiss := @returns_character_miss _ _ _ _ ⟨0, x :: rest⟩ rest f0 rfl hx
      have hne : (x == c) = false := by
        rw [beq_eq_false_iff_ne]
        exact fun h => hx h.symm
      simpa [hne] using hmiss

/-! ## Masks of the character classes on 7-bit code units -/

theorem ascii_cases (P : Char → Prop) (h : ∀ n, n < 128 → P (Char.ofNat n)) :
    ∀ c : Char, c.toNat < 128 → P c := by
  intro c hc
  have := h c.toNat hc
  rwa [Char.ofNat_toNat] at this

set_option maxRecDepth 100000 in
theorem digits_mask_ascii : ∀ c : Char, c.toNat < 128 →
    (class_mask .Digits false).match_ c = some (decide ('0' ≤ c ∧ c ≤ '9')) := by
  apply ascii_cases
  decide

set_option maxRecDepth 100000 in
theorem word_mask_ascii : ∀ c : Char, c.toNat < 128 →
    (class_mask .Word false).match_ c =
      some (decide (('a' ≤ c ∧ c ≤ 'z') ∨ ('A' ≤ c ∧ c ≤ 'Z') ∨ c = '_')) := by
  apply ascii_cases
  decide

set_option maxRecDepth 100000 in
theorem whitespace_mask_ascii : ∀ c : Char, c.toNat < 128 →
    (class_mask .Whitespace false).match_ c =
      some (decide (c = ' ' ∨ c = '\t' ∨ c = '\n')) := by
  apply ascii_cases
  decide

set_option maxRecDepth 100000 in
theorem all_mask_ascii : ∀ c : Char, c.toNat < 128 →
    (class_mask .All false).match_ c = some (decide (c ≠ '\n')) := by
  apply ascii_cases
  decide

set_option maxRecDepth 100000 in
theorem scan_mask_ascii : ∀ c : Char, c.toNat < 128 →
    (make_range '\n' '\n').complement.match_ c = some (c != '\n') := by
  apply ascii_cases
  decide

set_option maxRecDepth 100000 in
theorem negated_mask_bits (t : CharacterClassType) : ∀ n, n < 128 →
    (class_mask t false).match_ (Char.ofNat n) =
        some ((class_mask t false).mask.testBit n) ∧
      (class_mask t true).match_ (Char.ofNat n) =
        some (!(class_mask t false).mask.testBit n) := by
  cases t <;> decide

theorem negated_mask_ascii (t : CharacterClassType) : ∀ c : Char, c.toNat < 128 →
    ∃ v : Bool, (class_mask t false).match_ c = some v ∧
      (class_mask t true).match_ c = some (!v) := by
  intro c hc
  have := negated_mask_bits t c.toNat hc
  rw [Char.ofNat_toNat] at this
  exact ⟨_, this.1, this.2⟩

/-- The full-match program of a single class on a one-character input. -/
theorem full_match_class {p : List Char} {m : Bitset}
    (hp : compile_full p = some [.Bitset m, .Assertion .EndOfString, .Match]) {c : Char}
    {v : Bool} (hm : m.match_ c = some v) :
    ∀ fuel, 3 ≤ fuel → full_match fuel p [c] = .returned v := by
  intro fuel hf
  apply full_match_mono hf
  simp only [full_match, hp, match_, Range.of]
  have f0 : fetch [Instruction.Bitset m, .Assertion .EndOfString, .Match] 0
      = some (.Bitset m) := rfl
  have f1 : fetch [Instruction.Bitset m, .Assertion .EndOfString, .Match] (0 + 1)
      = some (.Assertion .EndOfString) := rfl
  have f2 : fetch [Instruction.Bitset m, .Assertion .EndOfString, .Match] (0 + 1 + 1)
      = some .Match := rfl
  cases v with
  | true =>
    rw [@mf_bitset_hit _ _ _ _ ⟨0, [c]⟩ c [] f0 rfl hm,
      @mf_assertion_holds _ _ _ _ ⟨0 + 1, []⟩ f1 rfl, mf_match _ _ f2]
  | false =>
    rw [@mf_bitset_miss _ _ _ _ ⟨0, [c]⟩ c [] f0 rfl hm]

/-! ## The scan prefix of the partial-match program -/

theorem all_eq_decide (c : Char) (data : List Char) :
    data.all (fun x => x == c) = decide (∀ x ∈ data, x = c) := by
  rw [Bool.eq_iff_iff]
  simp

/-- The partial-match program of a literal returns whether the literal is found by the
scan. -/
theorem returns_search (w : List Char) :
    ∀ (data : List Char) (off : Nat), (∀ x ∈ data, x.toNat < 128) →
      Returns (partial_program (lit w)) 0 ⟨off, data⟩ (search w data) := by
  have f0 : fetch (partial_program (lit w)) 0 = some (.Split 3 1) := rfl
  have f1 : fetch (partial_program (lit w)) (0 + 1) =
      some (.Bitset (make_range '\n' '\n').complement) := rfl
  have f2 : fetch (partial_program (lit w)) (0 + 1 + 1) = some (.Jump (-2)) := rfl
  have hc : code_at (partial_program (lit w)) 3 (lit w) := ⟨_, [Instruction.Match], rfl, rfl⟩
  have fm : fetch (partial_program (lit w)) ((3 + w.length : Nat) : Int) = some .Match := by
    have := partial_program_at_match (lit w)
    rw [lit_length] at this
    rw [← this]
    congr 1
    push_cast
    ring
  have hleft : ∀ (data : List Char) (off : Nat),
      Returns (partial_program (lit w)) (0 + 3) ⟨off, data⟩ (w.isPrefixOf data) := by
    intro data off
    have := returns_lit w 3 off data hc (fun _ => returns_match fm)
    simpa using this
  intro data
  induction data with
  | nil =>
    intro off _
    have hr := @returns_bitset_empty _ _ _ ⟨off, []⟩ f1 rfl
    simpa [search] using returns_split f0 (hleft [] off) (fun _ => hr)
  | cons x rest ih =>
    intro off hascii
    have hm := scan_mask_ascii x (hascii x (by simp))
    have hright : Returns (partial_program (lit w)) (0 + 1) ⟨off, x :: rest⟩
        (x != '\n' && search w rest) := by
      cases hx : (x != '\n') with
      | true =>
        rw [hx] at hm
        have hrec := ih (off + 1) (fun y hy => hascii y (by simp [hy]))
        have := @returns_bitset_hit _ _ _ ⟨off, x :: rest⟩ x rest _ f1 rfl hm
          (returns_jump f2 hrec)
        simpa using this
      | false =>
        rw [hx] at hm
        simpa using @returns_bitset_miss _ _ _ ⟨off, x :: rest⟩ x rest f1 rfl hm
    simpa [search] using returns_split f0 (hleft (x :: rest) off) (fun _ => hright)

/-- The scan finds `w` exactly if `w` occurs behind a newline-free part of the input. -/
theorem search_iff (w : List Char) :
    ∀ data : List Char,
      search w data = true ↔ ∃ pre post, data = pre ++ w ++ post ∧ '\n' ∉ pre := by
  intro data
  induction data with
  | nil =>
    simp only [search, List.isPrefixOf_iff_prefix]
    constructor
    · intro h
      exact ⟨[], [], by simpa using (List.prefix_nil.mp h).symm, by simp⟩
    · rintro ⟨pre, post, h, _⟩
      have : w = [] := by
        have := congrArg List.length h
        simp at this
        exact List.length_eq_zero.mp (by omega)
      rw [this]
  | cons x rest ih =>
    simp only [search, Bool.or_eq_true, Bool.and_eq_true, List.isPrefixOf_iff_prefix, ih]
    constructor
    · rintro (⟨post, h⟩ | ⟨hx, pre, post, h, hn⟩)
      · exact ⟨[], post, by simpa using h.symm, by simp⟩
      · refine ⟨x :: pre, post, by simp [h], ?_⟩
        simp only [List.mem_cons, not_or]
        refine ⟨?_, hn⟩
        intro he
        simp [← he] at hx
    · rintro ⟨pre, post, h, hn⟩
      cases pre with
      | nil => exact Or.inl ⟨post, by simpa using h.symm⟩
      | cons y pre =>
        simp only [List.cons_append, List.cons.injEq] at h
        obtain ⟨rfl, hrest⟩ := h
        simp only [List.mem_cons, not_or] at hn
        refine Or.inr ⟨?_, pre, post, hrest, hn.2⟩
        simp only [bne_iff_ne, ne_eq]
        exact fun he => hn.1 he.symm

/-! ## The call budget of `parse` is never used up -/

theorem consume_constant_ok (c : Char) (current : List Char) :
    (consume_constant c current).2 <:+ current ∧
      ((consume_constant c current).1 = true →
        (consume_constant c current).2.length < current.length) := by
  cases current with
  | nil => simp [consume_constant]
  | cons x rest =>
    by_cases h : x = c
    · subst h
      rw [consume_constant_hit]
      exact ⟨List.suffix_cons _ _, fun _ => by simp⟩
    · rw [consume_constant_miss _ h]
      exact ⟨List.suffix_refl _, fun h2 => by cases h2⟩

theorem parse_raw_character_ok (current : List Char) :
    result_ok current (parse_raw_character current) := by
  cases current with
  | nil => exact ⟨List.suffix_refl _, fun h => by cases h⟩
  | cons x rest => exact ⟨List.suffix_cons _ _, fun _ => by simp [parse_raw_character]⟩

theorem parse_character_class_ok (current : List Char) :
    result_ok current (parse_character_class current) := by
  cases current with
  | nil => exact ⟨List.suffix_refl _, fun h => by cases h⟩
  | cons x rest =>
    unfold parse_character_class
    simp only
    split_ifs <;>
      first
      | exact ⟨List.suffix_cons _ _, fun _ => by simp⟩
      | exact ⟨List.suffix_refl _, fun h => by cases h⟩

theorem result_ok_cons {x : Char} {rest : List Char} {r : Option AtomPointer × List Char}
    (h : r.2 <:+ rest) : result_ok (x :: rest) r :=
  ⟨h.trans (List.suffix_cons _ _), fun _ => by
    have := h.length_le
    simp only [List.length_cons]
    omega⟩

/-- With a budget of `5 * length + k` calls (`k` = 1 for `parse_atom` up to 5 for
`parse_regex`) every parse function returns, at a suffix of the text it was called on, and
at a proper suffix when it produced a node. -/
theorem parse_budget_suffices :
    ∀ (fuel : Nat) (current : List Char),
      (5 * current.length + 1 ≤ fuel →
        ∃ r, parse_atom fuel current = some r ∧ result_ok current r) ∧
      (5 * current.length + 2 ≤ fuel →
        ∃ r, parse_repetition fuel current = some r ∧ result_ok current r) ∧
      (5 * current.length + 3 ≤ fuel →
        ∃ r, parse_concatenation fuel current = some r ∧ result_ok current r) ∧
      (5 * current.length + 4 ≤ fuel →
        ∃ r, parse_alternation fuel current = some r ∧ result_ok current r) ∧
      (5 * current.length + 5 ≤ fuel →
        ∃ r, parse_regex fuel current = some r ∧ result_ok current r) := by
  intro fuel
  induction fuel with
  | zero =>
    intro current
    refine ⟨?_, ?_, ?_, ?_, ?_⟩ <;> intro h <;> omega
  | succ n ih =>
    intro current
    refine ⟨?_, ?_, ?_, ?_, ?_⟩
    · -- parse_atom
      intro hf
      cases current with
      | nil => exact ⟨_, rfl, List.suffix_refl _, fun h => by cases h⟩
      | cons x rest =>
        rw [parse_atom]
        by_cases h1 : x = '('
        · subst h1
          simp only [consume_constant_hit]
          obtain ⟨⟨ast, cur2⟩, hr, hok⟩ := (ih rest).2.2.2.2
            (by simp only [List.length_cons] at hf; omega)
          rw [hr]
          simp only
          have hc := consume_constant_ok ')' cur2
          cases hcc : consume_constant ')' cur2 with
          | mk b cur3 =>
            rw [hcc] at hc
            have hsuf : cur3 <:+ rest := hc.1.trans hok.1
            cases b with
            | true => exact ⟨(ast, cur3), rfl, result_ok_cons hsuf⟩
            | false => exact ⟨(none, cur3), rfl, result_ok_cons hsuf⟩
        · rw [consume_constant_miss _ h1]
          simp only
          by_cases h2 : x = '\\'
          · subst h2
            simp only [consume_constant_hit]
            split
            · exact ⟨_, rfl, result_ok_cons (parse_character_class_ok rest).1⟩
            · exact ⟨_, rfl, result_ok_cons (parse_raw_character_ok rest).1⟩
          · rw [consume_constant_miss _ h2]
            simp only
            split
            · exact ⟨_, rfl, parse_raw_character_ok _⟩
            · by_cases h3 : x = '.'
              · subst h3
                simp only [consume_constant_hit]
                exact ⟨_, rfl, List.suffix_cons _ _, fun _ => by simp⟩
              · rw [consume_constant_miss _ h3]
                simp only
                by_cases h4 : x = '^'
                · subst h4
                  simp only [consume_constant_hit]
                  exact ⟨_, rfl, List.suffix_cons _ _, fun _ => by simp⟩
                · rw [consume_constant_miss _ h4]
                  simp only
                  by_cases h5 : x = '$'
                  · subst h5
                    simp only [consume_constant_hit]
                    exact ⟨_, rfl, List.suffix_cons _ _, fun _ => by simp⟩
                  · rw [consume_constant_miss _ h5]
                    exact ⟨_, rfl, List.suffix_refl _, fun h => by cases h⟩
    · -- parse_repetition
      intro hf
      obtain ⟨⟨ast, cur1⟩, hr, hok⟩ := (ih current).1 (by omega)
      rw [parse_repetition, hr]
      cases ast with
      | none => exact ⟨_, rfl, hok⟩
      | some a =>
        have hlt := hok.2 rfl
        simp only at hlt
        simp only
        have c1 := consume_constant_ok '?' cur1
        have c2 := consume_constant_ok '*' cur1
        have c3 := consume_constant_ok '+' cur1
        cases h1 : consume_constant '?' cur1 with
        | mk b1 r1 =>
          rw [h1] at c1
          cases b1 with
          | true =>
            exact ⟨_, rfl, c1.1.trans hok.1, fun _ => by
              have := c1.1.length_le
              simp only at this ⊢
              omega⟩
          | false =>
            simp only
            cases h2 : consume_constant '*' cur1 with
            | mk b2 r2 =>
              rw [h2] at c2
              cases b2 with
              | true =>
                exact ⟨_, rfl, c2.1.trans hok.1, fun _ => by
                  have := c2.1.length_le
                  simp only at this ⊢
                  omega⟩
              | false =>
                simp only
                cases h3 : consume_constant '+' cur1 with
                | mk b3 r3 =>
                  rw [h3] at c3
                  cases b3 with
                  | true =>
                    exact ⟨_, rfl, c3.1.trans hok.1, fun _ => by
                      have := c3.1.length_le
                      simp only at this ⊢
                      omega⟩
                  | false => exact ⟨_, rfl, hok.1, fun _ => hlt⟩
    · -- parse_concatenation
      intro hf
      obtain ⟨⟨ast, cur1⟩, hr, hok⟩ := (ih current).2.1 (by omega)
      rw [parse_concatenation, hr]
      cases ast with
      | none => exact ⟨_, rfl, hok⟩
      | some a =>
        have hlt := hok.2 rfl
        simp only at hlt
        simp only
        obtain ⟨⟨tail, cur2⟩, hr2, hok2⟩ := (ih cur1).2.2.1 (by omega)
        rw [hr2]
        cases tail with
        | none => exact ⟨_, rfl, hok.1, fun _ => hlt⟩
        | some t =>
          exact ⟨_, rfl, hok2.1.trans hok.1, fun _ => by
            have := hok2.1.length_le
            simp only at this ⊢
            omega⟩
    · -- parse_alternation
      intro hf
      obtain ⟨⟨lhs, cur1⟩, hr, hok⟩ := (ih current).2.2.1 (by omega)
      rw [parse_alternation, hr]
      cases lhs with
      | none => exact ⟨_, rfl, List.suffix_refl _, fun h => by cases h⟩
      | some l =>
        have hlt := hok.2 rfl
        simp only at hlt
        simp only
        have c1 := consume_constant_ok '|' cur1
        cases h1 : consume_constant '|' cur1 with
        | mk b cur2 =>
          rw [h1] at c1
          cases b with
          | false => exact ⟨_, rfl, List.suffix_refl _, fun h => by cases h⟩
          | true =>
            simp only
            have hlen := c1.1.length_le
            simp only at hlen
            obtain ⟨⟨rhs, cur3⟩, hr3, hok3⟩ := (ih cur2).2.2.2.2 (by omega)
            rw [hr3]
            cases rhs with
            | none => exact ⟨_, rfl, List.suffix_refl _, fun h => by cases h⟩
            | some r =>
              exact ⟨_, rfl, (hok3.1.trans c1.1).trans hok.1, fun _ => by
                have := hok3.1.length_le
                simp only at this ⊢
                omega⟩
    · -- parse_regex
      intro hf
      obtain ⟨⟨ast, cur1⟩, hr, hok⟩ := (ih current).2.2.2.1 (by omega)
      rw [parse_regex, hr]
      cases ast with
      | some a => exact ⟨_, rfl, hok⟩
      | none => exact (ih current).2.2.1 (by omega)

/-- The budget that `parse` hands to `parse_regex` is enough: the parser returns. -/
theorem parse_returns (re : List Char) :
    ∃ r, parse_regex (5 * re.length + 5) re = some r ∧ parse re = r.1 ∧ result_ok re r := by
  obtain ⟨r, hr, hok⟩ := (parse_budget_suffices (5 * re.length + 5) re).2.2.2.2 (le_refl _)
  exact ⟨r, hr, by simp [parse, hr], hok⟩

/-! ## A larger call budget does not change a parse result -/

theorem parse_fuel_succ :
    ∀ (fuel : Nat) (current : List Char),
      (∀ r, parse_atom fuel current = some r → parse_atom (fuel + 1) current = some r) ∧
      (∀ r, parse_repetition fuel current = some r →
        parse_repetition (fuel + 1) current = some r) ∧
      (∀ r, parse_concatenation fuel current = some r →
        parse_concatenation (fuel + 1) current = some r) ∧
      (∀ r, parse_alternation fuel current = some r →
        parse_alternation (fuel + 1) current = some r) ∧
      (∀ r, parse_regex fuel current = some r → parse_regex (fuel + 1) current = some r) := by
  intro fuel
  induction fuel with
  | zero =>
    intro current
    refine ⟨?_, ?_, ?_, ?_, ?_⟩ <;> intro r h
    · simp [parse_atom] at h
    · simp [parse_repetition] at h
    · simp [parse_concatenation] at h
    · simp [parse_alternation] at h
    · simp [parse_regex] at h
  | succ n ih =>
    intro current
    refine ⟨?_, ?_, ?_, ?_, ?_⟩
    · intro r h
      cases current with
      | nil => exact h
      | cons x rest =>
        rw [parse_atom] at h ⊢
        by_cases h1 : x = '('
        · subst h1
          simp only [consume_constant_hit] at h ⊢
          cases hr : parse_regex n rest with
          | none => simp [hr] at h
          | some q =>
            rw [hr] at h
            rw [(ih rest).2.2.2.2 q hr]
            exact h
        · simp only [consume_constant_miss _ h1] at h ⊢
          exact h
    · intro r h
      rw [parse_repetition] at h ⊢
      cases hr : parse_atom n current with
      | none => simp [hr] at h
      | some q =>
        rw [hr] at h
        rw [(ih current).1 q hr]
        exact h
    · intro r h
      rw [parse_concatenation] at h ⊢
      cases hr : parse_repetition n current with
      | none => simp [hr] at h
      | some q =>
        rw [hr] at h
        rw [(ih current).2.1 q hr]
        obtain ⟨ast, cur1⟩ := q
        cases ast with
        | none => exact h
        | some a =>
          simp only at h ⊢
          cases hr2 : parse_concatenation n cur1 with
          | none => simp [hr2] at h
          | some q2 =>
            rw [hr2] at h
            rw [(ih cur1).2.2.1 q2 hr2]
            exact h
    · intro r h
      rw [parse_alternation] at h ⊢
      cases hr : parse_concatenation n current with
      | none => simp [hr] at h
      | some q =>
        rw [hr] at h
        rw [(ih current).2.2.1 q hr]
        obtain ⟨lhs, cur1⟩ := q
        cases lhs with
        | none => exact h
        | some l =>
          simp only at h ⊢
          cases hc : consume_constant '|' cur1 with
          | mk b cur2 =>
            rw [hc] at h
            cases b with
            | false => exact h
            | true =>
              simp only at h ⊢
              cases hr2 : parse_regex n cur2 with
              | none => simp [hr2] at h
              | some q2 =>
                rw [hr2] at h
                rw [(ih cur2).2.2.2.2 q2 hr2]
                exact h
    · intro r h
      rw [parse_regex] at h ⊢
      cases hr : parse_alternation n current with
      | none => simp [hr] at h
      | some q =>
        rw [hr] at h
        rw [(ih current).2.2.2.1 q hr]
        obtain ⟨ast, cur1⟩ := q
        cases ast with
        | some a => exact h
        | none =>
          simp only at h ⊢
          exact (ih current).2.2.1 r h

theorem parse_regex_mono {fuel fuel2 : Nat} (hle : fuel ≤ fuel2) {current : List Char}
    {r : Option AtomPointer × List Char} (h : parse_regex fuel current = some r) :
    parse_regex fuel2 current = some r := by
  induction hle with
  | refl => exact h
  | step _ ih => exact (parse_fuel_succ _ current).2.2.2.2 r ih

theorem parse_alternation_mono {fuel fuel2 : Nat} (hle : fuel ≤ fuel2) {current : List Char}
    {r : Option AtomPointer × List Char} (h : parse_alternation fuel current = some r) :
    parse_alternation fuel2 current = some r := by
  induction hle with
  | refl => exact h
  | step _ ih => exact (parse_fuel_succ _ current).2.2.2.1 r ih

theorem parse_concatenation_mono {fuel fuel2 : Nat} (hle : fuel ≤ fuel2) {current : List Char}
    {r : Option AtomPointer × List Char} (h : parse_concatenation fuel current = some r) :
    parse_concatenation fuel2 current = some r := by
  induction hle with
  | refl => exact h
  | step _ ih => exact (parse_fuel_succ _ current).2.2.1 r ih

theorem parse_repetition_mono {fuel fuel2 : Nat} (hle : fuel ≤ fuel2) {current : List Char}
    {r : Option AtomPointer × List Char} (h : parse_repetition fuel current = some r) :
    parse_repetition fuel2 current = some r := by
  induction hle with
  | refl => exact h
  | step _ ih => exact (parse_fuel_succ _ current).2.1 r ih

theorem parse_atom_mono {fuel fuel2 : Nat} (hle : fuel ≤ fuel2) {current : List Char}
    {r : Option AtomPointer × List Char} (h : parse_atom fuel current = some r) :
    parse_atom fuel2 current = some r := by
  induction hle with
  | refl => exact h
  | step _ ih => exact (parse_fuel_succ _ current).1 r ih

/-- Every parse function has one result at `current`, given by every sufficient budget. -/
theorem yields_exists (current : List Char) :
    (∃ r, yields parse_atom 1 current r ∧ result_ok current r) ∧
    (∃ r, yields parse_repetition 2 current r ∧ result_ok current r) ∧
    (∃ r, yields parse_concatenation 3 current r ∧ result_ok current r) ∧
    (∃ r, yields parse_alternation 4 current r ∧ result_ok current r) ∧
    (∃ r, yields parse_regex 5 current r ∧ result_ok current r) := by
  refine ⟨?_, ?_, ?_, ?_, ?_⟩
  · obtain ⟨r, hr, hok⟩ := (parse_budget_suffices _ current).1 (le_refl _)
    exact ⟨r, fun fuel hf => parse_atom_mono hf hr, hok⟩
  · obtain ⟨r, hr, hok⟩ := (parse_budget_suffices _ current).2.1 (le_refl _)
    exact ⟨r, fun fuel hf => parse_repetition_mono hf hr, hok⟩
  · obtain ⟨r, hr, hok⟩ := (parse_budget_suffices _ current).2.2.1 (le_refl _)
    exact ⟨r, fun fuel hf => parse_concatenation_mono hf hr, hok⟩
  · obtain ⟨r, hr, hok⟩ := (parse_budget_suffices _ current).2.2.2.1 (le_refl _)
    exact ⟨r, fun fuel hf => parse_alternation_mono hf hr, hok⟩
  · obtain ⟨r, hr, hok⟩ := (parse_budget_suffices _ current).2.2.2.2 (le_refl _)
    exact ⟨r, fun fuel hf => parse_regex_mono hf hr, hok⟩

/-! ## Compilation raises no exception -/

set_option maxRecDepth 100000 in
theorem class_mask_checked_ok (t : CharacterClassType) (negate : Bool) :
    class_mask_checked t negate = .ok (class_mask t negate) := by
  cases t <;> cases negate <;> rfl

theorem repetition_code_checked_ok (type : RepetitionType) (inner : List Instruction) :
    repetition_code_checked type inner = .ok (repetition_code type inner) := by
  cases type <;> rfl

theorem compile_fragment_checked_ok (a : AtomPointer) :
    compile_fragment_checked a = .ok (compile_fragment a) := by
  induction a with
  | null => rfl
  | Character c next ih => simp [compile_fragment_checked, compile_fragment, ih]
  | CharacterClass t negate next ih =>
    simp [compile_fragment_checked, compile_fragment, ih, class_mask_checked_ok]; rfl
  | Alternation lhs rhs next ihl ihr ihn =>
    simp [compile_fragment_checked, compile_fragment, ihl, ihr, ihn]; rfl
  | Assertion t next ih => simp [compile_fragment_checked, compile_fragment, ih]
  | Repetition type inner next ihi ihn =>
    simp [compile_fragment_checked, compile_fragment, ihi, ihn, repetition_code_checked_ok]; rfl

/-- The offsets `-inner_size - 1` and `-inner_size`, computed in `size_t` and stored in a
`long`, are the integers `-n - 1` and `-n`. -/
theorem long_of_negated_size (n : Nat) (h : n < 2 ^ 63 - 1) :
    long_of_size_t (size_t_wrap (-(n : Int) - 1)) = -(n : Int) - 1 ∧
      long_of_size_t (size_t_wrap (-(n : Int))) = -(n : Int) := by
  unfold long_of_size_t size_t_wrap
  constructor <;> split <;> omega

/-! ## A group without its closing parenthesis -/

theorem consume_constant_absent {c : Char} {current : List Char} (h : c ∉ current) :
    consume_constant c current = (false, current) := by
  cases current with
  | nil => rfl
  | cons x rest =>
    apply consume_constant_miss
    intro hx
    exact h (by simp [hx])

/-- A `(` that is followed by no `)` starts no atom. -/
theorem atom_unterminated {rest : List Char} (h : ')' ∉ rest) :
    ∃ cur, yields parse_atom 1 ('(' :: rest) (none, cur) := by
  obtain ⟨⟨ast, cur2⟩, hr, hok⟩ := (yields_exists rest).2.2.2.2
  refine ⟨cur2, ?_⟩
  intro fuel hf
  obtain ⟨n, rfl⟩ : ∃ n, fuel = n + 1 := ⟨fuel - 1, by omega⟩
  rw [parse_atom]
  simp only [consume_constant_hit]
  rw [hr n (by simp at hf; omega)]
  have hc : consume_constant ')' cur2 = (false, cur2) :=
    consume_constant_absent (fun hm => h (hok.1.subset hm))
  simp [hc]

theorem alternation_none {current cur1 : List Char}
    (h : yields parse_concatenation 3 current (none, cur1)) :
    yields parse_alternation 4 current (none, current) := by
  intro fuel hf
  obtain ⟨n, rfl⟩ : ∃ n, fuel = n + 1 := ⟨fuel - 1, by omega⟩
  rw [parse_alternation, h n (by omega)]

theorem concatenation_unterminated {rest : List Char} (h : ')' ∉ rest) :
    ∃ cur, yields parse_concatenation 3 ('(' :: rest) (none, cur) := by
  obtain ⟨cur, hc⟩ := atom_unterminated h
  exact ⟨cur, concatenation_none (repetition_none hc)⟩

theorem parse_unterminated {rest : List Char} (h : ')' ∉ rest) : parse ('(' :: rest) = none := by
  obtain ⟨cur, hc⟩ := concatenation_unterminated h
  exact parse_of_regex (regex_concatenation (alternation_none hc) hc)

/-- Plain text in front of text that the grammar cannot go on with parses as the plain
text alone. -/
theorem parse_plain_then_rest {w t : List Char} (hw : plain w) (hne : w ≠ [])
    (ht : (∃ rest, t = ')' :: rest) ∨ (∃ rest, t = '(' :: rest ∧ ')' ∉ rest)) :
    parse (w ++ t) = some (chars w .null) := by
  rcases ht with ⟨rest, rfl⟩ | ⟨rest, rfl, hno⟩
  · exact parse_of_regex (regex_no_bar (concatenation_plain hw hne (stops_close rest))
      (by intro r h; cases h))
  · obtain ⟨cur, hc⟩ := concatenation_unterminated hno
    exact parse_of_regex (regex_no_bar
      (concatenation_plain_last hw hne (no_mark_cons _ (by decide)) hc)
      (by intro r h; cases h))

/-! ## Branch targets of the two assembled programs -/

theorem targets_in_of_inner_ok {ins : Instruction} {idx lo hi n : Int} (h : ins.inner_ok idx lo hi)
    (hlo : 0 ≤ lo) (hhi : hi < n) : ins.targets_in idx n := by
  cases ins <;> simp only [Instruction.inner_ok, Instruction.targets_in] at h ⊢ <;> omega

theorem full_program_in_bounds (a : AtomPointer) :
    branches_in_bounds (full_program (compile_fragment a)) := by
  intro i ins hget
  have hlen : (full_program (compile_fragment a)).length = (compile_fragment a).length + 2 := by
    simp [full_program]
  by_cases hi : i < (compile_fragment a).length
  · have hg : (compile_fragment a).get? i = some ins := by
      rw [full_program, List.get?_eq_getElem?, List.getElem?_append_left hi] at hget
      rw [List.get?_eq_getElem?]
      exact hget
    have hok := code_within_get (compile_fragment_closed a) hg
    rw [zero_add] at hok
    rw [hlen]
    refine targets_in_of_inner_ok hok (le_refl _) ?_
    push_cast
    omega
  · rw [full_program, List.get?_eq_getElem?,
      List.getElem?_append_right (Nat.le_of_not_lt hi)] at hget
    have hcases : ins = .Assertion .EndOfString ∨ ins = .Match := by
      rcases hj : i - (compile_fragment a).length with _ | _ | j
      · rw [hj] at hget; simp at hget; exact Or.inl hget.symm
      · rw [hj] at hget; simp at hget; exact Or.inr hget.symm
      · rw [hj] at hget; simp at hget
    rcases hcases with h | h <;> subst h <;> exact trivial

theorem partial_program_in_bounds (a : AtomPointer) :
    branches_in_bounds (partial_program (compile_fragment a)) := by
  intro i ins hget
  have hlen : (partial_program (compile_fragment a)).length =
      (compile_fragment a).length + 4 := by
    simp [partial_program]
  rw [hlen]
  have hshape : partial_program (compile_fragment a) =
      Instruction.Split 3 1 :: Instruction.Bitset (make_range '\n' '\n').complement ::
        Instruction.Jump (-2) :: (compile_fragment a ++ [Instruction.Match]) := by
    simp [partial_program]
  rw [hshape] at hget
  rcases i with _ | _ | _ | j
  · simp at hget; subst hget
    simp only [Instruction.targets_in, Nat.cast_zero, Nat.cast_add, Nat.cast_ofNat]
    omega
  · simp at hget; subst hget; exact trivial
  · simp at hget; subst hget
    simp only [Instruction.targets_in, Nat.cast_zero, Nat.cast_add, Nat.cast_ofNat,
      Nat.cast_one]
    omega
  · simp only [List.get?_cons_succ] at hget
    by_cases hj : j < (compile_fragment a).length
    · have hg : (compile_fragment a).get? j = some ins := by
        rw [List.get?_eq_getElem?, List.getElem?_append_left hj] at hget
        rw [List.get?_eq_getElem?]
        exact hget
      have hok := code_within_get (compile_fragment_within a 3) hg
      have e : ((j + 1 + 1 + 1 : Nat) : Int) = 3 + (j : Int) := by push_cast; ring
      rw [e]
      refine targets_in_of_inner_ok hok (by omega) ?_
      push_cast
      omega
    · rw [List.get?_eq_getElem?, List.getElem?_append_right (Nat.le_of_not_lt hj)] at hget
      have : ins = .Match := by
        rcases hk : j - (compile_fragment a).length with _ | k
        · rw [hk] at hget; simp at hget; exact hget.symm
        · rw [hk] at hget; simp at hget
      subst this
      exact trivial

/-! ## Anchored patterns -/

theorem atom_begin (rest : List Char) :
    yields parse_atom 1 ('^' :: rest) (some (.Assertion .BeginOfString .null), rest) := by
  intro fuel hf
  obtain ⟨n, rfl⟩ : ∃ n, fuel = n + 1 := ⟨fuel - 1, by omega⟩
  rw [parse_atom]
  simp [consume_constant, is_reserved_character]

theorem atom_end (rest : List Char) :
    yields parse_atom 1 ('$' :: rest) (some (.Assertion .EndOfString .null), rest) := by
  intro fuel hf
  obtain ⟨n, rfl⟩ : ∃ n, fuel = n + 1 := ⟨fuel - 1, by omega⟩
  rw [parse_atom]
  simp [consume_constant, is_reserved_character]

theorem parse_anchored {w : List Char} (hw : plain w) :
    parse (['^'] ++ w ++ ['$']) =
      some (.Assertion .BeginOfString (chars w (.Assertion .EndOfString .null))) := by
  have hend : yields parse_concatenation 3 ['$'] (some (.Assertion .EndOfString .null), []) :=
    concatenation_last (repetition_plain (atom_end []) no_mark_nil) (by simp)
      (concatenation_stops stops_nil)
  have hmid := concatenation_plain_then hw (no_mark_cons [] (by decide)) hend
  have hrep : yields parse_repetition 2 ('^' :: (w ++ ['$']))
      (some (.Assertion .BeginOfString .null), w ++ ['$']) :=
    repetition_plain (atom_begin _)
      (no_mark_plain_append hw (no_mark_cons [] (by decide)))
  have hall := concatenation_cons hrep (by simp) hmid
  have := parse_of_regex (regex_no_bar hall (by intro r h; cases h))
  simpa [AtomPointer.set_next] using this

/-- The partial-match program of `^w$`, started behind the first input position, returns
`false`: the start assertion fails wherever the scan goes. -/
theorem anchored_scan_fails (w : List Char) :
    ∀ (data : List Char) (off : Nat), 0 < off → (∀ x ∈ data, x.toNat < 128) →
      Returns (partial_program (Instruction.Assertion .BeginOfString ::
        (lit w ++ [Instruction.Assertion .EndOfString]))) 0 ⟨off, data⟩ false := by
  have f0 : fetch (partial_program (Instruction.Assertion .BeginOfString ::
      (lit w ++ [Instruction.Assertion .EndOfString]))) 0 = some (.Split 3 1) := rfl
  have f1 : fetch (partial_program (Instruction.Assertion .BeginOfString ::
      (lit w ++ [Instruction.Assertion .EndOfString]))) (0 + 1) =
      some (.Bitset (make_range '\n' '\n').complement) := rfl
  have f2 : fetch (partial_program (Instruction.Assertion .BeginOfString ::
      (lit w ++ [Instruction.Assertion .EndOfString]))) (0 + 1 + 1) = some (.Jump (-2)) := rfl
  have f3 : fetch (partial_program (Instruction.Assertion .BeginOfString ::
      (lit w ++ [Instruction.Assertion .EndOfString]))) (0 + 3) =
      some (.Assertion .BeginOfString) := rfl
  generalize partial_program (Instruction.Assertion .BeginOfString ::
      (lit w ++ [Instruction.Assertion .EndOfString])) = P at f0 f1 f2 f3 ⊢
  intro data
  induction data with
  | nil =>
    intro off hoff _
    have hl := @returns_assertion_fails _ _ _ ⟨off, []⟩ f3
      (by simp [AssertionType.test, Range.is_start]; omega)
    have hr := @returns_bitset_empty _ _ _ ⟨off, []⟩ f1 rfl
    simpa using returns_split f0 hl (fun _ => hr)
  | cons x rest ih =>
    intro off hoff hascii
    have hl := @returns_assertion_fails _ _ _ ⟨off, x :: rest⟩ f3
      (by simp [AssertionType.test, Range.is_start]; omega)
    have hm := scan_mask_ascii x (hascii x (by simp))
    have hr : Returns P (0 + 1) ⟨off, x :: rest⟩ false := by
      cases hx : (x != '\n') with
      | true =>
        rw [hx] at hm
        have hrec := ih (off + 1) (by omega) (fun y hy => hascii y (by simp [hy]))
        exact @returns_bitset_hit _ _ _ ⟨off, x :: rest⟩ x rest _ f1 rfl hm
          (returns_jump f2 hrec)
      | false =>
        rw [hx] at hm
        exact @returns_bitset_miss _ _ _ ⟨off, x :: rest⟩ x rest f1 rfl hm
    simpa using returns_split f0 hl (fun _ => hr)

/-- The partial-match program of `^w$` returns whether the input is `w`. -/
theorem returns_anchored (w s : List Char) (hs : ∀ x ∈ s, x.toNat < 128) :
    Returns (partial_program (Instruction.Assertion .BeginOfString ::
      (lit w ++ [Instruction.Assertion .EndOfString]))) 0 ⟨0, s⟩ (decide (s = w)) := by
  have f0 : fetch (partial_program (Instruction.Assertion .BeginOfString ::
      (lit w ++ [Instruction.Assertion .EndOfString]))) 0 = some (.Split 3 1) := rfl
  have f1 : fetch (partial_program (Instruction.Assertion .BeginOfString ::
      (lit w ++ [Instruction.Assertion .EndOfString]))) (0 + 1) =
      some (.Bitset (make_range '\n' '\n').complement) := rfl
  have f2 : fetch (partial_program (Instruction.Assertion .BeginOfString ::
      (lit w ++ [Instruction.Assertion .EndOfString]))) (0 + 1 + 1) = some (.Jump (-2)) := rfl
  have f3 : fetch (partial_program (Instruction.Assertion .BeginOfString ::
      (lit w ++ [Instruction.Assertion .EndOfString]))) (0 + 3) =
      some (.Assertion .BeginOfString) := rfl
  have hc : code_at (partial_program (Instruction.Assertion .BeginOfString ::
      (lit w ++ [Instruction.Assertion .EndOfString]))) 4
      (lit w ++ [Instruction.Assertion .EndOfString, Instruction.Match]) :=
    ⟨[.Split 3 1, .Bitset (make_range '\n' '\n').complement, .Jump (-2),
      .Assertion .BeginOfString], [], by simp [partial_program], rfl⟩
  have hl : Returns (partial_program (Instruction.Assertion .BeginOfString ::
      (lit w ++ [Instruction.Assertion .EndOfString]))) (0 + 3) ⟨0, s⟩ (decide (s = w)) :=
    returns_assertion_holds f3 (by rfl) (returns_lit_end w 4 0 s hc)
  have hr : Returns (partial_program (Instruction.Assertion .BeginOfString ::
      (lit w ++ [Instruction.Assertion .EndOfString]))) (0 + 1) ⟨0, s⟩ false := by
    cases s with
    | nil => exact @returns_bitset_empty _ _ _ ⟨0, []⟩ f1 rfl
    | cons x rest =>
      have hm := scan_mask_ascii x (hs x (by simp))
      cases hx : (x != '\n') with
      | true =>
        rw [hx] at hm
        have hrec := anchored_scan_fails w rest 1 (by omega) (fun y hy => hs y (by simp [hy]))
        exact @returns_bitset_hit _ _ _ ⟨0, x :: rest⟩ x rest _ f1 rfl hm
          (returns_jump f2 hrec)
      | false =>
        rw [hx] at hm
        exact @returns_bitset_miss _ _ _ ⟨0, x :: rest⟩ x rest f1 rfl hm
  simpa using returns_split f0 hl (fun _ => hr)

/-! ## Trimming the input from the front -/

theorem fetch_mem {P : List Instruction} {pc : Int} {ins : Instruction}
    (h : fetch P pc = some ins) : ins ∈ P := by
  unfold fetch at h
  split at h
  · exact List.get?_mem h
  · cases h

/-- Without a start assertion the matcher does not look at the number of code units read
so far. -/
theorem match_fragment_offset (P : List Instruction) (hP : no_begin_assertion P) :
    ∀ (fuel : Nat) (pc : Int) (o1 o2 : Nat) (data : List Char),
      match_fragment P fuel pc ⟨o1, data⟩ = match_fragment P fuel pc ⟨o2, data⟩ := by
  intro fuel
  induction fuel with
  | zero => intro pc o1 o2 data; rfl
  | succ n ih =>
    intro pc o1 o2 data
    by_cases hpc : pc = P.length
    · rw [mf_end _ _ hpc, mf_end _ _ hpc]
    cases hf : fetch P pc with
    | none => rw [mf_outside _ _ hpc hf, mf_outside _ _ hpc hf]
    | some ins =>
      cases ins with
      | Character c =>
        cases data with
        | nil =>
          rw [@mf_character_empty _ _ _ n ⟨o1, []⟩ hf rfl,
            @mf_character_empty _ _ _ n ⟨o2, []⟩ hf rfl]
        | cons x rest =>
          by_cases hc : c = x
          · subst hc
            rw [@mf_character_hit _ _ _ n ⟨o1, c :: rest⟩ rest hf rfl,
              @mf_character_hit _ _ _ n ⟨o2, c :: rest⟩ rest hf rfl]
            exact ih _ _ _ _
          · rw [@mf_character_miss _ _ _ _ n ⟨o1, x :: rest⟩ rest hf rfl hc,
              @mf_character_miss _ _ _ _ n ⟨o2, x :: rest⟩ rest hf rfl hc]
      | Bitset m =>
        cases data with
        | nil =>
          rw [@mf_bitset_empty _ _ _ n ⟨o1, []⟩ hf rfl,
            @mf_bitset_empty _ _ _ n ⟨o2, []⟩ hf rfl]
        | cons x rest =>
          cases hm : m.match_ x with
          | none =>
            rw [@mf_bitset_outside _ _ _ n ⟨o1, x :: rest⟩ x rest hf rfl hm,
              @mf_bitset_outside _ _ _ n ⟨o2, x :: rest⟩ x rest hf rfl hm]
          | some v =>
            cases v with
            | true =>
              rw [@mf_bitset_hit _ _ _ n ⟨o1, x :: rest⟩ x rest hf rfl hm,
                @mf_bitset_hit _ _ _ n ⟨o2, x :: rest⟩ x rest hf rfl hm]
              exact ih _ _ _ _
            | false =>
              rw [@mf_bitset_miss _ _ _ n ⟨o1, x :: rest⟩ x rest hf rfl hm,
                @mf_bitset_miss _ _ _ n ⟨o2, x :: rest⟩ x rest hf rfl hm]
      | Split lhs rhs =>
        rw [mf_split _ _ hf, mf_split _ _ hf, ih (pc + lhs) o1 o2 data,
          ih (pc + rhs) o1 o2 data]
      | Assertion t =>
        cases t with
        | BeginOfString => exact absurd rfl (hP _ (fetch_mem hf))
        | EndOfString =>
          cases data with
          | nil =>
            rw [@mf_assertion_holds _ _ _ n ⟨o1, []⟩ hf rfl,
              @mf_assertion_holds _ _ _ n ⟨o2, []⟩ hf rfl]
            exact ih _ _ _ _
          | cons x rest =>
            rw [@mf_assertion_fails _ _ _ n ⟨o1, x :: rest⟩ hf rfl,
              @mf_assertion_fails _ _ _ n ⟨o2, x :: rest⟩ hf rfl]
      | Jump target =>
        rw [mf_jump _ _ hf, mf_jump _ _ hf]
        exact ih _ _ _ _
      | Match => rw [mf_match _ _ hf, mf_match _ _ hf]

/-- The scan mask rejects no code unit other than newline. -/
theorem scan_mask_not_false {x : Char} (hx : x ≠ '\n') :
    (make_range '\n' '\n').complement.match_ x ≠ some false := by
  by_cases h : x.toNat < 128
  · rw [scan_mask_ascii x h]
    simp [hx]
  · intro hm
    unfold Bitset.match_ at hm
    have hv : Bitset.index_valid x = false := by
      simp only [Bitset.index_valid, size_t_of_char, Bitset.size, h, if_false,
        decide_eq_false_iff_not]
      omega
    simp [hv] at hm

/-- Where the pattern code of a partial-match program returns `true` behind a part of the
input without newline, the program does not return `false` from the start of that part. -/
theorem scan_never_false {code : List Instruction} :
    ∀ (pre rest : List Char) (off : Nat), (∀ x ∈ pre, x ≠ '\n') →
      Returns (partial_program code) 3 ⟨off + pre.length, rest⟩ true →
      ∀ (fuel : Nat) (b : Bool),
        match_fragment (partial_program code) fuel 0 ⟨off, pre ++ rest⟩ = .returned b →
        b = true := by
  have f0 := partial_program_at_start code
  have f1 : fetch (partial_program code) (0 + 1) =
      some (.Bitset (make_range '\n' '\n').complement) := rfl
  have f2 : fetch (partial_program code) (0 + 1 + 1) = some (.Jump (-2)) := rfl
  intro pre
  induction pre with
  | nil =>
    intro rest off _ hret fuel b h
    cases fuel with
    | zero => simp [match_fragment] at h
    | succ n =>
      cases b with
      | true => rfl
      | false =>
        have hl := (mf_split_false f0 h).1
        have hret2 : Returns (partial_program code) (0 + 3) ⟨off, rest⟩ true := by
          simpa using hret
        exact returns_unique ⟨n, hl⟩ hret2
  | cons x pre ih =>
    intro rest off hpre hret fuel b h
    simp only [List.cons_append] at h
    cases b with
    | true => rfl
    | false =>
      exfalso
      cases fuel with
      | zero => simp [match_fragment] at h
      | succ n =>
        have hr := (mf_split_false f0 h).2
        cases n with
        | zero => simp [match_fragment] at hr
        | succ m =>
          have hx := scan_mask_not_false (hpre x (by simp))
          cases hm : (make_range '\n' '\n').complement.match_ x with
          | none =>
            rw [@mf_bitset_outside _ _ _ m ⟨off, x :: (pre ++ rest)⟩ x _ f1 rfl hm] at hr
            cases hr
          | some v =>
            cases v with
            | false => exact hx hm
            | true =>
              rw [@mf_bitset_hit _ _ _ m ⟨off, x :: (pre ++ rest)⟩ x _ f1 rfl hm] at hr
              cases m with
              | zero => simp [match_fragment] at hr
              | succ j =>
                rw [mf_jump _ _ f2] at hr
                have hret2 : Returns (partial_program code) 3
                    ⟨off + 1 + pre.length, rest⟩ true := by
                  have e : off + 1 + pre.length = off + (x :: pre).length := by
                    simp only [List.length_cons]; omega
                  rw [e]
                  exact hret
                have := ih rest (off + 1) (fun y hy => hpre y (by simp [hy])) hret2 j false
                  (by simpa using hr)
                cases this

/-- Where moreover the pattern code returns from each position of that part and the part
holds 7-bit code units, the program returns `true`. -/
theorem scan_returns_true {code : List Instruction} :
    ∀ (pre rest : List Char) (off : Nat), (∀ x ∈ pre, x.toNat < 128 ∧ x ≠ '\n') →
      Returns (partial_program code) 3 ⟨off + pre.length, rest⟩ true →
      (∀ i, i < pre.length →
        ∃ b, Returns (partial_program code) 3 ⟨off + i, (pre ++ rest).drop i⟩ b) →
      Returns (partial_program code) 0 ⟨off, pre ++ rest⟩ true := by
  have f0 := partial_program_at_start code
  have f1 : fetch (partial_program code) (0 + 1) =
      some (.Bitset (make_range '\n' '\n').complement) := rfl
  have f2 : fetch (partial_program code) (0 + 1 + 1) = some (.Jump (-2)) := rfl
  intro pre
  induction pre with
  | nil =>
    intro rest off _ hret _
    have := @returns_split _ _ _ _ _ true false f0 (by simpa using hret) (fun h => by cases h)
    simpa using this
  | cons x pre ih =>
    intro rest off hpre hret hatt
    obtain ⟨b, hb⟩ := hatt 0 (by simp)
    have hx := hpre x (by simp)
    have hm := scan_mask_ascii x hx.1
    have hne : (x != '\n') = true := by simpa using hx.2
    rw [hne] at hm
    have hrec : Returns (partial_program code) 0 ⟨off + 1, pre ++ rest⟩ true := by
      apply ih rest (off + 1) (fun y hy => hpre y (by simp [hy]))
      · have e : off + 1 + pre.length = off + (x :: pre).length := by
          simp only [List.length_cons]; omega
        rw [e]
        exact hret
      · intro i hi
        obtain ⟨b2, hb2⟩ := hatt (i + 1) (by simp only [List.length_cons]; omega)
        refine ⟨b2, ?_⟩
        have e : off + 1 + i = off + (i + 1) := by omega
        rw [e]
        simpa using hb2
    have hright : Returns (partial_program code) (0 + 1) ⟨off, x :: (pre ++ rest)⟩ true :=
      @returns_bitset_hit _ _ _ ⟨off, x :: (pre ++ rest)⟩ x _ _ f1 rfl hm (returns_jump f2 hrec)
    have := returns_split f0 (by simpa using hb) (fun _ => hright)
    simpa using this

theorem no_begin_partial_program {code : List Instruction}
    (h : no_begin_assertion (partial_program code)) : no_begin_assertion (full_program code) := by
  intro ins hins
  simp only [full_program, List.mem_append, List.mem_cons, List.mem_singleton,
    List.not_mem_nil, or_false] at hins
  rcases hins with hc | rfl | rfl
  · exact h ins (by simp [partial_program, hc])
  · intro he; cases he
  · intro he; cases he

theorem bar_nested_star_compiled :
    compile_partial "b|(a*)*".toList = some bar_nested_star_program := by
  decide

/-- On the input `xb` the partial-match program of `b|(a*)*` enters the loop of `(a*)*` at
the first input position and comes back to it without reading anything, whatever the
budget. -/
theorem bar_nested_star_loops :
    ∀ fuel : Nat, match_fragment bar_nested_star_program fuel 0 (Range.of "xb".toList) =
      .out_of_fuel := by
  have f0 : fetch bar_nested_star_program 0 = some (.Split 3 1) := rfl
  have f3 : fetch bar_nested_star_program (0 + 3) = some (.Split 1 3) := rfl
  have f4 : fetch bar_nested_star_program (0 + 3 + 1) = some (.Character 'b') := rfl
  have f6 : fetch bar_nested_star_program 6 = some (.Split 1 5) := rfl
  have f7 : fetch bar_nested_star_program 7 = some (.Split 1 3) := rfl
  have f8 : fetch bar_nested_star_program (7 + 1) = some (.Character 'a') := rfl
  have f10 : fetch bar_nested_star_program 10 = some (.Jump (-4)) := rfl
  have hloop : ∀ fuel : Nat,
      match_fragment bar_nested_star_program fuel 6 (Range.of "xb".toList) = .out_of_fuel ∧
      match_fragment bar_nested_star_program fuel 7 (Range.of "xb".toList) = .out_of_fuel ∧
      match_fragment bar_nested_star_program fuel 10 (Range.of "xb".toList) = .out_of_fuel := by
    intro fuel
    induction fuel with
    | zero => exact ⟨rfl, rfl, rfl⟩
    | succ n ih =>
      obtain ⟨h6, h7, h10⟩ := ih
      refine ⟨?_, ?_, ?_⟩
      · rw [mf_split _ _ f6]
        have e : (6 : Int) + 1 = 7 := rfl
        simp only [e, h7]
      · rw [mf_split _ _ f7]
        cases n with
        | zero => rfl
        | succ m =>
          have e : match_fragment bar_nested_star_program (m + 1) (7 + 1)
              (Range.of "xb".toList) = .returned false :=
            @mf_character_miss _ _ _ 'x' m (Range.of "xb".toList) "b".toList f8 rfl (by decide)
          have e2 : (7 : Int) + 3 = 10 := rfl
          simp only [e, e2]
          exact h10
      · rw [mf_jump _ _ f10]
        exact h6
  intro fuel
  cases fuel with
  | zero => rfl
  | succ n =>
    rw [mf_split _ _ f0]
    cases n with
    | zero => rfl
    | succ m =>
      have h3 : match_fragment bar_nested_star_program (m + 1) (0 + 3) (Range.of "xb".toList) =
          .out_of_fuel := by
        rw [mf_split _ _ f3]
        cases m with
        | zero => rfl
        | succ j =>
          have e : match_fragment bar_nested_star_program (j + 1) (0 + 3 + 1)
              (Range.of "xb".toList) = .returned false :=
            @mf_character_miss _ _ _ 'x' j (Range.of "xb".toList) "b".toList f4 rfl (by decide)
          have e2 : (0 : Int) + 3 + 3 = 6 := rfl
          simp only [e, e2]
          exact (hloop (j + 1)).1
      simp only [h3]

/-! ## The matcher returns on patterns whose loops read input -/

theorem match_defined (m : Bitset) {x : Char} (hx : x.toNat < 128) :
    ∃ v, m.match_ x = some v := by
  unfold Bitset.match_
  have hv : Bitset.index_valid x = true := by
    simp only [Bitset.index_valid, size_t_of_char, Bitset.size, hx, if_true, decide_eq_true_eq]
    omega
  exact ⟨_, by rw [if_pos hv]⟩

theorem halts_character {P : List Instruction} {pc : Int} {c : Char} {r : Range}
    (hf : fetch P pc = some (.Character c))
    (h : ∀ rest, r.rest = c :: rest → Halts P (pc + 1) ⟨r.offset + 1, rest⟩) :
    Halts P pc r := by
  cases hd : r.rest with
  | nil => exact ⟨false, returns_character_empty hf hd⟩
  | cons x rest =>
    by_cases hc : c = x
    · subst hc
      obtain ⟨b, hb⟩ := h rest hd
      exact ⟨b, returns_character_hit hf hd hb⟩
    · exact ⟨false, returns_character_miss hf hd hc⟩

theorem halts_bitset {P : List Instruction} {pc : Int} {m : Bitset} {r : Range}
    (hf : fetch P pc = some (.Bitset m)) (h7 : ∀ x ∈ r.rest, x.toNat < 128)
    (h : ∀ x rest, r.rest = x :: rest → Halts P (pc + 1) ⟨r.offset + 1, rest⟩) :
    Halts P pc r := by
  cases hd : r.rest with
  | nil => exact ⟨false, returns_bitset_empty hf hd⟩
  | cons x rest =>
    obtain ⟨v, hv⟩ := match_defined m (h7 x (by rw [hd]; simp))
    cases v with
    | true =>
      obtain ⟨b, hb⟩ := h x rest hd
      exact ⟨b, returns_bitset_hit hf hd hv hb⟩
    | false => exact ⟨false, returns_bitset_miss hf hd hv⟩

theorem halts_assertion {P : List Instruction} {pc : Int} {t : AssertionType} {r : Range}
    (hf : fetch P pc = some (.Assertion t)) (h : Halts P (pc + 1) r) : Halts P pc r := by
  cases ht : t.test r with
  | true =>
    obtain ⟨b, hb⟩ := h
    exact ⟨b, returns_assertion_holds hf ht hb⟩
  | false => exact ⟨false, returns_assertion_fails hf ht⟩

theorem halts_jump {P : List Instruction} {pc target : Int} {r : Range}
    (hf : fetch P pc = some (.Jump target)) (h : Halts P (pc + target) r) : Halts P pc r := by
  obtain ⟨b, hb⟩ := h
  exact ⟨b, returns_jump hf hb⟩

theorem halts_split {P : List Instruction} {pc lhs rhs : Int} {r : Range}
    (hf : fetch P pc = some (.Split lhs rhs)) (h1 : Halts P (pc + lhs) r)
    (h2 : Halts P (pc + rhs) r) : Halts P pc r := by
  obtain ⟨b1, hb1⟩ := h1
  obtain ⟨b2, hb2⟩ := h2
  exact ⟨b1 || b2, returns_split hf hb1 (fun _ => hb2)⟩

theorem halts_match {P : List Instruction} {pc : Int} {r : Range}
    (hf : fetch P pc = some .Match) : Halts P pc r :=
  ⟨true, returns_match hf⟩

theorem halts_at {P : List Instruction} {a b : Int} {r : Range} (h : a = b)
    (hh : Halts P a r) : Halts P b r := h ▸ hh

theorem suffix_tail {x : Char} {rest data s : List Char} (hd : data = x :: rest)
    (h : data <:+ s) : rest <:+ s := by
  subst hd
  exact (List.suffix_cons x rest).trans h

/-- The code of a tree whose loops read input, placed in a program `P` and run on a part of
a 7-bit input `s`: when the matcher returns from the instruction behind the code wherever
the code can hand over (with less input left if the tree is not `nullable`), it returns from
the start of the code. -/
theorem halts_fragment {s : List Char} (hs : ∀ x ∈ s, x.toNat < 128) :
    ∀ (a : AtomPointer), loops_read a = true → ∀ (P : List Instruction) (k : Nat),
      code_at P k (compile_fragment a) → ∀ r : Range, r.rest <:+ s →
      (∀ r2 : Range, r2.rest <:+ s → r2.rest.length ≤ r.rest.length →
        (nullable a = false → r2.rest.length < r.rest.length) →
        Halts P ((k + (compile_fragment a).length : Nat) : Int) r2) →
      Halts P (k : Int) r := by
  intro a
  induction a with
  | null =>
    intro _ P k _ r hr hcont
    have := hcont r hr (le_refl _) (by simp [nullable])
    simpa [compile_fragment] using this
  | Character c next ih =>
    intro hl P k hc r hr hcont
    simp only [loops_read] at hl
    simp only [compile_fragment, List.singleton_append] at hc hcont
    apply halts_character (code_at_head hc)
    intro rest hd
    have e : ((k + 1 : Nat) : Int) = (k : Int) + 1 := by push_cast; ring
    apply halts_at e
    apply ih hl P (k + 1) (code_at_tail hc) ⟨r.offset + 1, rest⟩ (suffix_tail hd hr)
    intro r2 hr2 hlen _
    have hlt : r2.rest.length < r.rest.length := by
      rw [hd]; simp only [List.length_cons] at hlen ⊢; omega
    have := hcont r2 hr2 (by omega) (fun _ => hlt)
    refine halts_at ?_ this
    simp only [List.length_cons]; push_cast; ring
  | CharacterClass t negate next ih =>
    intro hl P k hc r hr hcont
    simp only [loops_read] at hl
    simp only [compile_fragment, List.singleton_append] at hc hcont
    apply halts_bitset (code_at_head hc) (fun x hx => hs x (hr.subset hx))
    intro x rest hd
    have e : ((k + 1 : Nat) : Int) = (k : Int) + 1 := by push_cast; ring
    apply halts_at e
    apply ih hl P (k + 1) (code_at_tail hc) ⟨r.offset + 1, rest⟩ (suffix_tail hd hr)
    intro r2 hr2 hlen _
    have hlt : r2.rest.length < r.rest.length := by
      rw [hd]; simp only [List.length_cons] at hlen ⊢; omega
    have := hcont r2 hr2 (by omega) (fun _ => hlt)
    refine halts_at ?_ this
    simp only [List.length_cons]; push_cast; ring
  | Assertion t next ih =>
    intro hl P k hc r hr hcont
    simp only [loops_read] at hl
    simp only [compile_fragment, List.singleton_append] at hc hcont
    apply halts_assertion (code_at_head hc)
    have e : ((k + 1 : Nat) : Int) = (k : Int) + 1 := by push_cast; ring
    apply halts_at e
    apply ih hl P (k + 1) (code_at_tail hc) r hr
    intro r2 hr2 hlen hstrict
    have := hcont r2 hr2 hlen (fun hn => hstrict (by simpa [nullable] using hn))
    refine halts_at ?_ this
    simp only [List.length_cons]; push_cast; ring
  | Alternation lhs rhs next ihl ihr ihn =>
    intro hl P k hc r hr hcont
    simp only [loops_read, Bool.and_eq_true] at hl
    obtain ⟨⟨hll, hlr⟩, hln⟩ := hl
    have hshape : compile_fragment (.Alternation lhs rhs next) =
        Instruction.Split 1 ((compile_fragment lhs).length + 2) :: (compile_fragment lhs ++
          (Instruction.Jump ((compile_fragment rhs).length + 1) ::
            (compile_fragment rhs ++ compile_fragment next))) := by
      simp [compile_fragment, alternation_code]
    have hlenAll : (compile_fragment (.Alternation lhs rhs next)).length =
        (compile_fragment lhs).length + (compile_fragment rhs).length +
          (compile_fragment next).length + 2 := by
      rw [hshape]; simp only [List.length_cons, List.length_append]; omega
    rw [hshape] at hc
    have hsplit := code_at_head hc
    have hL := code_at_append_left (code_at_tail hc)
    have hJ := code_at_append_right (code_at_tail hc)
    have hjump := code_at_head hJ
    have hR := code_at_append_left (code_at_tail hJ)
    have hN := code_at_append_right (code_at_tail hJ)
    have hnext : ∀ r1 : Range, r1.rest <:+ s → r1.rest.length ≤ r.rest.length →
        ((nullable lhs || nullable rhs) = false → r1.rest.length < r.rest.length) →
        Halts P ((k + 1 + (compile_fragment lhs).length + 1 +
          (compile_fragment rhs).length : Nat) : Int) r1 := by
      intro r1 hr1 hlen hstrict
      apply ihn hln P _ hN r1 hr1
      intro r2 hr2 hlen2 hs2
      have := hcont r2 hr2 (by omega) (by
        intro hnull
        simp only [nullable, Bool.and_eq_false_iff] at hnull
        rcases hnull with h | h
        · have := hstrict h; omega
        · have := hs2 h; omega)
      refine halts_at ?_ this
      rw [hlenAll]; congr 1; omega
    apply halts_split hsplit
    · have e : ((k + 1 : Nat) : Int) = (k : Int) + 1 := by push_cast; ring
      apply halts_at e
      apply ihl hll P (k + 1) hL r hr
      intro r1 hr1 hlen hs1
      apply halts_jump hjump
      refine halts_at ?_ (hnext r1 hr1 hlen (fun h => hs1 (by
        simp only [Bool.or_eq_false_iff] at h; exact h.1)))
      push_cast; ring
    · have e : ((k + 1 + (compile_fragment lhs).length + 1 : Nat) : Int) =
          (k : Int) + (((compile_fragment lhs).length : Int) + 2) := by push_cast; ring
      apply halts_at e
      apply ihr hlr P _ hR r hr
      intro r1 hr1 hlen hs1
      exact hnext r1 hr1 hlen (fun h => hs1 (by
        simp only [Bool.or_eq_false_iff] at h; exact h.2))
  | Repetition type inner next ihi ihn =>
    intro hl P k hc r hr hcont
    cases type with
    | ZeroOrOne =>
      simp only [loops_read, Bool.and_eq_true] at hl
      obtain ⟨hli, hln⟩ := hl
      have hshape : compile_fragment (.Repetition .ZeroOrOne inner next) =
          Instruction.Split 1 ((compile_fragment inner).length + 1) ::
            (compile_fragment inner ++ compile_fragment next) := by
        simp [compile_fragment, repetition_code]
      have hlenAll : (compile_fragment (.Repetition .ZeroOrOne inner next)).length =
          (compile_fragment inner).length + (compile_fragment next).length + 1 := by
        rw [hshape]; simp only [List.length_cons, List.length_append]
      rw [hshape] at hc
      have hsplit := code_at_head hc
      have hI := code_at_append_left (code_at_tail hc)
      have hN := code_at_append_right (code_at_tail hc)
      have hnext : ∀ r1 : Range, r1.rest <:+ s → r1.rest.length ≤ r.rest.length →
          Halts P ((k + 1 + (compile_fragment inner).length : Nat) : Int) r1 := by
        intro r1 hr1 hlen
        apply ihn hln P _ hN r1 hr1
        intro r2 hr2 hlen2 hs2
        have := hcont r2 hr2 (by omega) (by
          intro hnull
          simp only [nullable] at hnull
          have := hs2 hnull; omega)
        refine halts_at ?_ this
        rw [hlenAll]; congr 1; omega
      apply halts_split hsplit
      · have e : ((k + 1 : Nat) : Int) = (k : Int) + 1 := by push_cast; ring
        apply halts_at e
        apply ihi hli P (k + 1) hI r hr
        intro r1 hr1 hlen _
        exact hnext r1 hr1 hlen
      · have e : ((k + 1 + (compile_fragment inner).length : Nat) : Int) =
            (k : Int) + (((compile_fragment inner).length : Int) + 1) := by push_cast; ring
        apply halts_at e
        exact hnext r hr (le_refl _)
    | ZeroOrMore =>
      simp only [loops_read, Bool.and_eq_true, Bool.not_eq_true'] at hl
      obtain ⟨⟨hni, hli⟩, hln⟩ := hl
      have hshape : compile_fragment (.Repetition .ZeroOrMore inner next) =
          Instruction.Split 1 ((compile_fragment inner).length + 2) ::
            (compile_fragment inner ++
              (Instruction.Jump (-((compile_fragment inner).length : Int) - 1) ::
                compile_fragment next)) := by
        simp [compile_fragment, repetition_code]
      have hlenAll : (compile_fragment (.Repetition .ZeroOrMore inner next)).length =
          (compile_fragment inner).length + (compile_fragment next).length + 2 := by
        rw [hshape]; simp only [List.length_cons, List.length_append]; omega
      rw [hshape] at hc
      have hsplit := code_at_head hc
      have hI := code_at_append_left (code_at_tail hc)
      have hJ := code_at_append_right (code_at_tail hc)
      have hjump := code_at_head hJ
      have hN := code_at_tail hJ
      have hnext : ∀ r1 : Range, r1.rest <:+ s → r1.rest.length ≤ r.rest.length →
          Halts P ((k + 1 + (compile_fragment inner).length + 1 : Nat) : Int) r1 := by
        intro r1 hr1 hlen
        apply ihn hln P _ hN r1 hr1
        intro r2 hr2 hlen2 hs2
        have := hcont r2 hr2 (by omega) (by
          intro hnull
          simp only [nullable] at hnull
          have := hs2 hnull; omega)
        refine halts_at ?_ this
        rw [hlenAll]; congr 1; omega
      have hloop : ∀ (m : Nat) (r1 : Range), r1.rest <:+ s →
          r1.rest.length ≤ r.rest.length → r1.rest.length ≤ m → Halts P (k : Int) r1 := by
        intro m
        induction m with
        | zero =>
          intro r1 hr1 hlen hm
          apply halts_split hsplit
          · have e : ((k + 1 : Nat) : Int) = (k : Int) + 1 := by push_cast; ring
            apply halts_at e
            apply ihi hli P (k + 1) hI r1 hr1
            intro r2 _ _ hs2
            have := hs2 hni
            omega
          · have e : ((k + 1 + (compile_fragment inner).length + 1 : Nat) : Int) =
                (k : Int) + (((compile_fragment inner).length : Int) + 2) := by
              push_cast; ring
            exact halts_at e (hnext r1 hr1 hlen)
        | succ m ihm =>
          intro r1 hr1 hlen hm
          apply halts_split hsplit
          · have e : ((k + 1 : Nat) : Int) = (k : Int) + 1 := by push_cast; ring
            apply halts_at e
            apply ihi hli P (k + 1) hI r1 hr1
            intro r2 hr2 hlen2 hs2
            have hlt := hs2 hni
            apply halts_jump hjump
            refine halts_at ?_ (ihm r2 hr2 (by omega) (by omega))
            push_cast; ring
          · have e : ((k + 1 + (compile_fragment inner).length + 1 : Nat) : Int) =
                (k : Int) + (((compile_fragment inner).length : Int) + 2) := by
              push_cast; ring
            exact halts_at e (hnext r1 hr1 hlen)
      exact hloop r.rest.length r hr (le_refl _) (le_refl _)
    | OneOrMore =>
      simp only [loops_read, Bool.and_eq_true, Bool.not_eq_true'] at hl
      obtain ⟨⟨hni, hli⟩, hln⟩ := hl
      have hshape : compile_fragment (.Repetition .OneOrMore inner next) =
          compile_fragment inner ++
            (Instruction.Split (-((compile_fragment inner).length : Int)) 1 ::
              compile_fragment next) := by
        simp [compile_fragment, repetition_code]
      have hlenAll : (compile_fragment (.Repetition .OneOrMore inner next)).length =
          (compile_fragment inner).length + (compile_fragment next).length + 1 := by
        rw [hshape]; simp only [List.length_cons, List.length_append]; omega
      rw [hshape] at hc
      have hI := code_at_append_left hc
      have hS := code_at_append_right hc
      have hsplit := code_at_head hS
      have hN := code_at_tail hS
      have hnext : ∀ r1 : Range, r1.rest <:+ s → r1.rest.length < r.rest.length →
          Halts P ((k + (compile_fragment inner).length + 1 : Nat) : Int) r1 := by
        intro r1 hr1 hlen
        apply ihn hln P _ hN r1 hr1
        intro r2 hr2 hlen2 _
        have := hcont r2 hr2 (by omega) (fun _ => by omega)
        refine halts_at ?_ this
        rw [hlenAll]; congr 1; omega
      have hloop : ∀ (m : Nat) (r1 : Range), r1.rest <:+ s →
          r1.rest.length ≤ r.rest.length → r1.rest.length ≤ m → Halts P (k : Int) r1 := by
        intro m
        induction m with
        | zero =>
          intro r1 hr1 hlen hm
          apply ihi hli P k hI r1 hr1
          intro r2 _ _ hs2
          have := hs2 hni
          omega
        | succ m ihm =>
          intro r1 hr1 hlen hm
          apply ihi hli P k hI r1 hr1
          intro r2 hr2 hlen2 hs2
          have hlt := hs2 hni
          apply halts_split hsplit
          · refine halts_at ?_ (ihm r2 hr2 (by omega) (by omega))
            push_cast; ring
          · refine halts_at ?_ (hnext r2 hr2 (by omega))
            push_cast; ring
      exact hloop r.rest.length r hr (le_refl _) (le_refl _)

theorem full_program_halts {s : List Char} (hs : ∀ x ∈ s, x.toNat < 128) (a : AtomPointer)
    (hl : loops_read a = true) :
    Halts (full_program (compile_fragment a)) 0 (Range.of s) := by
  have hc : code_at (full_program (compile_fragment a)) 0 (compile_fragment a) :=
    code_at_front _ _
  have := halts_fragment hs a hl _ 0 hc (Range.of s) (List.suffix_refl _) (by
    intro r2 _ _ _
    have f1 := full_program_at_end (compile_fragment a)
    have f2 := full_program_at_match (compile_fragment a)
    have e : ((0 + (compile_fragment a).length : Nat) : Int) =
        ((compile_fragment a).length : Int) := by simp
    rw [e]
    exact halts_assertion f1 (halts_match f2))
  simpa using this

theorem partial_program_halts {s : List Char} (hs : ∀ x ∈ s, x.toNat < 128) (a : AtomPointer)
    (hl : loops_read a = true) :
    ∀ (data : List Char) (off : Nat), data <:+ s →
      Halts (partial_program (compile_fragment a)) 0 ⟨off, data⟩ := by
  have f0 := partial_program_at_start (compile_fragment a)
  have f1 : fetch (partial_program (compile_fragment a)) (0 + 1) =
      some (.Bitset (make_range '\n' '\n').complement) := rfl
  have f2 : fetch (partial_program (compile_fragment a)) (0 + 1 + 1) = some (.Jump (-2)) := rfl
  have hc : code_at (partial_program (compile_fragment a)) 3 (compile_fragment a) :=
    ⟨_, [Instruction.Match], rfl, rfl⟩
  have hleft : ∀ r : Range, r.rest <:+ s →
      Halts (partial_program (compile_fragment a)) (0 + 3) r := by
    intro r hr
    have := halts_fragment hs a hl _ 3 hc r hr (by
      intro r2 _ _ _
      have fm := partial_program_at_match (compile_fragment a)
      refine halts_at ?_ (halts_match fm)
      push_cast; ring)
    simpa using this
  intro data
  induction data with
  | nil =>
    intro off hsuf
    exact halts_split f0 (hleft ⟨off, []⟩ hsuf)
      ⟨false, @returns_bitset_empty _ _ _ ⟨off, []⟩ f1 rfl⟩
  | cons x rest ih =>
    intro off hsuf
    apply halts_split f0 (hleft ⟨off, x :: rest⟩ hsuf)
    apply halts_bitset f1 (fun y hy => hs y (hsuf.subset hy))
    intro y rest2 hd
    simp only [List.cons.injEq] at hd
    obtain ⟨_, rfl⟩ := hd
    apply halts_jump f2
    exact ih (off + 1) ((List.suffix_cons x rest).trans hsuf)

/-! ## Walks through compiled code -/

theorem walk_trans {P : List Instruction} {n1 n2 : Nat} {pc1 pc2 pc3 : Int}
    {r1 r2 r3 : Range} (h1 : Walk P n1 pc1 r1 pc2 r2) (h2 : Walk P n2 pc2 r2 pc3 r3) :
    Walk P (n1 + n2) pc1 r1 pc3 r3 := by
  induction h1 with
  | stop pc data => simpa using h2
  | @step n pc pca pcb data dataa datab hs _ ih =>
    have := Walk.step hs (ih h2)
    rw [show n + 1 + n2 = n + n2 + 1 by omega]
    exact this

theorem walk_one {P : List Instruction} {pc1 pc2 : Int} {r1 r2 : Range}
    (h : Step P pc1 r1 pc2 r2) : Walk P 1 pc1 r1 pc2 r2 :=
  Walk.step h (Walk.stop _ _)

theorem walk_at {P : List Instruction} {n n2 : Nat} {pc1 pc2 pc3 pc4 : Int} {r1 r2 : Range}
    (hn : n = n2) (h1 : pc1 = pc3) (h2 : pc2 = pc4) (h : Walk P n pc1 r1 pc2 r2) :
    Walk P n2 pc3 r1 pc4 r2 := by
  subst hn h1 h2
  exact h

theorem cursor_read {s : List Char} {i : Nat} {x : Char} {rest : List Char}
    (h : (cursor s i).rest = x :: rest) :
    s.get? i = some x ∧ i < s.length ∧ (⟨(cursor s i).offset + 1, rest⟩ : Range) =
      cursor s (i + 1) := by
  simp only [cursor] at h ⊢
  have hlt : i < s.length := by
    by_contra hge
    rw [List.drop_eq_nil_of_le (Nat.le_of_not_lt hge)] at h
    cases h
  rw [List.drop_eq_getElem_cons hlt] at h
  simp only [List.cons.injEq] at h
  refine ⟨?_, hlt, ?_⟩
  · rw [List.get?_eq_getElem?, List.getElem?_eq_getElem hlt, h.1]
  · rw [h.2]

theorem cursor_rest {s : List Char} {i : Nat} {x : Char} (h : s.get? i = some x) :
    (cursor s i).rest = x :: s.drop (i + 1) ∧ i < s.length := by
  have hlt : i < s.length := by
    by_contra hge
    rw [List.get?_eq_none.mpr (Nat.le_of_not_lt hge)] at h
    cases h
  rw [List.get?_eq_getElem?, List.getElem?_eq_getElem hlt] at h
  simp only [Option.some.injEq] at h
  simp only [cursor]
  rw [List.drop_eq_getElem_cons hlt, h]
  exact ⟨rfl, hlt⟩

set_option maxRecDepth 100000 in
theorem class_mask_bits (t : CharacterClassType) (negate : Bool) : ∀ n, n < 128 →
    (class_mask t negate).match_ (Char.ofNat n) = some (in_class t negate (Char.ofNat n)) := by
  cases t <;> cases negate <;> decide

/-- On a 7-bit code unit the mask of a class says what the specification says. -/
theorem class_mask_ascii (t : CharacterClassType) (negate : Bool) {x : Char}
    (hx : x.toNat < 128) : (class_mask t negate).match_ x = some (in_class t negate x) := by
  have := class_mask_bits t negate x.toNat hx
  rwa [Char.ofNat_toNat] at this

/-! ## The parts of the code of a node -/

theorem alternation_parts {P : List Instruction} {k : Nat} {lhs rhs next : AtomPointer}
    (hc : code_at P k (compile_fragment (.Alternation lhs rhs next))) :
    fetch P (k : Int) = some (.Split 1 ((compile_fragment lhs).length + 2)) ∧
    code_at P (k + 1) (compile_fragment lhs) ∧
    fetch P ((k + 1 + (compile_fragment lhs).length : Nat) : Int) =
      some (.Jump ((compile_fragment rhs).length + 1)) ∧
    code_at P (k + 1 + (compile_fragment lhs).length + 1) (compile_fragment rhs) ∧
    code_at P (k + 1 + (compile_fragment lhs).length + 1 + (compile_fragment rhs).length)
      (compile_fragment next) ∧
    (compile_fragment (.Alternation lhs rhs next)).length =
      (compile_fragment lhs).length + (compile_fragment rhs).length +
        (compile_fragment next).length + 2 := by
  have hshape : compile_fragment (.Alternation lhs rhs next) =
      Instruction.Split 1 ((compile_fragment lhs).length + 2) :: (compile_fragment lhs ++
        (Instruction.Jump ((compile_fragment rhs).length + 1) ::
          (compile_fragment rhs ++ compile_fragment next))) := by
    simp [compile_fragment, alternation_code]
  have hlen : (compile_fragment (.Alternation lhs rhs next)).length =
      (compile_fragment lhs).length + (compile_fragment rhs).length +
        (compile_fragment next).length + 2 := by
    rw [hshape]; simp only [List.length_cons, List.length_append]; omega
  rw [hshape] at hc
  have hJ := code_at_append_right (code_at_tail hc)
  exact ⟨code_at_head hc, code_at_append_left (code_at_tail hc), code_at_head hJ,
    code_at_append_left (code_at_tail hJ), code_at_append_right (code_at_tail hJ), hlen⟩

theorem zero_or_one_parts {P : List Instruction} {k : Nat} {inner next : AtomPointer}
    (hc : code_at P k (compile_fragment (.Repetition .ZeroOrOne inner next))) :
    fetch P (k : Int) = some (.Split 1 ((compile_fragment inner).length + 1)) ∧
    code_at P (k + 1) (compile_fragment inner) ∧
    code_at P (k + 1 + (compile_fragment inner).length) (compile_fragment next) ∧
    (compile_fragment (.Repetition .ZeroOrOne inner next)).length =
      (compile_fragment inner).length + (compile_fragment next).length + 1 := by
  have hshape : compile_fragment (.Repetition .ZeroOrOne inner next) =
      Instruction.Split 1 ((compile_fragment inner).length + 1) ::
        (compile_fragment inner ++ compile_fragment next) := by
    simp [compile_fragment, repetition_code]
  have hlen : (compile_fragment (.Repetition .ZeroOrOne inner next)).length =
      (compile_fragment inner).length + (compile_fragment next).length + 1 := by
    rw [hshape]; simp only [List.length_cons, List.length_append]
  rw [hshape] at hc
  exact ⟨code_at_head hc, code_at_append_left (code_at_tail hc),
    code_at_append_right (code_at_tail hc), hlen⟩

theorem zero_or_more_parts {P : List Instruction} {k : Nat} {inner next : AtomPointer}
    (hc : code_at P k (compile_fragment (.Repetition .ZeroOrMore inner next))) :
    fetch P (k : Int) = some (.Split 1 ((compile_fragment inner).length + 2)) ∧
    code_at P (k + 1) (compile_fragment inner) ∧
    fetch P ((k + 1 + (compile_fragment inner).length : Nat) : Int) =
      some (.Jump (-((compile_fragment inner).length : Int) - 1)) ∧
    code_at P (k + 1 + (compile_fragment inner).length + 1) (compile_fragment next) ∧
    (compile_fragment (.Repetition .ZeroOrMore inner next)).length =
      (compile_fragment inner).length + (compile_fragment next).length + 2 := by
  have hshape : compile_fragment (.Repetition .ZeroOrMore inner next) =
      Instruction.Split 1 ((compile_fragment inner).length + 2) ::
        (compile_fragment inner ++
          (Instruction.Jump (-((compile_fragment inner).length : Int) - 1) ::
            compile_fragment next)) := by
    simp [compile_fragment, repetition_code]
  have hlen : (compile_fragment (.Repetition .ZeroOrMore inner next)).length =
      (compile_fragment inner).length + (compile_fragment next).length + 2 := by
    rw [hshape]; simp only [List.length_cons, List.length_append]; omega
  rw [hshape] at hc
  have hJ := code_at_append_right (code_at_tail hc)
  exact ⟨code_at_head hc, code_at_append_left (code_at_tail hc), code_at_head hJ,
    code_at_tail hJ, hlen⟩

theorem one_or_more_parts {P : List Instruction} {k : Nat} {inner next : AtomPointer}
    (hc : code_at P k (compile_fragment (.Repetition .OneOrMore inner next))) :
    code_at P k (compile_fragment inner) ∧
    fetch P ((k + (compile_fragment inner).length : Nat) : Int) =
      some (.Split (-((compile_fragment inner).length : Int)) 1) ∧
    code_at P (k + (compile_fragment inner).length + 1) (compile_fragment next) ∧
    (compile_fragment (.Repetition .OneOrMore inner next)).length =
      (compile_fragment inner).length + (compile_fragment next).length + 1 := by
  have hshape : compile_fragment (.Repetition .OneOrMore inner next) =
      compile_fragment inner ++
        (Instruction.Split (-((compile_fragment inner).length : Int)) 1 ::
          compile_fragment next) := by
    simp [compile_fragment, repetition_code]
  have hlen : (compile_fragment (.Repetition .OneOrMore inner next)).length =
      (compile_fragment inner).length + (compile_fragment next).length + 1 := by
    rw [hshape]; simp only [List.length_cons, List.length_append]; omega
  rw [hshape] at hc
  have hS := code_at_append_right hc
  exact ⟨code_at_append_left hc, code_at_head hS, code_at_tail hS, hlen⟩

/-! ## What one step can be -/

theorem step_character {P : List Instruction} {pc pc2 : Int} {c : Char} {r r2 : Range}
    (hf : fetch P pc = some (.Character c)) (h : Step P pc r pc2 r2) :
    ∃ rest, r.rest = c :: rest ∧ pc2 = pc + 1 ∧ r2 = ⟨r.offset + 1, rest⟩ := by
  cases h with
  | character hf2 hd =>
    rw [hf] at hf2
    cases hf2
    exact ⟨_, hd, rfl, rfl⟩
  | bitset hf2 _ _ => rw [hf] at hf2; cases hf2
  | assertion hf2 _ => rw [hf] at hf2; cases hf2
  | jump hf2 => rw [hf] at hf2; cases hf2
  | split_lhs hf2 => rw [hf] at hf2; cases hf2
  | split_rhs hf2 => rw [hf] at hf2; cases hf2

theorem step_bitset {P : List Instruction} {pc pc2 : Int} {m : Bitset} {r r2 : Range}
    (hf : fetch P pc = some (.Bitset m)) (h : Step P pc r pc2 r2) :
    ∃ x rest, r.rest = x :: rest ∧ m.match_ x = some true ∧ pc2 = pc + 1 ∧
      r2 = ⟨r.offset + 1, rest⟩ := by
  cases h with
  | character hf2 _ => rw [hf] at hf2; cases hf2
  | bitset hf2 hd hm =>
    rw [hf] at hf2
    cases hf2
    exact ⟨_, _, hd, hm, rfl, rfl⟩
  | assertion hf2 _ => rw [hf] at hf2; cases hf2
  | jump hf2 => rw [hf] at hf2; cases hf2
  | split_lhs hf2 => rw [hf] at hf2; cases hf2
  | split_rhs hf2 => rw [hf] at hf2; cases hf2

theorem step_assertion {P : List Instruction} {pc pc2 : Int} {t : AssertionType}
    {r r2 : Range} (hf : fetch P pc = some (.Assertion t)) (h : Step P pc r pc2 r2) :
    t.test r = true ∧ pc2 = pc + 1 ∧ r2 = r := by
  cases h with
  | character hf2 _ => rw [hf] at hf2; cases hf2
  | bitset hf2 _ _ => rw [hf] at hf2; cases hf2
  | assertion hf2 ht =>
    rw [hf] at hf2
    cases hf2
    exact ⟨ht, rfl, rfl⟩
  | jump hf2 => rw [hf] at hf2; cases hf2
  | split_lhs hf2 => rw [hf] at hf2; cases hf2
  | split_rhs hf2 => rw [hf] at hf2; cases hf2

theorem step_jump {P : List Instruction} {pc pc2 target : Int} {r r2 : Range}
    (hf : fetch P pc = some (.Jump target)) (h : Step P pc r pc2 r2) :
    pc2 = pc + target ∧ r2 = r := by
  cases h with
  | character hf2 _ => rw [hf] at hf2; cases hf2
  | bitset hf2 _ _ => rw [hf] at hf2; cases hf2
  | assertion hf2 _ => rw [hf] at hf2; cases hf2
  | jump hf2 =>
    rw [hf] at hf2
    cases hf2
    exact ⟨rfl, rfl⟩
  | split_lhs hf2 => rw [hf] at hf2; cases hf2
  | split_rhs hf2 => rw [hf] at hf2; cases hf2

theorem step_split {P : List Instruction} {pc pc2 lhs rhs : Int} {r r2 : Range}
    (hf : fetch P pc = some (.Split lhs rhs)) (h : Step P pc r pc2 r2) :
    (pc2 = pc + lhs ∨ pc2 = pc + rhs) ∧ r2 = r := by
  cases h with
  | character hf2 _ => rw [hf] at hf2; cases hf2
  | bitset hf2 _ _ => rw [hf] at hf2; cases hf2
  | assertion hf2 _ => rw [hf] at hf2; cases hf2
  | jump hf2 => rw [hf] at hf2; cases hf2
  | split_lhs hf2 =>
    rw [hf] at hf2
    cases hf2
    exact ⟨Or.inl rfl, rfl⟩
  | split_rhs hf2 =>
    rw [hf] at hf2
    cases hf2
    exact ⟨Or.inr rfl, rfl⟩

/-- A walk that ends at another instruction than it starts at has a first step. -/
theorem walk_first {P : List Instruction} {n : Nat} {pc pcF : Int} {r rF : Range}
    (h : Walk P n pc r pcF rF) (hne : pcF ≠ pc) :
    ∃ n2 pc1 r1, n = n2 + 1 ∧ Step P pc r pc1 r1 ∧ Walk P n2 pc1 r1 pcF rF := by
  cases h with
  | stop => exact absurd rfl hne
  | step hs hw => exact ⟨_, _, _, rfl, hs, hw⟩

/-! ## From the meaning of a tree to a walk through its code -/

theorem goes_step {P : List Instruction} {pc pc1 pc2 : Int} {r r1 r2 : Range}
    (hs : Step P pc r pc1 r1) (h : ∃ n, Walk P n pc1 r1 pc2 r2) :
    ∃ n, Walk P n pc r pc2 r2 := by
  obtain ⟨n, hw⟩ := h
  exact ⟨n + 1, Walk.step hs hw⟩

theorem goes_trans {P : List Instruction} {pc1 pc2 pc3 : Int} {r1 r2 r3 : Range}
    (h1 : ∃ n, Walk P n pc1 r1 pc2 r2) (h2 : ∃ n, Walk P n pc2 r2 pc3 r3) :
    ∃ n, Walk P n pc1 r1 pc3 r3 := by
  obtain ⟨n1, hw1⟩ := h1
  obtain ⟨n2, hw2⟩ := h2
  exact ⟨n1 + n2, walk_trans hw1 hw2⟩

theorem goes_at {P : List Instruction} {pc1 pc2 pc3 pc4 : Int} {r1 r2 : Range}
    (h1 : pc1 = pc3) (h2 : pc2 = pc4) (h : ∃ n, Walk P n pc1 r1 pc2 r2) :
    ∃ n, Walk P n pc3 r1 pc4 r2 := by
  subst h1 h2
  exact h

theorem cursor_succ (s : List Char) (i : Nat) :
    (⟨(cursor s i).offset + 1, s.drop (i + 1)⟩ : Range) = cursor s (i + 1) := by
  simp [cursor]

theorem step_read_character {P : List Instruction} {k : Nat} {c : Char} {s : List Char}
    {i : Nat} (hf : fetch P (k : Int) = some (.Character c)) (hget : s.get? i = some c) :
    Step P (k : Int) (cursor s i) ((k : Int) + 1) (cursor s (i + 1)) := by
  have := @Step.character P (k : Int) (cursor s i) c (s.drop (i + 1)) hf (cursor_rest hget).1
  rwa [cursor_succ] at this

theorem step_read_bitset {P : List Instruction} {k : Nat} {m : Bitset} {x : Char}
    {s : List Char} {i : Nat} (hf : fetch P (k : Int) = some (.Bitset m))
    (hget : s.get? i = some x) (hm : m.match_ x = some true) :
    Step P (k : Int) (cursor s i) ((k : Int) + 1) (cursor s (i + 1)) := by
  have := @Step.bitset P (k : Int) (cursor s i) m x (s.drop (i + 1)) hf (cursor_rest hget).1 hm
  rwa [cursor_succ] at this

/-- Completeness of the code: what the tree means can be walked. -/
theorem walk_of_matches {s : List Char} (hs : ∀ x ∈ s, x.toNat < 128) {a : AtomPointer}
    {i j : Nat} (h : Matches s a i j) :
    ∀ (P : List Instruction) (k : Nat), code_at P k (compile_fragment a) →
      ∃ n, Walk P n (k : Int) (cursor s i)
        ((k + (compile_fragment a).length : Nat) : Int) (cursor s j) := by
  induction h with
  | null i =>
    intro P k _
    exact ⟨0, walk_at rfl rfl (by simp [compile_fragment]) (Walk.stop _ _)⟩
  | @character c next i j hget _ ih =>
    intro P k hc
    simp only [compile_fragment, List.singleton_append, List.length_cons] at hc ⊢
    exact goes_step (step_read_character (code_at_head hc) hget)
      (goes_at (by omega) (by omega) (ih P (k + 1) (code_at_tail hc)))
  | @char_class t negate next x i j hget hin _ ih =>
    intro P k hc
    simp only [compile_fragment, List.singleton_append, List.length_cons] at hc ⊢
    have hm : (class_mask t negate).match_ x = some true := by
      rw [class_mask_ascii t negate (hs x (List.get?_mem hget)), hin]
    exact goes_step (step_read_bitset (code_at_head hc) hget hm)
      (goes_at (by omega) (by omega) (ih P (k + 1) (code_at_tail hc)))
  | @begin_of_string next j _ ih =>
    intro P k hc
    simp only [compile_fragment, List.singleton_append, List.length_cons] at hc ⊢
    have ht : AssertionType.BeginOfString.test (cursor s 0) = true := by
      simp [AssertionType.test, Range.is_start, cursor]
    exact goes_step (Step.assertion (code_at_head hc) ht)
      (goes_at (by omega) (by omega) (ih P (k + 1) (code_at_tail hc)))
  | @end_of_string next j _ ih =>
    intro P k hc
    simp only [compile_fragment, List.singleton_append, List.length_cons] at hc ⊢
    have ht : AssertionType.EndOfString.test (cursor s s.length) = true := by
      simp [AssertionType.test, Range.empty, cursor]
    exact goes_step (Step.assertion (code_at_head hc) ht)
      (goes_at (by omega) (by omega) (ih P (k + 1) (code_at_tail hc)))
  | @alternation_lhs lhs rhs next i m j _ _ ih1 ih2 =>
    intro P k hc
    obtain ⟨hsplit, hL, hjump, hR, hN, hlen⟩ := alternation_parts hc
    refine goes_step (Step.split_lhs hsplit) ?_
    refine goes_trans (goes_at (by omega) rfl (ih1 P (k + 1) hL)) ?_
    refine goes_step (Step.jump hjump) ?_
    exact goes_at (by omega) (by omega) (ih2 P _ hN)
  | @alternation_rhs lhs rhs next i m j _ _ ih1 ih2 =>
    intro P k hc
    obtain ⟨hsplit, hL, hjump, hR, hN, hlen⟩ := alternation_parts hc
    refine goes_step (Step.split_rhs hsplit) ?_
    refine goes_trans (goes_at (by omega) rfl (ih1 P _ hR)) ?_
    exact goes_at rfl (by omega) (ih2 P _ hN)
  | @zero_or_one_none inner next i j _ ih =>
    intro P k hc
    obtain ⟨hsplit, hI, hN, hlen⟩ := zero_or_one_parts hc
    refine goes_step (Step.split_rhs hsplit) ?_
    exact goes_at (by omega) (by omega) (ih P _ hN)
  | @zero_or_one_once inner next i m j _ _ ih1 ih2 =>
    intro P k hc
    obtain ⟨hsplit, hI, hN, hlen⟩ := zero_or_one_parts hc
    refine goes_step (Step.split_lhs hsplit) ?_
    refine goes_trans (goes_at (by omega) rfl (ih1 P _ hI)) ?_
    exact goes_at rfl (by omega) (ih2 P _ hN)
  | @zero_or_more_none inner next i j _ ih =>
    intro P k hc
    obtain ⟨hsplit, hI, hjump, hN, hlen⟩ := zero_or_more_parts hc
    refine goes_step (Step.split_rhs hsplit) ?_
    exact goes_at (by omega) (by omega) (ih P _ hN)
  | @zero_or_more_again inner next i m j _ _ ih1 ih2 =>
    intro P k hc
    obtain ⟨hsplit, hI, hjump, hN, hlen⟩ := zero_or_more_parts hc
    refine goes_step (Step.split_lhs hsplit) ?_
    refine goes_trans (goes_at (by omega) rfl (ih1 P _ hI)) ?_
    refine goes_step (Step.jump hjump) ?_
    exact goes_at (by omega) rfl (ih2 P k hc)
  | @one_or_more_once inner next i m j _ _ ih1 ih2 =>
    intro P k hc
    obtain ⟨hI, hsplit, hN, hlen⟩ := one_or_more_parts hc
    refine goes_trans (ih1 P _ hI) ?_
    refine goes_step (Step.split_rhs hsplit) ?_
    exact goes_at (by omega) (by omega) (ih2 P _ hN)
  | @one_or_more_again inner next i m j _ _ ih1 ih2 =>
    intro P k hc
    obtain ⟨hI, hsplit, hN, hlen⟩ := one_or_more_parts hc
    refine goes_trans (ih1 P _ hI) ?_
    refine goes_step (Step.split_lhs hsplit) ?_
    exact goes_at (by omega) rfl (ih2 P k hc)

/-! ## From a walk through the code of a tree to its meaning -/

theorem step_fetch {P : List Instruction} {pc pc2 : Int} {r r2 : Range}
    (h : Step P pc r pc2 r2) : ∃ ins, fetch P pc = some ins := by
  cases h with
  | character hf _ => exact ⟨_, hf⟩
  | bitset hf _ _ => exact ⟨_, hf⟩
  | assertion hf _ => exact ⟨_, hf⟩
  | jump hf => exact ⟨_, hf⟩
  | split_lhs hf => exact ⟨_, hf⟩
  | split_rhs hf => exact ⟨_, hf⟩

/-- No walk goes on from a cursor outside the program. -/
theorem walk_stuck {P : List Instruction} {n : Nat} {pc pc2 : Int} {r r2 : Range}
    (hf : fetch P pc = none) (h : Walk P n pc r pc2 r2) : pc2 = pc ∧ r2 = r := by
  cases h with
  | stop => exact ⟨rfl, rfl⟩
  | step hs _ =>
    obtain ⟨ins, hins⟩ := step_fetch hs
    rw [hf] at hins
    cases hins

/-- Soundness of the code: a walk that starts at the first instruction of the code of a tree
and ends outside the code has passed the instruction behind the code, and the input it read
up to there is what the tree means. -/
theorem matches_of_walk {s : List Char} (hs : ∀ x ∈ s, x.toNat < 128) :
    ∀ (a : AtomPointer) (P : List Instruction) (k : Nat), code_at P k (compile_fragment a) →
      ∀ (n i : Nat) (pcF : Int) (rF : Range), i ≤ s.length →
      Walk P n (k : Int) (cursor s i) pcF rF →
      (pcF < (k : Int) ∨ ((k + (compile_fragment a).length : Nat) : Int) ≤ pcF) →
      ∃ m j, m ≤ n ∧ j ≤ s.length ∧ Matches s a i j ∧
        Walk P (n - m) ((k + (compile_fragment a).length : Nat) : Int) (cursor s j) pcF rF := by
  intro a
  induction a with
  | null =>
    intro P k _ n i pcF rF hi hw _
    exact ⟨0, i, Nat.zero_le _, hi, Matches.null i,
      walk_at (by omega) (by simp [compile_fragment]) rfl hw⟩
  | Character c next ih =>
    intro P k hc n i pcF rF hi hw hout
    simp only [compile_fragment, List.singleton_append, List.length_cons] at hc hout ⊢
    obtain ⟨n2, pc1, r1, hn, hstep, hw2⟩ := walk_first hw (by omega)
    obtain ⟨rest, hd, hpc, hr⟩ := step_character (code_at_head hc) hstep
    obtain ⟨hget, hlt, hcur⟩ := cursor_read hd
    subst hpc hr
    rw [hcur] at hw2
    obtain ⟨m, j, hm, hj, hmatch, hrest⟩ := ih P (k + 1) (code_at_tail hc) n2 (i + 1) pcF rF
      hlt (walk_at rfl (by omega) rfl hw2) (by omega)
    exact ⟨m + 1, j, by omega, hj, Matches.character hget hmatch,
      walk_at (by omega) (by omega) rfl hrest⟩
  | CharacterClass t negate next ih =>
    intro P k hc n i pcF rF hi hw hout
    simp only [compile_fragment, List.singleton_append, List.length_cons] at hc hout ⊢
    obtain ⟨n2, pc1, r1, hn, hstep, hw2⟩ := walk_first hw (by omega)
    obtain ⟨x, rest, hd, hbit, hpc, hr⟩ := step_bitset (code_at_head hc) hstep
    obtain ⟨hget, hlt, hcur⟩ := cursor_read hd
    subst hpc hr
    rw [hcur] at hw2
    have hin : in_class t negate x = true := by
      rw [class_mask_ascii t negate (hs x (List.get?_mem hget))] at hbit
      exact Option.some.inj hbit
    obtain ⟨m, j, hm, hj, hmatch, hrest⟩ := ih P (k + 1) (code_at_tail hc) n2 (i + 1) pcF rF
      hlt (walk_at rfl (by omega) rfl hw2) (by omega)
    exact ⟨m + 1, j, by omega, hj, Matches.char_class hget hin hmatch,
      walk_at (by omega) (by omega) rfl hrest⟩
  | Assertion t next ih =>
    intro P k hc n i pcF rF hi hw hout
    simp only [compile_fragment, List.singleton_append, List.length_cons] at hc hout ⊢
    obtain ⟨n2, pc1, r1, hn, hstep, hw2⟩ := walk_first hw (by omega)
    obtain ⟨ht, hpc, hr⟩ := step_assertion (code_at_head hc) hstep
    subst hpc hr
    obtain ⟨m, j, hm, hj, hmatch, hrest⟩ := ih P (k + 1) (code_at_tail hc) n2 i pcF rF
      hi (walk_at rfl (by omega) rfl hw2) (by omega)
    cases t with
    | BeginOfString =>
      have h0 : i = 0 := by
        simpa [AssertionType.test, Range.is_start, cursor] using ht
      subst h0
      exact ⟨m + 1, j, by omega, hj, Matches.begin_of_string hmatch,
        walk_at (by omega) (by omega) rfl hrest⟩
    | EndOfString =>
      have hlen : i = s.length := by
        have : s.length ≤ i := by
          simpa [AssertionType.test, Range.empty, cursor] using ht
        omega
      subst hlen
      exact ⟨m + 1, j, by omega, hj, Matches.end_of_string hmatch,
        walk_at (by omega) (by omega) rfl hrest⟩
  | Alternation lhs rhs next ihL ihR ihN =>
    intro P k hc n i pcF rF hi hw hout
    obtain ⟨hsplit, hL, hjump, hR, hN, hlen⟩ := alternation_parts hc
    obtain ⟨n2, pc1, r1, hn, hstep, hw2⟩ := walk_first hw (by omega)
    obtain ⟨hpc, hr⟩ := step_split hsplit hstep
    subst hr
    rcases hpc with hpc | hpc
    · subst hpc
      obtain ⟨m1, j1, hm1, hj1, hmatch1, hrest1⟩ := ihL P (k + 1) hL n2 i pcF rF
        hi (walk_at rfl (by omega) rfl hw2) (by omega)
      obtain ⟨n3, pc3, r3, hn3, hstep3, hw3⟩ := walk_first hrest1 (by omega)
      obtain ⟨hpc3, hr3⟩ := step_jump hjump hstep3
      subst hpc3 hr3
      obtain ⟨m2, j2, hm2, hj2, hmatch2, hrest2⟩ := ihN P _ hN n3 j1 pcF rF
        hj1 (walk_at rfl (by omega) rfl hw3) (by omega)
      exact ⟨m1 + m2 + 2, j2, by omega, hj2, Matches.alternation_lhs hmatch1 hmatch2,
        walk_at (by omega) (by omega) rfl hrest2⟩
    · subst hpc
      obtain ⟨m1, j1, hm1, hj1, hmatch1, hrest1⟩ := ihR P _ hR n2 i pcF rF
        hi (walk_at rfl (by omega) rfl hw2) (by omega)
      obtain ⟨m2, j2, hm2, hj2, hmatch2, hrest2⟩ := ihN P _ hN (n2 - m1) j1 pcF rF
        hj1 hrest1 (by omega)
      exact ⟨m1 + m2 + 1, j2, by omega, hj2, Matches.alternation_rhs hmatch1 hmatch2,
        walk_at (by omega) (by omega) rfl hrest2⟩
  | Repetition type inner next ihI ihN =>
    intro P k hc n
    cases type with
    | ZeroOrOne =>
      intro i pcF rF hi hw hout
      obtain ⟨hsplit, hI, hN, hlen⟩ := zero_or_one_parts hc
      obtain ⟨n2, pc1, r1, hn, hstep, hw2⟩ := walk_first hw (by omega)
      obtain ⟨hpc, hr⟩ := step_split hsplit hstep
      subst hr
      rcases hpc with hpc | hpc
      · subst hpc
        obtain ⟨m1, j1, hm1, hj1, hmatch1, hrest1⟩ := ihI P (k + 1) hI n2 i pcF rF
          hi (walk_at rfl (by omega) rfl hw2) (by omega)
        obtain ⟨m2, j2, hm2, hj2, hmatch2, hrest2⟩ := ihN P _ hN (n2 - m1) j1 pcF rF
          hj1 hrest1 (by omega)
        exact ⟨m1 + m2 + 1, j2, by omega, hj2, Matches.zero_or_one_once hmatch1 hmatch2,
          walk_at (by omega) (by omega) rfl hrest2⟩
      · subst hpc
        obtain ⟨m2, j2, hm2, hj2, hmatch2, hrest2⟩ := ihN P _ hN n2 i pcF rF
          hi (walk_at rfl (by omega) rfl hw2) (by omega)
        exact ⟨m2 + 1, j2, by omega, hj2, Matches.zero_or_one_none hmatch2,
          walk_at (by omega) (by omega) rfl hrest2⟩
    | ZeroOrMore =>
      obtain ⟨hsplit, hI, hjump, hN, hlen⟩ := zero_or_more_parts hc
      induction n using Nat.strong_induction_on with
      | _ n ihS =>
        intro i pcF rF hi hw hout
        obtain ⟨n2, pc1, r1, hn, hstep, hw2⟩ := walk_first hw (by omega)
        obtain ⟨hpc, hr⟩ := step_split hsplit hstep
        subst hr
        rcases hpc with hpc | hpc
        · subst hpc
          obtain ⟨m1, j1, hm1, hj1, hmatch1, hrest1⟩ := ihI P (k + 1) hI n2 i pcF rF
            hi (walk_at rfl (by omega) rfl hw2) (by omega)
          obtain ⟨n3, pc3, r3, hn3, hstep3, hw3⟩ := walk_first hrest1 (by omega)
          obtain ⟨hpc3, hr3⟩ := step_jump hjump hstep3
          subst hpc3 hr3
          obtain ⟨m2, j2, hm2, hj2, hmatch2, hrest2⟩ := ihS n3 (by omega) j1 pcF rF
            hj1 (walk_at rfl (by omega) rfl hw3) hout
          exact ⟨m1 + m2 + 2, j2, by omega, hj2, Matches.zero_or_more_again hmatch1 hmatch2,
            walk_at (by omega) rfl rfl hrest2⟩
        · subst hpc
          obtain ⟨m2, j2, hm2, hj2, hmatch2, hrest2⟩ := ihN P _ hN n2 i pcF rF
            hi (walk_at rfl (by omega) rfl hw2) (by omega)
          exact ⟨m2 + 1, j2, by omega, hj2, Matches.zero_or_more_none hmatch2,
            walk_at (by omega) (by omega) rfl hrest2⟩
    | OneOrMore =>
      obtain ⟨hI, hsplit, hN, hlen⟩ := one_or_more_parts hc
      induction n using Nat.strong_induction_on with
      | _ n ihS =>
        intro i pcF rF hi hw hout
        obtain ⟨m1, j1, hm1, hj1, hmatch1, hrest1⟩ := ihI P k hI n i pcF rF
          hi hw (by omega)
        obtain ⟨n3, pc3, r3, hn3, hstep3, hw3⟩ := walk_first hrest1 (by omega)
        obtain ⟨hpc3, hr3⟩ := step_split hsplit hstep3
        subst hr3
        rcases hpc3 with hpc3 | hpc3
        · subst hpc3
          obtain ⟨m2, j2, hm2, hj2, hmatch2, hrest2⟩ := ihS n3 (by omega) j1 pcF rF
            hj1 (walk_at rfl (by omega) rfl hw3) hout
          exact ⟨m1 + m2 + 1, j2, by omega, hj2, Matches.one_or_more_again hmatch1 hmatch2,
            walk_at (by omega) rfl rfl hrest2⟩
        · subst hpc3
          obtain ⟨m2, j2, hm2, hj2, hmatch2, hrest2⟩ := ihN P _ hN n3 j1 pcF rF
            hj1 (walk_at rfl (by omega) rfl hw3) (by omega)
          exact ⟨m1 + m2 + 1, j2, by omega, hj2, Matches.one_or_more_once hmatch1 hmatch2,
            walk_at (by omega) (by omega) rfl hrest2⟩

/-- The code of a tree, run on its own on a 7-bit input: a walk from the first instruction
at position `i` to the end of the code at position `j` exists exactly when the input from
`i` up to `j` is what the tree means. -/
theorem compile_fragment_correct {s : List Char} (hs : ∀ x ∈ s, x.toNat < 128)
    (a : AtomPointer) {i j : Nat} (hi : i ≤ s.length) :
    (∃ n, Walk (compile_fragment a) n 0 (cursor s i)
      ((compile_fragment a).length : Int) (cursor s j)) ↔ Matches s a i j := by
  constructor
  · rintro ⟨n, hw⟩
    obtain ⟨m, j2, _, _, hmatch, hrest⟩ := matches_of_walk hs a (compile_fragment a) 0
      (code_at_self _) n i _ _ hi (walk_at rfl (by simp) rfl hw) (Or.inr (by simp))
    have hnone : fetch (compile_fragment a)
        ((0 + (compile_fragment a).length : Nat) : Int) = none := by
      simp [fetch]
    have heq := (walk_stuck hnone hrest).2
    have hoff := congrArg Range.offset heq
    simp only [cursor, Nat.cast_inj] at hoff
    rw [hoff]
    exact hmatch
  · intro h
    obtain ⟨n, hw⟩ := walk_of_matches hs h (compile_fragment a) 0 (code_at_self _)
    exact ⟨n, walk_at rfl (by simp) (by simp) hw⟩

/-! ## Teardown deletes no node twice and no node outside the tree -/

theorem deallocate_reachable (p : AtomPointer) : ∀ x ∈ deallocate p, x ∈ reachable p := by
  induction p with
  | null => intro x hx; simp [deallocate] at hx
  | Character c next ih =>
    intro x hx
    simp only [deallocate, reachable, List.mem_append, List.mem_map, List.mem_singleton,
      List.mem_cons, List.not_mem_nil, or_false] at hx ⊢
    rcases hx with ⟨y, hy, rfl⟩ | rfl
    · exact Or.inr ⟨y, ih y hy, rfl⟩
    · exact Or.inl rfl
  | CharacterClass t negate next ih =>
    intro x hx
    simp only [deallocate, reachable, List.mem_append, List.mem_map, List.mem_singleton,
      List.mem_cons, List.not_mem_nil, or_false] at hx ⊢
    rcases hx with ⟨y, hy, rfl⟩ | rfl
    · exact Or.inr ⟨y, ih y hy, rfl⟩
    · exact Or.inl rfl
  | Repetition type inner next ihI ihN =>
    intro x hx
    simp only [deallocate, reachable, List.mem_append, List.mem_map, List.mem_singleton,
      List.mem_cons, List.not_mem_nil, or_false] at hx ⊢
    rcases hx with (⟨y, hy, rfl⟩ | ⟨y, hy, rfl⟩) | rfl
    · exact Or.inr (Or.inl ⟨y, ihI y hy, rfl⟩)
    · exact Or.inr (Or.inr ⟨y, ihN y hy, rfl⟩)
    · exact Or.inl rfl
  | Alternation lhs rhs next ihL ihR ihN =>
    intro x hx
    simp only [deallocate, reachable, List.mem_append, List.mem_map, List.mem_singleton,
      List.mem_cons, List.not_mem_nil, or_false] at hx ⊢
    rcases hx with ((⟨y, hy, rfl⟩ | ⟨y, hy, rfl⟩) | ⟨y, hy, rfl⟩) | rfl
    · exact Or.inr (Or.inl (Or.inl ⟨y, ihL y hy, rfl⟩))
    · exact Or.inr (Or.inl (Or.inr ⟨y, ihR y hy, rfl⟩))
    · exact Or.inr (Or.inr ⟨y, ihN y hy, rfl⟩)
    · exact Or.inl rfl
  | Assertion t next _ => intro x hx; simp [deallocate] at hx

theorem cons_injective (l : Link) : Function.Injective (List.cons l) :=
  fun _ _ h => (List.cons.inj h).2

theorem map_cons_disjoint {l1 l2 : Link} (h : l1 ≠ l2) (A B : List (List Link)) :
    List.Disjoint (A.map (List.cons l1)) (B.map (List.cons l2)) := by
  intro x hx hy
  simp only [List.mem_map] at hx hy
  obtain ⟨a, _, rfl⟩ := hx
  obtain ⟨b, _, hb⟩ := hy
  exact h (List.cons.inj hb).1.symm

theorem nil_not_mem_map_cons (l : Link) (A : List (List Link)) :
    ([] : List Link) ∉ A.map (List.cons l) := by
  simp

theorem disjoint_root {A : List (List Link)} (h : ([] : List Link) ∉ A) :
    List.Disjoint A [[]] := by
  intro x hx hy
  simp only [List.mem_singleton] at hy
  subst hy
  exact h hx

theorem deallocate_nodup (p : AtomPointer) : (deallocate p).Nodup := by
  induction p with
  | null => simp [deallocate]
  | Character c next ih =>
    simp only [deallocate]
    refine List.Nodup.append (ih.map (cons_injective _)) (List.nodup_singleton _)
      (disjoint_root (by simp))
  | CharacterClass t negate next ih =>
    simp only [deallocate]
    refine List.Nodup.append (ih.map (cons_injective _)) (List.nodup_singleton _)
      (disjoint_root (by simp))
  | Repetition type inner next ihI ihN =>
    simp only [deallocate]
    refine List.Nodup.append
      (List.Nodup.append (ihI.map (cons_injective _)) (ihN.map (cons_injective _))
        (map_cons_disjoint (by decide) _ _))
      (List.nodup_singleton _)
      (disjoint_root (by simp))
  | Alternation lhs rhs next ihL ihR ihN =>
    simp only [deallocate]
    refine List.Nodup.append
      (List.Nodup.append
        (List.Nodup.append (ihL.map (cons_injective _)) (ihR.map (cons_injective _))
          (map_cons_disjoint (by decide) _ _))
        (ihN.map (cons_injective _)) ?_)
      (List.nodup_singleton _) (disjoint_root (by simp))
    intro x hx hy
    rcases List.mem_append.mp hx with h | h
    · exact map_cons_disjoint (by decide) _ _ h hy
    · exact map_cons_disjoint (by decide) _ _ h hy
  | Assertion t next _ => simp [deallocate]

/-- A tree without `Assertion` nodes is torn down completely. -/
theorem deallocate_complete (p : AtomPointer) (h : assertion_free p = true) :
    ∀ x ∈ reachable p, x ∈ deallocate p := by
  induction p with
  | null => intro x hx; simp [reachable] at hx
  | Character c next ih =>
    intro x hx
    simp only [assertion_free] at h
    simp only [deallocate, reachable, List.mem_append, List.mem_map, List.mem_singleton,
      List.mem_cons, List.not_mem_nil, or_false] at hx ⊢
    rcases hx with rfl | ⟨y, hy, rfl⟩
    · exact Or.inr rfl
    · exact Or.inl ⟨y, ih h y hy, rfl⟩
  | CharacterClass t negate next ih =>
    intro x hx
    simp only [assertion_free] at h
    simp only [deallocate, reachable, List.mem_append, List.mem_map, List.mem_singleton,
      List.mem_cons, List.not_mem_nil, or_false] at hx ⊢
    rcases hx with rfl | ⟨y, hy, rfl⟩
    · exact Or.inr rfl
    · exact Or.inl ⟨y, ih h y hy, rfl⟩
  | Repetition type inner next ihI ihN =>
    intro x hx
    simp only [assertion_free, Bool.and_eq_true] at h
    simp only [deallocate, reachable, List.mem_append, List.mem_map, List.mem_singleton,
      List.mem_cons, List.not_mem_nil, or_false] at hx ⊢
    rcases hx with rfl | ⟨y, hy, rfl⟩ | ⟨y, hy, rfl⟩
    · exact Or.inr rfl
    · exact Or.inl (Or.inl ⟨y, ihI h.1 y hy, rfl⟩)
    · exact Or.inl (Or.inr ⟨y, ihN h.2 y hy, rfl⟩)
  | Alternation lhs rhs next ihL ihR ihN =>
    intro x hx
    simp only [assertion_free, Bool.and_eq_true] at h
    simp only [deallocate, reachable, List.mem_append, List.mem_map, List.mem_singleton,
      List.mem_cons, List.not_mem_nil, or_false] at hx ⊢
    rcases hx with rfl | (⟨y, hy, rfl⟩ | ⟨y, hy, rfl⟩) | ⟨y, hy, rfl⟩
    · exact Or.inr rfl
    · exact Or.inl (Or.inl (Or.inl ⟨y, ihL h.1.1 y hy, rfl⟩))
    · exact Or.inl (Or.inl (Or.inr ⟨y, ihR h.1.2 y hy, rfl⟩))
    · exact Or.inl (Or.inr ⟨y, ihN h.2 y hy, rfl⟩)
  | Assertion t next _ => simp [assertion_free] at h

/-- A tree with an `Assertion` node has a node that teardown does not delete. -/
theorem deallocate_leaks (p : AtomPointer) (h : assertion_free p = false) :
    ∃ x ∈ reachable p, x ∉ deallocate p := by
  induction p with
  | null => simp [assertion_free] at h
  | Character c next ih =>
    simp only [assertion_free] at h
    obtain ⟨x, hx, hn⟩ := ih h
    refine ⟨Link.next :: x, ?_, ?_⟩
    · simp [reachable, hx]
    · simp [deallocate, hn]
  | CharacterClass t negate next ih =>
    simp only [assertion_free] at h
    obtain ⟨x, hx, hn⟩ := ih h
    refine ⟨Link.next :: x, ?_, ?_⟩
    · simp [reachable, hx]
    · simp [deallocate, hn]
  | Repetition type inner next ihI ihN =>
    simp only [assertion_free, Bool.and_eq_false_iff] at h
    rcases h with h | h
    · obtain ⟨x, hx, hn⟩ := ihI h
      refine ⟨Link.inner :: x, ?_, ?_⟩
      · simp [reachable, hx]
      · simp [deallocate, hn]
    · obtain ⟨x, hx, hn⟩ := ihN h
      refine ⟨Link.next :: x, ?_, ?_⟩
      · simp [reachable, hx]
      · simp [deallocate, hn]
  | Alternation lhs rhs next ihL ihR ihN =>
    simp only [assertion_free, Bool.and_eq_false_iff] at h
    rcases h with (h | h) | h
    · obtain ⟨x, hx, hn⟩ := ihL h
      refine ⟨Link.lhs :: x, ?_, ?_⟩
      · simp [reachable, hx]
      · simp [deallocate, hn]
    · obtain ⟨x, hx, hn⟩ := ihR h
      refine ⟨Link.rhs :: x, ?_, ?_⟩
      · simp [reachable, hx]
      · simp [deallocate, hn]
    · obtain ⟨x, hx, hn⟩ := ihN h
      refine ⟨Link.next :: x, ?_, ?_⟩
      · simp [reachable, hx]
      · simp [deallocate, hn]
  | Assertion t next _ =>
    exact ⟨[], by simp [reachable], by simp [deallocate]⟩

/-- Different nodes of a tree have different names. -/
theorem reachable_nodup (p : AtomPointer) : (reachable p).Nodup := by
  induction p with
  | null => simp [reachable]
  | Character c next ih =>
    simp only [reachable]
    exact List.nodup_cons.mpr ⟨by simp, ih.map (cons_injective _)⟩
  | CharacterClass t negate next ih =>
    simp only [reachable]
    exact List.nodup_cons.mpr ⟨by simp, ih.map (cons_injective _)⟩
  | Assertion t next ih =>
    simp only [reachable]
    exact List.nodup_cons.mpr ⟨by simp, ih.map (cons_injective _)⟩
  | Repetition type inner next ihI ihN =>
    simp only [reachable]
    exact List.nodup_cons.mpr ⟨by simp,
      List.Nodup.append (ihI.map (cons_injective _)) (ihN.map (cons_injective _))
        (map_cons_disjoint (by decide) _ _)⟩
  | Alternation lhs rhs next ihL ihR ihN =>
    simp only [reachable]
    refine List.nodup_cons.mpr ⟨by simp,
      List.Nodup.append
        (List.Nodup.append (ihL.map (cons_injective _)) (ihR.map (cons_injective _))
          (map_cons_disjoint (by decide) _ _))
        (ihN.map (cons_injective _)) ?_⟩
    intro x hx hy
    rcases List.mem_append.mp hx with h | h
    · exact map_cons_disjoint (by decide) _ _ h hy
    · exact map_cons_disjoint (by decide) _ _ h hy

/-! ## The scan position after a call of a parse function -/

theorem parse_atom_ok {fuel : Nat} {current : List Char} {r : Option AtomPointer × List Char}
    (h : parse_atom fuel current = some r) : result_ok current r := by
  have h1 := parse_atom_mono (Nat.le_max_left fuel (5 * current.length + 1)) h
  obtain ⟨r2, hr2, hok⟩ := (parse_budget_suffices (max fuel (5 * current.length + 1))
    current).1 (Nat.le_max_right _ _)
  rw [h1] at hr2
  cases hr2
  exact hok

theorem parse_repetition_ok {fuel : Nat} {current : List Char}
    {r : Option AtomPointer × List Char} (h : parse_repetition fuel current = some r) :
    result_ok current r := by
  have h1 := parse_repetition_mono (Nat.le_max_left fuel (5 * current.length + 2)) h
  obtain ⟨r2, hr2, hok⟩ := (parse_budget_suffices (max fuel (5 * current.length + 2))
    current).2.1 (Nat.le_max_right _ _)
  rw [h1] at hr2
  cases hr2
  exact hok

theorem parse_concatenation_ok {fuel : Nat} {current : List Char}
    {r : Option AtomPointer × List Char} (h : parse_concatenation fuel current = some r) :
    result_ok current r := by
  have h1 := parse_concatenation_mono (Nat.le_max_left fuel (5 * current.length + 3)) h
  obtain ⟨r2, hr2, hok⟩ := (parse_budget_suffices (max fuel (5 * current.length + 3))
    current).2.2.1 (Nat.le_max_right _ _)
  rw [h1] at hr2
  cases hr2
  exact hok

theorem parse_alternation_ok {fuel : Nat} {current : List Char}
    {r : Option AtomPointer × List Char} (h : parse_alternation fuel current = some r) :
    result_ok current r := by
  have h1 := parse_alternation_mono (Nat.le_max_left fuel (5 * current.length + 4)) h
  obtain ⟨r2, hr2, hok⟩ := (parse_budget_suffices (max fuel (5 * current.length + 4))
    current).2.2.2.1 (Nat.le_max_right _ _)
  rw [h1] at hr2
  cases hr2
  exact hok

theorem parse_regex_ok {fuel : Nat} {current : List Char} {r : Option AtomPointer × List Char}
    (h : parse_regex fuel current = some r) : result_ok current r := by
  have h1 := parse_regex_mono (Nat.le_max_left fuel (5 * current.length + 5)) h
  obtain ⟨r2, hr2, hok⟩ := (parse_budget_suffices (max fuel (5 * current.length + 5))
    current).2.2.2.2 (Nat.le_max_right _ _)
  rw [h1] at hr2
  cases hr2
  exact hok

theorem parse_raw_character_restores {current after : List Char}
    (h : parse_raw_character current = (none, after)) : after = current := by
  cases current with
  | nil =>
    simp only [parse_raw_character, Prod.mk.injEq, true_and] at h
    exact h.symm
  | cons x rest => simp [parse_raw_character] at h

theorem parse_character_class_restores {current after : List Char}
    (h : parse_character_class current = (none, after)) : after = current := by
  cases current with
  | nil =>
    simp only [parse_character_class, Prod.mk.injEq, true_and] at h
    exact h.symm
  | cons x rest =>
    unfold parse_character_class at h
    simp only at h
    split_ifs at h <;> simp only [Prod.mk.injEq, reduceCtorEq, false_and, true_and] at h
    exact h.symm

theorem parse_alternation_restores {fuel : Nat} {current after : List Char}
    (h : parse_alternation fuel current = some (none, after)) : after = current := by
  cases fuel with
  | zero => simp [parse_alternation] at h
  | succ n =>
    rw [parse_alternation] at h
    cases hr : parse_concatenation n current with
    | none => rw [hr] at h; simp at h
    | some r =>
      obtain ⟨lhs, cur1⟩ := r
      rw [hr] at h
      cases lhs with
      | none =>
        simp only [Option.some.injEq, Prod.mk.injEq, true_and] at h
        exact h.symm
      | some l =>
        simp only at h
        cases hc : consume_constant '|' cur1 with
        | mk b cur2 =>
          rw [hc] at h
          cases b with
          | false =>
            simp only [Option.some.injEq, Prod.mk.injEq, true_and] at h
            exact h.symm
          | true =>
            simp only at h
            cases hr3 : parse_regex n cur2 with
            | none => rw [hr3] at h; simp at h
            | some r3 =>
              obtain ⟨rhs, cur3⟩ := r3
              rw [hr3] at h
              cases rhs with
              | none =>
                simp only [Option.some.injEq, Prod.mk.injEq, true_and] at h
                exact h.symm
              | some r => simp at h

theorem shorter_ne {x : Char} {rest after : List Char} (h : after <:+ rest) :
    after ≠ x :: rest := by
  intro he
  have := h.length_le
  rw [he] at this
  simp only [List.length_cons] at this
  omega

/-- A failed `parse_atom` leaves the scan position where it was exactly when the text does
not begin with `(` or a backslash; after one of these it has moved on. -/
theorem atom_no_match {fuel : Nat} {current after : List Char}
    (h : parse_atom fuel current = some (none, after)) :
    after <:+ current ∧ (after = current ↔ opens_or_escapes current = false) := by
  refine ⟨(parse_atom_ok h).1, ?_⟩
  cases fuel with
  | zero => simp [parse_atom] at h
  | succ n =>
    cases current with
    | nil =>
      simp only [parse_atom, Option.some.injEq, Prod.mk.injEq, true_and] at h
      simp [opens_or_escapes, h.symm]
    | cons x rest =>
      rw [parse_atom] at h
      by_cases h1 : x = '('
      · subst h1
        simp only [consume_constant_hit] at h
        cases hr : parse_regex n rest with
        | none => rw [hr] at h; simp at h
        | some r =>
          obtain ⟨ast, cur2⟩ := r
          rw [hr] at h
          simp only at h
          have hok := (parse_regex_ok hr).1
          have hc := (consume_constant_ok ')' cur2).1
          have hafter : after = (consume_constant ')' cur2).2 := by
            cases hcc : consume_constant ')' cur2 with
            | mk b cur3 =>
              rw [hcc] at h
              cases b <;> simp only [Option.some.injEq, Prod.mk.injEq] at h <;> exact h.2.symm
          have hsuf : after <:+ rest := by
            rw [hafter]
            exact hc.trans hok
          simp [opens_or_escapes, shorter_ne hsuf]
      · rw [consume_constant_miss _ h1] at h
        simp only at h
        by_cases h2 : x = '\\'
        · subst h2
          simp only [consume_constant_hit] at h
          have hafter : after = rest := by
            split at h
            · exact parse_character_class_restores (Option.some.inj h)
            · exact parse_raw_character_restores (Option.some.inj h)
          subst hafter
          simp [opens_or_escapes]
        · rw [consume_constant_miss _ h2] at h
          simp only at h
          split at h
          · simp [parse_raw_character] at h
          · by_cases h3 : x = '.'
            · subst h3
              simp [consume_constant_hit] at h
            · rw [consume_constant_miss _ h3] at h
              simp only at h
              by_cases h4 : x = '^'
              · subst h4
                simp [consume_constant_hit] at h
              · rw [consume_constant_miss _ h4] at h
                simp only at h
                by_cases h5 : x = '$'
                · subst h5
                  simp [consume_constant_hit] at h
                · rw [consume_constant_miss _ h5] at h
                  simp only [Option.some.injEq, Prod.mk.injEq, true_and] at h
                  simp [opens_or_escapes, h.symm, h1, h2]

theorem repetition_no_match {fuel : Nat} {current after : List Char}
    (h : parse_repetition fuel current = some (none, after)) :
    ∃ n, parse_atom n current = some (none, after) := by
  cases fuel with
  | zero => simp [parse_repetition] at h
  | succ n =>
    rw [parse_repetition] at h
    cases hr : parse_atom n current with
    | none => rw [hr] at h; simp at h
    | some r =>
      obtain ⟨ast, cur1⟩ := r
      rw [hr] at h
      cases ast with
      | none =>
        simp only [Option.some.injEq, Prod.mk.injEq, true_and] at h
        exact ⟨n, by rw [hr, h]⟩
      | some a =>
        simp only at h
        cases h1 : consume_constant '?' cur1 with
        | mk b1 r1 =>
          rw [h1] at h
          cases b1 with
          | true => simp at h
          | false =>
            simp only at h
            cases h2 : consume_constant '*' cur1 with
            | mk b2 r2 =>
              rw [h2] at h
              cases b2 with
              | true => simp at h
              | false =>
                simp only at h
                cases h3 : consume_constant '+' cur1 with
                | mk b3 r3 =>
                  rw [h3] at h
                  cases b3 <;> simp at h

theorem concatenation_no_match {fuel : Nat} {current after : List Char}
    (h : parse_concatenation fuel current = some (none, after)) :
    ∃ n, parse_atom n current = some (none, after) := by
  cases fuel with
  | zero => simp [parse_concatenation] at h
  | succ n =>
    rw [parse_concatenation] at h
    cases hr : parse_repetition n current with
    | none => rw [hr] at h; simp at h
    | some r =>
      obtain ⟨ast, cur1⟩ := r
      rw [hr] at h
      cases ast with
      | none =>
        simp only [Option.some.injEq, Prod.mk.injEq, true_and] at h
        exact repetition_no_match (by rw [hr, h])
      | some a =>
        simp only at h
        cases hr2 : parse_concatenation n cur1 with
        | none => rw [hr2] at h; simp at h
        | some r2 =>
          obtain ⟨tail, cur2⟩ := r2
          rw [hr2] at h
          cases tail <;> simp at h

theorem regex_no_match {fuel : Nat} {current after : List Char}
    (h : parse_regex fuel current = some (none, after)) :
    ∃ n, parse_atom n current = some (none, after) := by
  cases fuel with
  | zero => simp [parse_regex] at h
  | succ n =>
    rw [parse_regex] at h
    cases hr : parse_alternation n current with
    | none => rw [hr] at h; simp at h
    | some r =>
      obtain ⟨ast, cur1⟩ := r
      rw [hr] at h
      cases ast with
      | none =>
        simp only at h
        exact concatenation_no_match h
      | some a => simp at h

/-! ## A parse result is a node, and its code is not empty -/

theorem set_next_ne_null {a : AtomPointer} (t : AtomPointer) (h : a ≠ .null) :
    a.set_next t ≠ .null := by
  cases a <;> simp [AtomPointer.set_next] at h ⊢

theorem compile_fragment_ne_nil {a : AtomPointer} (h : a ≠ .null) : compile_fragment a ≠ [] := by
  cases a with
  | null => exact absurd rfl h
  | Character c next => simp [compile_fragment]
  | CharacterClass t negate next => simp [compile_fragment]
  | Assertion t next => simp [compile_fragment]
  | Alternation lhs rhs next => simp [compile_fragment, alternation_code]
  | Repetition type inner next => cases type <;> simp [compile_fragment, repetition_code]

theorem parse_raw_character_node {current cur : List Char} {ast : AtomPointer}
    (h : parse_raw_character current = (some ast, cur)) : ast ≠ .null := by
  cases current with
  | nil => simp [parse_raw_character] at h
  | cons x rest =>
    simp only [parse_raw_character, Prod.mk.injEq, Option.some.injEq] at h
    rw [← h.1]
    simp

theorem parse_character_class_node {current cur : List Char} {ast : AtomPointer}
    (h : parse_character_class current = (some ast, cur)) : ast ≠ .null := by
  cases current with
  | nil => simp [parse_character_class] at h
  | cons x rest =>
    unfold parse_character_class at h
    simp only at h
    split_ifs at h <;> simp only [Prod.mk.injEq, Option.some.injEq, reduceCtorEq, false_and] at h
      <;> rw [← h.1] <;> simp

/-- Whatever the call budget, a parse function that returns a fragment returns a node. -/
theorem parse_gives_node :
    ∀ (fuel : Nat) (current : List Char),
      (∀ ast cur, parse_atom fuel current = some (some ast, cur) → ast ≠ .null) ∧
      (∀ ast cur, parse_repetition fuel current = some (some ast, cur) → ast ≠ .null) ∧
      (∀ ast cur, parse_concatenation fuel current = some (some ast, cur) → ast ≠ .null) ∧
      (∀ ast cur, parse_alternation fuel current = some (some ast, cur) → ast ≠ .null) ∧
      (∀ ast cur, parse_regex fuel current = some (some ast, cur) → ast ≠ .null) := by
  intro fuel
  induction fuel with
  | zero =>
    intro current
    refine ⟨?_, ?_, ?_, ?_, ?_⟩ <;> intro ast cur h
    · simp [parse_atom] at h
    · simp [parse_repetition] at h
    · simp [parse_concatenation] at h
    · simp [parse_alternation] at h
    · simp [parse_regex] at h
  | succ n ih =>
    intro current
    refine ⟨?_, ?_, ?_, ?_, ?_⟩
    · -- parse_atom
      intro ast cur h
      cases current with
      | nil => simp [parse_atom] at h
      | cons x rest =>
        rw [parse_atom] at h
        by_cases h1 : x = '('
        · subst h1
          simp only [consume_constant_hit] at h
          cases hr : parse_regex n rest with
          | none => rw [hr] at h; simp at h
          | some r =>
            obtain ⟨ast0, cur2⟩ := r
            rw [hr] at h
            simp only at h
            cases hcc : consume_constant ')' cur2 with
            | mk b cur3 =>
              rw [hcc] at h
              cases b with
              | false => simp at h
              | true =>
                simp only [Option.some.injEq, Prod.mk.injEq] at h
                rw [h.1] at hr
                exact (ih rest).2.2.2.2 ast cur2 hr
        · rw [consume_constant_miss _ h1] at h
          simp only at h
          by_cases h2 : x = '\\'
          · subst h2
            simp only [consume_constant_hit] at h
            split at h
            · exact parse_character_class_node (Option.some.inj h)
            · exact parse_raw_character_node (Option.some.inj h)
          · rw [consume_constant_miss _ h2] at h
            simp only at h
            split at h
            · exact parse_raw_character_node (Option.some.inj h)
            · by_cases h3 : x = '.'
              · subst h3
                simp only [consume_constant_hit, Option.some.injEq, Prod.mk.injEq] at h
                rw [← h.1]
                simp
              · rw [consume_constant_miss _ h3] at h
                simp only at h
                by_cases h4 : x = '^'
                · subst h4
                  simp only [consume_constant_hit, Option.some.injEq, Prod.mk.injEq] at h
                  rw [← h.1]
                  simp
                · rw [consume_constant_miss _ h4] at h
                  simp only at h
                  by_cases h5 : x = '$'
                  · subst h5
                    simp only [consume_constant_hit, Option.some.injEq, Prod.mk.injEq] at h
                    rw [← h.1]
                    simp
                  · rw [consume_constant_miss _ h5] at h
                    simp at h
    · -- parse_repetition
      intro ast cur h
      rw [parse_repetition] at h
      cases hr : parse_atom n current with
      | none => rw [hr] at h; simp at h
      | some r =>
        obtain ⟨ast0, cur1⟩ := r
        rw [hr] at h
        cases ast0 with
        | none => simp at h
        | some a =>
          simp only at h
          cases h1 : consume_constant '?' cur1 with
          | mk b1 r1 =>
            rw [h1] at h
            cases b1 with
            | true =>
              simp only [Option.some.injEq, Prod.mk.injEq] at h
              rw [← h.1]
              simp
            | false =>
              simp only at h
              cases h2 : consume_constant '*' cur1 with
              | mk b2 r2 =>
                rw [h2] at h
                cases b2 with
                | true =>
                  simp only [Option.some.injEq, Prod.mk.injEq] at h
                  rw [← h.1]
                  simp
                | false =>
                  simp only at h
                  cases h3 : consume_constant '+' cur1 with
                  | mk b3 r3 =>
                    rw [h3] at h
                    cases b3 with
                    | true =>
                      simp only [Option.some.injEq, Prod.mk.injEq] at h
                      rw [← h.1]
                      simp
                    | false =>
                      simp only [Option.some.injEq, Prod.mk.injEq] at h
                      rw [← h.1]
                      exact (ih current).1 a cur1 hr
    · -- parse_concatenation
      intro ast cur h
      rw [parse_concatenation] at h
      cases hr : parse_repetition n current with
      | none => rw [hr] at h; simp at h
      | some r =>
        obtain ⟨ast0, cur1⟩ := r
        rw [hr] at h
        cases ast0 with
        | none => simp at h
        | some a =>
          have ha := (ih current).2.1 a cur1 hr
          simp only at h
          cases hr2 : parse_concatenation n cur1 with
          | none => rw [hr2] at h; simp at h
          | some r2 =>
            obtain ⟨tail, cur2⟩ := r2
            rw [hr2] at h
            cases tail with
            | none =>
              simp only [Option.some.injEq, Prod.mk.injEq] at h
              rw [← h.1]
              exact ha
            | some t =>
              simp only [Option.some.injEq, Prod.mk.injEq] at h
              rw [← h.1]
              exact set_next_ne_null t ha
    · -- parse_alternation
      intro ast cur h
      rw [parse_alternation] at h
      cases hr : parse_concatenation n current with
      | none => rw [hr] at h; simp at h
      | some r =>
        obtain ⟨lhs, cur1⟩ := r
        rw [hr] at h
        cases lhs with
        | none => simp at h
        | some l =>
          simp only at h
          cases hc : consume_constant '|' cur1 with
          | mk b cur2 =>
            rw [hc] at h
            cases b with
            | false => simp at h
            | true =>
              simp only at h
              cases hr3 : parse_regex n cur2 with
              | none => rw [hr3] at h; simp at h
              | some r3 =>
                obtain ⟨rhs, cur3⟩ := r3
                rw [hr3] at h
                cases rhs with
                | none => simp at h
                | some r =>
                  simp only [Option.some.injEq, Prod.mk.injEq] at h
                  rw [← h.1]
                  simp
    · -- parse_regex
      intro ast cur h
      rw [parse_regex] at h
      cases hr : parse_alternation n current with
      | none => rw [hr] at h; simp at h
      | some r =>
        obtain ⟨ast0, cur1⟩ := r
        rw [hr] at h
        cases ast0 with
        | none =>
          simp only at h
          exact (ih current).2.2.1 ast cur h
        | some a =>
          simp only [Option.some.injEq, Prod.mk.injEq] at h
          rw [← h.1]
          exact (ih current).2.2.2.1 a cur1 hr

/-- The result of a parse function at `current`: the scan position is still inside the
text, and with a fragment it has moved on by at least one character, the fragment is a node
and its code holds at least one instruction. -/
theorem progress_of_result {g : Nat → List Char → Option (Option AtomPointer × List Char)}
    {fuel : Nat} {current : List Char} {r : Option AtomPointer × List Char}
    (hok : result_ok current r)
    (hnode : ∀ ast cur, g fuel current = some (some ast, cur) → ast ≠ .null)
    (hr : g fuel current = some r) :
    r.2 <:+ current ∧ ∀ ast, r.1 = some ast →
      r.2.length < current.length ∧ ast ≠ .null ∧ compile_fragment ast ≠ [] := by
  refine ⟨hok.1, ?_⟩
  intro ast hast
  obtain ⟨r1, r2⟩ := r
  simp only at hast
  subst hast
  have hn := hnode ast r2 hr
  exact ⟨hok.2 rfl, hn, compile_fragment_ne_nil hn⟩

/-! ## The claims -/

/-- C1, as amended: for a pattern `p` that parses, with `compiled` the program of
`compile_full`, and an input `s`: whenever `full_match` returns a boolean (under some step
budget), that boolean is `true` exactly if some walk of `compiled` from instruction 0 and
input position 0 follows the instruction rules and reaches `Match`; and every such walk
ends with the input read from start to end. -/
theorem C1_full_match_returns_walk (p s : List Char) (compiled : List Instruction)
    (hp : compile_full p = some compiled) :
    (∀ (fuel : Nat) (b : Bool), full_match fuel p s = .returned b →
        (b = true ↔ ∃ final, Reaches compiled 0 (Range.of s) final)) ∧
    (∀ final, Reaches compiled 0 (Range.of s) final → final = ⟨s.length, []⟩) := by
  obtain ⟨ast, _, hprog⟩ := compile_full_eq hp
  constructor
  · intro fuel b h
    simp only [full_match, hp, match_] at h
    cases b with
    | true => simpa using match_fragment_sound compiled fuel 0 _ h
    | false =>
      simp only [Bool.false_eq_true, false_iff, not_exists]
      exact match_fragment_complete compiled fuel 0 _ h
  · intro final hr
    subst hprog
    have hrest := full_program_walk_consumes (compile_fragment_closed ast) hr (le_refl _)
      (by omega)
    have htot := reaches_total hr
    cases final with
    | mk offset rest =>
      simp only [Range.of] at htot
      simp only at hrest
      subst hrest
      simp at htot
      rw [htot]

/-- C1, the theorem at the pattern `a*` and the input `aaaa`, where `full_match` returns
`true` within 20 steps. -/
theorem C1_full_match_returns_walk_witness :
    compile_full "a*".toList =
        some [.Split 1 3, .Character 'a', .Jump (-2), .Assertion .EndOfString, .Match] ∧
      full_match 20 "a*".toList "aaaa".toList = .returned true ∧
      ((∀ (fuel : Nat) (b : Bool), full_match fuel "a*".toList "aaaa".toList = .returned b →
          (b = true ↔ ∃ final, Reaches
            [.Split 1 3, .Character 'a', .Jump (-2), .Assertion .EndOfString, .Match] 0
            (Range.of "aaaa".toList) final)) ∧
        (∀ final, Reaches
            [.Split 1 3, .Character 'a', .Jump (-2), .Assertion .EndOfString, .Match] 0
            (Range.of "aaaa".toList) final → final = ⟨"aaaa".toList.length, []⟩)) :=
  ⟨by decide, by decide, C1_full_match_returns_walk _ _ _ (by decide)⟩

/-- C1 as stated fails: the pattern `(a*)*` parses and its program has a walk over the empty
input from instruction 0 to `Match`, yet `full_match` never returns `true` there: under
every budget the search is still running. -/
theorem C1_walk_without_result :
    compile_full "(a*)*".toList = some nested_star_program ∧
      (∃ final, Reaches nested_star_program 0 (Range.of []) final) ∧
      ∀ fuel : Nat, full_match fuel "(a*)*".toList [] = .out_of_fuel := by
  refine ⟨nested_star_compiled, ?_, ?_⟩
  · have f0 : fetch nested_star_program 0 = some (.Split 1 5) := rfl
    have f5 : fetch nested_star_program (0 + 5) = some (.Assertion .EndOfString) := rfl
    have f6 : fetch nested_star_program (0 + 5 + 1) = some .Match := rfl
    exact ⟨_, Reaches.split_rhs f0 (Reaches.assertion f5 rfl (Reaches.done f6))⟩
  · intro fuel
    simp only [full_match, nested_star_compiled, match_]
    exact (nested_star_loops fuel).1

/-- C2: for a non-empty `w`, the escaped text `esc w` parses (as the chain of the code units
of `w`), `full_match` on `esc w` returns `true` exactly for the input `w`, and when `w` has no
reserved character the same holds for the pattern `w` itself. -/
theorem C2_literal_matches_itself (w : List Char) (hne : w ≠ []) (s : List Char) :
    parse (esc w) = some (chars w .null) ∧
    (∃ N, ∀ fuel, N ≤ fuel → full_match fuel (esc w) s = .returned (decide (s = w))) ∧
    (plain w → ∃ N, ∀ fuel, N ≤ fuel → full_match fuel w s = .returned (decide (s = w))) := by
  have hrun : Returns (full_program (compile_fragment (chars w .null))) 0 (Range.of s)
      (decide (s = w)) := by
    rw [compile_fragment_chars_null]
    exact returns_lit_end w 0 0 s (code_at_self _)
  exact ⟨parse_esc w hne, full_match_returns (parse_esc w hne) hrun,
    fun hw => full_match_returns (parse_plain hw hne) hrun⟩

/-- C2, the theorem at the literal `a.b` (one reserved character) with the input `a.b`. -/
theorem C2_literal_matches_itself_witness :
    "a.b".toList ≠ [] ∧
      (parse (esc "a.b".toList) = some (chars "a.b".toList .null) ∧
      (∃ N, ∀ fuel, N ≤ fuel → full_match fuel (esc "a.b".toList) "a.b".toList =
        .returned (decide ("a.b".toList = "a.b".toList))) ∧
      (plain "a.b".toList → ∃ N, ∀ fuel, N ≤ fuel → full_match fuel "a.b".toList "a.b".toList =
        .returned (decide ("a.b".toList = "a.b".toList)))) :=
  ⟨by decide, C2_literal_matches_itself _ (by decide) _⟩

/-- C3 fails on the code: the group of `(ab)c` is parsed to the chain `a`, `b`, and linking
the rest of the pattern overwrites the `next` of its first node, so the node `b` is lost:
the pattern `(ab)c` does not match `abc` (it matches `ac`), while `abc` matches `abc`. -/
theorem C3_group_chain_overwritten :
    parse "(ab)c".toList = some (.Character 'a' (.Character 'c' .null)) ∧
    (∀ fuel, 10 ≤ fuel → full_match fuel "(ab)c".toList "abc".toList = .returned false) ∧
    (∀ fuel, 10 ≤ fuel → full_match fuel "(ab)c".toList "ac".toList = .returned true) ∧
    (∀ fuel, 10 ≤ fuel → full_match fuel "abc".toList "abc".toList = .returned true) :=
  ⟨by decide, fun _ h => full_match_mono h (by decide), fun _ h => full_match_mono h (by decide),
    fun _ h => full_match_mono h (by decide)⟩

/-- C4: for plain `t`, `u`, `v`, `w` with `u` and `v` non-empty, `full_match` on the
pattern `t(u|v)w` returns, and it returns `true` exactly for the inputs `t ++ u ++ w` and
`t ++ v ++ w`. -/
theorem C4_alternation_explores_both (t u v w : List Char) (ht : plain t) (hu : plain u)
    (hv : plain v) (hw : plain w) (hune : u ≠ []) (hvne : v ≠ []) (s : List Char) :
    ∃ N, ∀ fuel, N ≤ fuel →
      full_match fuel (t ++ ['('] ++ u ++ ['|'] ++ v ++ [')'] ++ w) s =
        .returned (decide (s = t ++ u ++ w ∨ s = t ++ v ++ w)) := by
  have hp := parse_alternation_group ht hu hv hw hune hvne
  apply full_match_returns hp
  rw [compile_fragment_chars]
  simp only [compile_fragment, alternation_code, compile_fragment_chars_null, lit_length]
  have eP : full_program (lit t ++ ([Instruction.Split 1 ((u.length : Int) + 2)] ++ lit u ++
        [Instruction.Jump ((v.length : Int) + 1)] ++ lit v ++ lit w)) =
      lit t ++ (Instruction.Split 1 ((u.length : Int) + 2) :: (lit u ++
        Instruction.Jump ((v.length : Int) + 1) :: (lit v ++ (lit w ++
        [Instruction.Assertion .EndOfString, Instruction.Match])))) := by
    simp [full_program]
  rw [eP]
  have hcode := code_at_suffix (lit t) (Instruction.Split 1 ((u.length : Int) + 2) :: (lit u ++
        Instruction.Jump ((v.length : Int) + 1) :: (lit v ++ (lit w ++
        [Instruction.Assertion .EndOfString, Instruction.Match]))))
  rw [lit_length] at hcode
  have := returns_lit t 0 0 s (code_at_front _ _)
    (fun _ => by
      have h := returns_alternation_end u v w _ (0 + t.length) (s.drop t.length) hcode
      simpa using h)
  rw [front_and_either] at this
  simpa [Range.of, List.append_assoc] using this

/-- C4, the theorem at the pattern `(ff|f)g` and the input `fg`: the left branch reads `f`
and fails at `g`, the right branch matches. -/
theorem C4_alternation_explores_both_witness :
    plain [] ∧ plain "ff".toList ∧ plain "f".toList ∧ plain "g".toList ∧
      "ff".toList ≠ [] ∧ "f".toList ≠ [] ∧
      ∃ N, ∀ fuel, N ≤ fuel →
        full_match fuel ([] ++ ['('] ++ "ff".toList ++ ['|'] ++ "f".toList ++ [')'] ++
            "g".toList) "fg".toList =
          .returned (decide ("fg".toList = [] ++ "ff".toList ++ "g".toList ∨
            "fg".toList = [] ++ "f".toList ++ "g".toList)) :=
  ⟨by decide, by decide, by decide, by decide, by decide, by decide,
    C4_alternation_explores_both [] "ff".toList "f".toList "g".toList (by decide) (by decide)
      (by decide) (by decide) (by decide) (by decide) "fg".toList⟩

/-- C5: for a character `c` that is not reserved, `full_match` on `c*` returns whether every
code unit of the input equals `c` (true for the empty input), and `full_match` on `c+`
returns whether the input is non-empty and every code unit of it equals `c`. -/
theorem C5_star_plus_single_character (c : Char) (hc : is_reserved_character c = false)
    (s : List Char) :
    (∃ N, ∀ fuel, N ≤ fuel →
      full_match fuel [c, '*'] s = .returned (decide (∀ x ∈ s, x = c))) ∧
    (∃ N, ∀ fuel, N ≤ fuel →
      full_match fuel [c, '+'] s = .returned (decide (s ≠ [] ∧ ∀ x ∈ s, x = c))) := by
  constructor
  · apply full_match_returns (parse_star hc)
    have := returns_star c s 0
    rw [all_eq_decide] at this
    exact this
  · apply full_match_returns (parse_plus hc)
    have := returns_plus c s
    rw [all_eq_decide] at this
    have e : (!s.isEmpty && decide (∀ x ∈ s, x = c)) = decide (s ≠ [] ∧ ∀ x ∈ s, x = c) := by
      cases s <;> simp
    rw [e] at this
    exact this

/-- C5, the theorem at the character `a` and the input `aaaa`. -/
theorem C5_star_plus_single_character_witness :
    is_reserved_character 'a' = false ∧
      ((∃ N, ∀ fuel, N ≤ fuel → full_match fuel ['a', '*'] "aaaa".toList =
          .returned (decide (∀ x ∈ "aaaa".toList, x = 'a'))) ∧
        (∃ N, ∀ fuel, N ≤ fuel → full_match fuel ['a', '+'] "aaaa".toList =
          .returned (decide ("aaaa".toList ≠ [] ∧ ∀ x ∈ "aaaa".toList, x = 'a')))) :=
  ⟨by decide, C5_star_plus_single_character 'a' (by decide) "aaaa".toList⟩

/-- C6: for plain `u`, `v`, `w` with `u` and `v` non-empty, `full_match` on the pattern
`u(v)?w` returns, and it returns `true` exactly for the inputs `u ++ w` and `u ++ v ++ w`. -/
theorem C6_optional_group (u v w : List Char) (hu : plain u) (hv : plain v) (hw : plain w)
    (_hune : u ≠ []) (hvne : v ≠ []) (s : List Char) :
    ∃ N, ∀ fuel, N ≤ fuel →
      full_match fuel (u ++ ['('] ++ v ++ [')', '?'] ++ w) s =
        .returned (decide (s = u ++ w ∨ s = u ++ v ++ w)) := by
  have hp := parse_optional_group hu hv hw hvne
  apply full_match_returns hp
  rw [compile_fragment_chars]
  simp only [compile_fragment, repetition_code, compile_fragment_chars_null, lit_length]
  have eP : full_program (lit u ++ ([Instruction.Split 1 ((v.length : Int) + 1)] ++ lit v ++
        lit w)) =
      lit u ++ (Instruction.Split 1 ((v.length : Int) + 1) :: (lit v ++ (lit w ++
        [Instruction.Assertion .EndOfString, Instruction.Match]))) := by
    simp [full_program]
  rw [eP]
  have hcode := code_at_suffix (lit u) (Instruction.Split 1 ((v.length : Int) + 1) :: (lit v ++
        (lit w ++ [Instruction.Assertion .EndOfString, Instruction.Match])))
  rw [lit_length] at hcode
  have := returns_lit u 0 0 s (code_at_front _ _)
    (fun _ => by
      have h := returns_optional_end v w _ (0 + u.length) (s.drop u.length) hcode
      simpa using h)
  rw [front_and_either] at this
  have e : decide (s = u ++ w ∨ s = u ++ v ++ w) = decide (s = u ++ (v ++ w) ∨ s = u ++ w) := by
    simp only [List.append_assoc, decide_eq_decide]
    exact Or.comm
  rw [e]
  simpa [Range.of] using this

/-- C6, the theorem at the pattern `hello( world)?!` and the input `hello!`. -/
theorem C6_optional_group_witness :
    plain "hello".toList ∧ plain " world".toList ∧ plain "!".toList ∧
      "hello".toList ≠ [] ∧ " world".toList ≠ [] ∧
      ∃ N, ∀ fuel, N ≤ fuel →
        full_match fuel ("hello".toList ++ ['('] ++ " world".toList ++ [')', '?'] ++
            "!".toList) "hello!".toList =
          .returned (decide ("hello!".toList = "hello".toList ++ "!".toList ∨
            "hello!".toList = "hello".toList ++ " world".toList ++ "!".toList)) :=
  ⟨by decide, by decide, by decide, by decide, by decide,
    C6_optional_group _ _ _ (by decide) (by decide) (by decide) (by decide) (by decide) _⟩

/-- C7: on a one-character input with a 7-bit code unit `c`, `full_match` returns: for `\d`
whether `c` is one of `0`..`9`; for `\w` whether `c` is one of `a`..`z`, `A`..`Z` or `_`;
for `\s` whether `c` is space, tab or newline; for `.` whether `c` is not newline. -/
theorem C7_named_classes (c : Char) (hc : c.toNat < 128) :
    ∀ fuel, 3 ≤ fuel →
      full_match fuel "\\d".toList [c] = .returned (decide ('0' ≤ c ∧ c ≤ '9')) ∧
      full_match fuel "\\w".toList [c] =
        .returned (decide (('a' ≤ c ∧ c ≤ 'z') ∨ ('A' ≤ c ∧ c ≤ 'Z') ∨ c = '_')) ∧
      full_match fuel "\\s".toList [c] = .returned (decide (c = ' ' ∨ c = '\t' ∨ c = '\n')) ∧
      full_match fuel ".".toList [c] = .returned (decide (c ≠ '\n')) := by
  intro fuel hf
  exact ⟨full_match_class (by decide) (digits_mask_ascii c hc) fuel hf,
    full_match_class (by decide) (word_mask_ascii c hc) fuel hf,
    full_match_class (by decide) (whitespace_mask_ascii c hc) fuel hf,
    full_match_class (by decide) (all_mask_ascii c hc) fuel hf⟩

/-- C7, the theorem at the code unit `7`. -/
theorem C7_named_classes_witness :
    '7'.toNat < 128 ∧
      ∀ fuel, 3 ≤ fuel →
        full_match fuel "\\d".toList ['7'] = .returned (decide ('0' ≤ '7' ∧ '7' ≤ '9')) ∧
        full_match fuel "\\w".toList ['7'] =
          .returned (decide (('a' ≤ '7' ∧ '7' ≤ 'z') ∨ ('A' ≤ '7' ∧ '7' ≤ 'Z') ∨ '7' = '_')) ∧
        full_match fuel "\\s".toList ['7'] =
          .returned (decide ('7' = ' ' ∨ '7' = '\t' ∨ '7' = '\n')) ∧
        full_match fuel ".".toList ['7'] = .returned (decide ('7' ≠ '\n')) :=
  ⟨by decide, C7_named_classes '7' (by decide)⟩

/-- C8: on a one-character input with a 7-bit code unit `c`, for each of the pairs
(`\d`, `\D`), (`\w`, `\W`), (`\s`, `\S`) both patterns return under `full_match`, and the
upper-case one returns `true` exactly if the lower-case one returns `false`. -/
theorem C8_negated_classes (c : Char) (hc : c.toNat < 128) :
    ∃ d w s : Bool, ∀ fuel, 3 ≤ fuel →
      (full_match fuel "\\d".toList [c] = .returned d ∧
        full_match fuel "\\D".toList [c] = .returned (!d)) ∧
      (full_match fuel "\\w".toList [c] = .returned w ∧
        full_match fuel "\\W".toList [c] = .returned (!w)) ∧
      (full_match fuel "\\s".toList [c] = .returned s ∧
        full_match fuel "\\S".toList [c] = .returned (!s)) := by
  obtain ⟨d, hd1, hd2⟩ := negated_mask_ascii .Digits c hc
  obtain ⟨w, hw1, hw2⟩ := negated_mask_ascii .Word c hc
  obtain ⟨s, hs1, hs2⟩ := negated_mask_ascii .Whitespace c hc
  refine ⟨d, w, s, fun fuel hf => ⟨⟨?_, ?_⟩, ⟨?_, ?_⟩, ⟨?_, ?_⟩⟩⟩
  · exact full_match_class (by decide) hd1 fuel hf
  · exact full_match_class (by decide) hd2 fuel hf
  · exact full_match_class (by decide) hw1 fuel hf
  · exact full_match_class (by decide) hw2 fuel hf
  · exact full_match_class (by decide) hs1 fuel hf
  · exact full_match_class (by decide) hs2 fuel hf

/-- C8, the theorem at the code unit `,`. -/
theorem C8_negated_classes_witness :
    ','.toNat < 128 ∧
      ∃ d w s : Bool, ∀ fuel, 3 ≤ fuel →
        (full_match fuel "\\d".toList [','] = .returned d ∧
          full_match fuel "\\D".toList [','] = .returned (!d)) ∧
        (full_match fuel "\\w".toList [','] = .returned w ∧
          full_match fuel "\\W".toList [','] = .returned (!w)) ∧
        (full_match fuel "\\s".toList [','] = .returned s ∧
          full_match fuel "\\S".toList [','] = .returned (!s)) :=
  ⟨by decide, C8_negated_classes ',' (by decide)⟩

/-- C9: for a non-empty plain `w` and an input `s` of 7-bit code units, `partial_match`
on the pattern `w` returns, and it returns `true` exactly if `w` occurs in `s` behind a part
`pre` of `s` that holds no newline. -/
theorem C9_partial_match_literal (w s : List Char) (hw : plain w) (hne : w ≠ [])
    (hs : ∀ x ∈ s, x.toNat < 128) :
    ∃ b : Bool, (∃ N, ∀ fuel, N ≤ fuel → partial_match fuel w s = .returned b) ∧
      (b = true ↔ ∃ pre post, s = pre ++ w ++ post ∧ '\n' ∉ pre) := by
  refine ⟨search w s, ?_, search_iff w s⟩
  apply partial_match_returns (parse_plain hw hne)
  rw [compile_fragment_chars_null]
  exact returns_search w s 0 hs

/-- C9, the theorem at the pattern `fg` and the input `abfgh`. -/
theorem C9_partial_match_literal_witness :
    plain "fg".toList ∧ "fg".toList ≠ [] ∧ (∀ x ∈ "abfgh".toList, x.toNat < 128) ∧
      ∃ b : Bool,
        (∃ N, ∀ fuel, N ≤ fuel → partial_match fuel "fg".toList "abfgh".toList = .returned b) ∧
        (b = true ↔ ∃ pre post, "abfgh".toList = pre ++ "fg".toList ++ post ∧ '\n' ∉ pre) :=
  ⟨by decide, by decide, by decide,
    C9_partial_match_literal "fg".toList "abfgh".toList (by decide) (by decide) (by decide)⟩

/-- C10: for every pattern `p` and input `s`, if `full_match` returns `true` then
`partial_match` returns `true`. -/
theorem C10_full_match_is_partial_match (p s : List Char)
    (h : ∃ fuel, full_match fuel p s = .returned true) :
    ∃ fuel, partial_match fuel p s = .returned true := by
  obtain ⟨fuel, h⟩ := h
  cases hp : parse p with
  | none => simp [full_match, compile_full, hp] at h
  | some ast =>
    have hF : compile_full p = some (full_program (compile_fragment ast)) := by
      simp [compile_full, hp, full_program]
    have hQ : compile_partial p = some (partial_program (compile_fragment ast)) := by
      simp [ compile_partial, hp, partial_program]
    simp only [full_match, hF, match_] at h
    refine ⟨fuel + 1, ?_⟩
    simp only [partial_match, hQ, match_]
    exact partial_of_full _ (compile_fragment_closed ast) fuel _ h

/-- C10, the theorem at the pattern `hello` and the input `hello`. -/
theorem C10_full_match_is_partial_match_witness :
    (∃ fuel, full_match fuel "hello".toList "hello".toList = .returned true) ∧
      ∃ fuel, partial_match fuel "hello".toList "hello".toList = .returned true :=
  ⟨⟨10, by decide⟩, C10_full_match_is_partial_match _ _ ⟨10, by decide⟩⟩

/-- C11, as amended: let `p` be a pattern whose program holds no start assertion, `s` an
input and `k ≤ |s|` such that the `k` code units trimmed off are 7-bit code units other than
newline. If `full_match` returns `true` on `p` and the trimmed input, then `partial_match`
on `p` and `s` never returns `false`; and it returns `true` when the run of the pattern code
from each of the positions before `k` comes to an end. -/
theorem C11_trimmed_full_match (p s : List Char) (k : Nat) (compiled : List Instruction)
    (hk : k ≤ s.length) (hc : compile_partial p = some compiled)
    (hbegin : no_begin_assertion compiled)
    (hpre : ∀ x ∈ s.take k, x.toNat < 128 ∧ x ≠ '\n')
    (hfull : ∃ fuel, full_match fuel p (s.drop k) = .returned true) :
    (∀ (fuel : Nat) (b : Bool), partial_match fuel p s = .returned b → b = true) ∧
    ((∀ i, i < k → ∃ b, Returns compiled 3 ⟨i, s.drop i⟩ b) →
      ∃ N, ∀ fuel, N ≤ fuel → partial_match fuel p s = .returned true) := by
  obtain ⟨ast, hp, rfl⟩ := compile_partial_eq hc
  obtain ⟨fuel, hfull⟩ := hfull
  rw [full_match_of_parse hp] at hfull
  have hlen : (s.take k).length = k := by simp [hk]
  have hret : Returns (partial_program (compile_fragment ast)) 3
      ⟨0 + (s.take k).length, s.drop k⟩ true := by
    rcases partial_follows_full (compile_fragment_closed ast) fuel 0 _ true (le_refl _)
      (by omega) hfull with q | ⟨q, _⟩
    · refine ⟨fuel, ?_⟩
      rw [match_fragment_offset _ hbegin fuel 3 _ 0]
      simpa [Range.of] using q
    · cases q
  constructor
  · intro fuel2 b h
    rw [partial_match_of_parse hp] at h
    have hs : Range.of s = ⟨0, s.take k ++ s.drop k⟩ := by simp [Range.of]
    rw [hs] at h
    exact scan_never_false (s.take k) (s.drop k) 0 (fun x hx => (hpre x hx).2) hret fuel2 b h
  · intro hatt
    apply partial_match_returns hp
    have := scan_returns_true (s.take k) (s.drop k) 0 hpre hret (by
      intro i hi
      rw [hlen] at hi
      obtain ⟨b, hb⟩ := hatt i hi
      exact ⟨b, by simpa using hb⟩)
    simpa [Range.of] using this

/-- C11, the theorem at the pattern `a`, the input `xa` and `k = 1`, where the one run of
the pattern code before position 1 returns `false`. -/
theorem C11_trimmed_full_match_witness :
    1 ≤ "xa".toList.length ∧
      compile_partial "a".toList =
        some [.Split 3 1, .Bitset (make_range '\n' '\n').complement, .Jump (-2),
          .Character 'a', .Match] ∧
      no_begin_assertion [.Split 3 1, .Bitset (make_range '\n' '\n').complement, .Jump (-2),
          .Character 'a', .Match] ∧
      (∀ x ∈ "xa".toList.take 1, x.toNat < 128 ∧ x ≠ '\n') ∧
      (∃ fuel, full_match fuel "a".toList ("xa".toList.drop 1) = .returned true) ∧
      (∀ (fuel : Nat) (b : Bool),
        partial_match fuel "a".toList "xa".toList = .returned b → b = true) ∧
      ∃ N, ∀ fuel, N ≤ fuel → partial_match fuel "a".toList "xa".toList = .returned true :=
  have hb : no_begin_assertion [.Split 3 1, .Bitset (make_range '\n' '\n').complement,
      .Jump (-2), .Character 'a', .Match] := by
    intro ins h
    simp only [List.mem_cons, List.mem_singleton, List.not_mem_nil, or_false] at h
    rcases h with rfl | rfl | rfl | rfl | rfl <;> intro he <;> cases he
  have h := C11_trimmed_full_match "a".toList "xa".toList 1 _ (by decide) (by decide) hb
    (by decide) ⟨10, by decide⟩
  ⟨by decide, by decide, hb, by decide, ⟨10, by decide⟩, h.1,
    h.2 (fun i hi => by
      have hi0 : i = 0 := by omega
      subst hi0
      exact ⟨false, 5, by decide⟩)⟩

/-- C11 as stated fails, in four ways. The scan does not pass a newline: `a` matches the
input `a`, but `partial_match` is `false` on newline followed by `a`. The start assertion
holds at input position 0 only: `^a` matches `a`, but `partial_match` is `false` on `ba`.
The run of the pattern from an earlier position may not end: `b|(a*)*` matches `b`, but on
`xb` the search is still running under every budget. And the scan reads outside its mask at
a code unit from 128 on: on the code unit 200 followed by `a` the run of `a` is undefined. -/
theorem C11_trimmed_match_lost :
    (full_match 10 "a".toList ("\na".toList.drop 1) = .returned true ∧
      ∀ fuel, 10 ≤ fuel → partial_match fuel "a".toList "\na".toList = .returned false) ∧
    (full_match 10 "^a".toList ("ba".toList.drop 1) = .returned true ∧
      ∀ fuel, 10 ≤ fuel → partial_match fuel "^a".toList "ba".toList = .returned false) ∧
    (full_match 10 "b|(a*)*".toList ("xb".toList.drop 1) = .returned true ∧
      ∀ fuel : Nat, partial_match fuel "b|(a*)*".toList "xb".toList = .out_of_fuel) ∧
    (full_match 10 "a".toList ([Char.ofNat 200, 'a'].drop 1) = .returned true ∧
      ∀ fuel, 3 ≤ fuel →
        partial_match fuel "a".toList [Char.ofNat 200, 'a'] = .undefined) := by
  refine ⟨⟨by decide, fun _ h => partial_match_mono h (by decide)⟩,
    ⟨by decide, fun _ h => partial_match_mono h (by decide)⟩, ⟨by decide, ?_⟩, ⟨by decide, ?_⟩⟩
  · intro fuel
    simp only [partial_match, bar_nested_star_compiled, match_]
    exact bar_nested_star_loops fuel
  · intro fuel hf
    obtain ⟨n, rfl⟩ : ∃ n, fuel = n + 3 := ⟨fuel - 3, by omega⟩
    have hc : compile_partial "a".toList =
        some [.Split 3 1, .Bitset (make_range '\n' '\n').complement, .Jump (-2),
          .Character 'a', .Match] := by decide
    simp only [partial_match, hc, match_, Range.of]
    have f0 : fetch [Instruction.Split 3 1, .Bitset (make_range '\n' '\n').complement,
        .Jump (-2), .Character 'a', .Match] 0 = some (.Split 3 1) := rfl
    have f1 : fetch [Instruction.Split 3 1, .Bitset (make_range '\n' '\n').complement,
        .Jump (-2), .Character 'a', .Match] (0 + 1) =
        some (.Bitset (make_range '\n' '\n').complement) := rfl
    have f3 : fetch [Instruction.Split 3 1, .Bitset (make_range '\n' '\n').complement,
        .Jump (-2), .Character 'a', .Match] (0 + 3) = some (.Character 'a') := rfl
    rw [mf_split _ _ f0,
      @mf_character_miss _ _ _ (Char.ofNat 200) (n + 1) ⟨0, [Char.ofNat 200, 'a']⟩ ['a'] f3 rfl
        (by decide),
      @mf_bitset_outside _ _ _ (n + 1) ⟨0, [Char.ofNat 200, 'a']⟩ (Char.ofNat 200) ['a'] f1 rfl
        (by decide)]

/-- C12: for a non-empty plain `w` and an input `s` of 7-bit code units, `partial_match`
on the pattern `^w$` returns, and it returns `true` exactly if `s = w`; the start assertion
holds exactly when no code unit has been read and the end assertion exactly when none is
left. -/
theorem C12_anchors_make_exact_match (w s : List Char) (hw : plain w) (_hne : w ≠ [])
    (hs : ∀ x ∈ s, x.toNat < 128) :
    (∃ N, ∀ fuel, N ≤ fuel →
      partial_match fuel (['^'] ++ w ++ ['$']) s = .returned (decide (s = w))) ∧
    (∀ r : Range, (AssertionType.BeginOfString.test r = true ↔ r.offset = 0) ∧
      (AssertionType.EndOfString.test r = true ↔ r.rest = [])) := by
  constructor
  · apply partial_match_returns (parse_anchored hw)
    have e : compile_fragment (.Assertion .BeginOfString (chars w (.Assertion .EndOfString .null)))
        = Instruction.Assertion .BeginOfString ::
          (lit w ++ [Instruction.Assertion .EndOfString]) := by
      simp [compile_fragment, compile_fragment_chars]
    rw [e]
    exact returns_anchored w s hs
  · intro r
    simp [AssertionType.test, Range.is_start, Range.empty]

/-- C12, the theorem at the pattern `^abc$` and the input `abc`. -/
theorem C12_anchors_make_exact_match_witness :
    plain "abc".toList ∧ "abc".toList ≠ [] ∧ (∀ x ∈ "abc".toList, x.toNat < 128) ∧
      ((∃ N, ∀ fuel, N ≤ fuel →
        partial_match fuel (['^'] ++ "abc".toList ++ ['$']) "abc".toList =
          .returned (decide ("abc".toList = "abc".toList))) ∧
      (∀ r : Range, (AssertionType.BeginOfString.test r = true ↔ r.offset = 0) ∧
        (AssertionType.EndOfString.test r = true ↔ r.rest = []))) :=
  ⟨by decide, by decide, by decide,
    C12_anchors_make_exact_match "abc".toList "abc".toList (by decide) (by decide) (by decide)⟩

/-- C13, as amended: for a pattern `p` that parses to a tree in which every `*` and every
`+` stands on an inner chain that reads at least one code unit on each pass, and for an
input `s` of 7-bit code units, running `match` on the program of `compile_full` and on the
program of `compile_partial` comes to an end and returns `true` or `false`. -/
theorem C13_matcher_decides (p s : List Char) (ast : AtomPointer) (hp : parse p = some ast)
    (hl : loops_read ast = true) (hs : ∀ x ∈ s, x.toNat < 128) :
    ∃ full part, compile_full p = some full ∧ compile_partial p = some part ∧
      (∃ b N, ∀ fuel, N ≤ fuel → match_ fuel full s = .returned b) ∧
      (∃ b N, ∀ fuel, N ≤ fuel → match_ fuel part s = .returned b) := by
  refine ⟨full_program (compile_fragment ast), partial_program (compile_fragment ast),
    by simp [compile_full, hp, full_program], by simp [ compile_partial, hp, partial_program],
    ?_, ?_⟩
  · obtain ⟨b, hb⟩ := full_program_halts hs ast hl
    obtain ⟨N, hN⟩ := hb.mono
    exact ⟨b, N, fun fuel hf => hN fuel hf⟩
  · obtain ⟨b, hb⟩ := partial_program_halts hs ast hl s 0 (List.suffix_refl _)
    obtain ⟨N, hN⟩ := hb.mono
    exact ⟨b, N, fun fuel hf => hN fuel hf⟩

/-- C13, the theorem at the pattern `a(b|c)*d+` and the input `abcbdd`. -/
theorem C13_matcher_decides_witness :
    parse "a(b|c)*d+".toList =
        some (.Character 'a' (.Repetition .ZeroOrMore
          (.Alternation (.Character 'b' .null) (.Character 'c' .null) .null)
          (.Repetition .OneOrMore (.Character 'd' .null) .null))) ∧
      loops_read (.Character 'a' (.Repetition .ZeroOrMore
          (.Alternation (.Character 'b' .null) (.Character 'c' .null) .null)
          (.Repetition .OneOrMore (.Character 'd' .null) .null))) = true ∧
      (∀ x ∈ "abcbdd".toList, x.toNat < 128) ∧
      ∃ full part, compile_full "a(b|c)*d+".toList = some full ∧
        compile_partial "a(b|c)*d+".toList = some part ∧
        (∃ b N, ∀ fuel, N ≤ fuel → match_ fuel full "abcbdd".toList = .returned b) ∧
        (∃ b N, ∀ fuel, N ≤ fuel → match_ fuel part "abcbdd".toList = .returned b) :=
  ⟨by decide, by decide, by decide,
    C13_matcher_decides "a(b|c)*d+".toList "abcbdd".toList
      (.Character 'a' (.Repetition .ZeroOrMore
        (.Alternation (.Character 'b' .null) (.Character 'c' .null) .null)
        (.Repetition .OneOrMore (.Character 'd' .null) .null)))
      (by decide) (by decide) (by decide)⟩

/-- C13 as stated fails: the pattern `(a*)*` parses, and `match` on its full-match program
and the empty input is still running under every step budget (the inner `a*` reads nothing,
so the outer loop comes back to its `Split` for ever); and `match` on the program of `.` and
the one code unit 255 reads outside the mask instead of returning `true` or `false`. -/
theorem C13_matcher_runs_for_ever :
    (parse "(a*)*".toList).isSome = true ∧
      compile_full "(a*)*".toList = some nested_star_program ∧
      (∀ fuel : Nat, match_ fuel nested_star_program [] = .out_of_fuel) ∧
      compile_full ".".toList =
        some [.Bitset (class_mask .All false), .Assertion .EndOfString, .Match] ∧
      (∀ fuel, 1 ≤ fuel →
        match_ fuel [.Bitset (class_mask .All false), .Assertion .EndOfString, .Match]
          [Char.ofNat 255] = .undefined) := by
  refine ⟨by decide, nested_star_compiled, fun fuel => (nested_star_loops fuel).1, by decide, ?_⟩
  intro fuel hf
  obtain ⟨n, rfl⟩ : ∃ n, fuel = n + 1 := ⟨fuel - 1, by omega⟩
  have f0 : fetch [Instruction.Bitset (class_mask .All false), .Assertion .EndOfString, .Match] 0
      = some (.Bitset (class_mask .All false)) := rfl
  exact @mf_bitset_outside _ _ _ n ⟨0, [Char.ofNat 255]⟩ (Char.ofNat 255) [] f0 rfl (by decide)

/-- C14: for every pattern `p`, `compile_full` and `compile_partial` return a program
exactly if `parse` returns an AST; and for a `p` that parses, compiling its AST raises
neither the `Unknown repetition type` exception nor the exception of `Bitset::set`: the
compilation with these failures made explicit ends with the code of `compile_fragment`. -/
theorem C14_compile_iff_parse (p : List Char) :
    ((compile_full p).isSome = (parse p).isSome) ∧
    (Option.isSome ( compile_partial p) = (parse p).isSome) ∧
    (∀ ast, parse p = some ast →
      compile_fragment_checked ast = .ok (compile_fragment ast) ∧
      compile_full p = some (full_program (compile_fragment ast)) ∧
      compile_partial p = some (partial_program (compile_fragment ast))) := by
  refine ⟨?_, ?_, ?_⟩
  · cases h : parse p <;> simp [compile_full, h]
  · cases h : parse p <;> simp [ compile_partial, h]
  · intro ast h
    exact ⟨compile_fragment_checked_ok ast, by simp [compile_full, h, full_program],
      by simp [ compile_partial, h, partial_program]⟩

/-- C15: a pattern that starts with `(` and holds no `)` is rejected by `parse`,
`compile_full` and `compile_partial`. -/
theorem C15_unterminated_group_rejected (p : List Char) (hhead : p.head? = some '(')
    (hclose : ')' ∉ p) :
    parse p = none ∧ compile_full p = none ∧ compile_partial p = none := by
  cases p with
  | nil => simp at hhead
  | cons x rest =>
    simp only [List.head?_cons, Option.some.injEq] at hhead
    subst hhead
    have hp : parse ('(' :: rest) = none :=
      parse_unterminated (fun h => hclose (by simp [h]))
    exact ⟨hp, by simp [compile_full, hp], by simp [ compile_partial, hp]⟩

/-- C15, the theorem at the pattern `(abc`. -/
theorem C15_unterminated_group_rejected_witness :
    "(abc".toList.head? = some '(' ∧ ')' ∉ "(abc".toList ∧
      (parse "(abc".toList = none ∧ compile_full "(abc".toList = none ∧
        compile_partial "(abc".toList = none) :=
  ⟨by decide, by decide, C15_unterminated_group_rejected _ (by decide) (by decide)⟩

/-- C16: the empty pattern is rejected: `parse`, `compile_full` and `compile_partial`
return nothing for it, and `full_match` and `partial_match` return `false` on every input,
the empty one included, whatever the step budget. -/
theorem C16_empty_pattern_rejected :
    parse [] = none ∧ compile_full [] = none ∧ compile_partial [] = none ∧
      ∀ (fuel : Nat) (s : List Char),
        full_match fuel [] s = .returned false ∧ partial_match fuel [] s = .returned false := by
  have hp : parse [] = none := by decide
  have hf : compile_full [] = none := by simp [compile_full, hp]
  have hq : compile_partial [] = none := by simp [ compile_partial, hp]
  exact ⟨hp, hf, hq, fun fuel s => ⟨by simp [full_match, hf], by simp [partial_match, hq]⟩⟩

/-- C17: for a non-empty plain `w` and a text `t` that begins with `)`, or is `(` followed
by text without `)`, the pattern `w ++ t` parses, and `compile_full` and `compile_partial`
give for it the programs they give for `w`. -/
theorem C17_trailing_text_discarded (w t : List Char) (hw : plain w) (hne : w ≠ [])
    (ht : (∃ rest, t = ')' :: rest) ∨ (∃ rest, t = '(' :: rest ∧ ')' ∉ rest)) :
    (parse (w ++ t)).isSome = true ∧ compile_full (w ++ t) = compile_full w ∧
      compile_partial (w ++ t) = compile_partial w := by
  have h1 := parse_plain_then_rest hw hne ht
  have h2 := parse_plain hw hne
  exact ⟨by simp [h1], by simp [compile_full, h1, h2], by simp [ compile_partial, h1, h2]⟩

/-- C17, the theorem at `w` = `ab` with `t` = `)c` (and the pattern `ab(cd` is covered by
the second form of `t`). -/
theorem C17_trailing_text_discarded_witness :
    plain "ab".toList ∧ "ab".toList ≠ [] ∧
      ((∃ rest, ")c".toList = ')' :: rest) ∨
        (∃ rest, ")c".toList = '(' :: rest ∧ ')' ∉ rest)) ∧
      ((parse ("ab".toList ++ ")c".toList)).isSome = true ∧
        compile_full ("ab".toList ++ ")c".toList) = compile_full "ab".toList ∧
        compile_partial ("ab".toList ++ ")c".toList) = compile_partial "ab".toList) :=
  ⟨by decide, by decide, Or.inl ⟨"c".toList, rfl⟩,
    C17_trailing_text_discarded _ _ (by decide) (by decide) (Or.inl ⟨"c".toList, rfl⟩)⟩

/-- C18 fails on the code, by the mask of a `Bitset` instruction: the pattern `.` parses
to the one node `CharacterClass(All)`, and on the input of the one code unit 255 the
reference meaning holds from position 0 to position 1 (255 is not newline), but the code of
the node has no walk from its first instruction at position 0 to its end at position 1, and
the matcher run on that code reads outside the mask. On every input of 7-bit code units the
claim holds, for every tree: a walk of `compile_fragment a` from its first instruction at
position `i` to its end at position `j` exists exactly when the input from `i` up to `j`
matches `a` under the reference meaning. -/
theorem C18_class_outside_mask :
    parse ".".toList = some (.CharacterClass .All false .null) ∧
      Matches [Char.ofNat 255] (.CharacterClass .All false .null) 0 1 ∧
      (¬ ∃ n, Walk (compile_fragment (.CharacterClass .All false .null)) n 0
        (cursor [Char.ofNat 255] 0)
        ((compile_fragment (.CharacterClass .All false .null)).length : Int)
        (cursor [Char.ofNat 255] 1)) ∧
      (∀ fuel, match_fragment (compile_fragment (.CharacterClass .All false .null))
        (fuel + 1) 0 (cursor [Char.ofNat 255] 0) = .undefined) ∧
      ∀ (s : List Char) (a : AtomPointer) (i j : Nat), (∀ x ∈ s, x.toNat < 128) →
        i ≤ j → j ≤ s.length →
        ((∃ n, Walk (compile_fragment a) n 0 (cursor s i)
          ((compile_fragment a).length : Int) (cursor s j)) ↔ Matches s a i j) := by
  have f0 : fetch (compile_fragment (.CharacterClass .All false .null)) 0 =
      some (.Bitset (class_mask .All false)) := rfl
  refine ⟨by decide, ?_, ?_, ?_, ?_⟩
  · exact Matches.char_class (x := Char.ofNat 255) rfl (by decide) (Matches.null 1)
  · rintro ⟨n, hw⟩
    obtain ⟨n2, pc1, r1, _, hstep, _⟩ := walk_first hw (by decide)
    obtain ⟨x, rest, hd, hbit, _, _⟩ := step_bitset f0 hstep
    have hx : x = Char.ofNat 255 := by
      have := (List.cons.inj hd.symm).1
      exact this
    rw [hx] at hbit
    revert hbit
    decide
  · intro fuel
    exact @mf_bitset_outside _ _ _ fuel ⟨0, [Char.ofNat 255]⟩ (Char.ofNat 255) [] f0 rfl
      (by decide)
  · intro s a i j hs hij hj
    exact compile_fragment_correct hs a (le_trans hij hj)

/-- C19: for a pattern `p` that parses, in the program of `compile_full` and in the program
of `compile_partial`, with `n` the program length, every `Split` at index `i` has
`0 ≤ i + lhs < n` and `0 ≤ i + rhs < n`, and every `Jump` at index `i` has
`0 ≤ i + target < n`. -/
theorem C19_branch_targets_in_bounds (p : List Char) (ast : AtomPointer)
    (hp : parse p = some ast) :
    ∃ full part, compile_full p = some full ∧ compile_partial p = some part ∧
      branches_in_bounds full ∧ branches_in_bounds part :=
  ⟨full_program (compile_fragment ast), partial_program (compile_fragment ast),
    by simp [compile_full, hp, full_program], by simp [ compile_partial, hp, partial_program],
    full_program_in_bounds ast, partial_program_in_bounds ast⟩

/-- C19, the theorem at the pattern `a(b|c)*d+`. -/
theorem C19_branch_targets_in_bounds_witness :
    parse "a(b|c)*d+".toList =
        some (.Character 'a' (.Repetition .ZeroOrMore
          (.Alternation (.Character 'b' .null) (.Character 'c' .null) .null)
          (.Repetition .OneOrMore (.Character 'd' .null) .null))) ∧
      ∃ full part, compile_full "a(b|c)*d+".toList = some full ∧
        compile_partial "a(b|c)*d+".toList = some part ∧
        branches_in_bounds full ∧ branches_in_bounds part :=
  ⟨by decide, C19_branch_targets_in_bounds "a(b|c)*d+".toList
    (.Character 'a' (.Repetition .ZeroOrMore
      (.Alternation (.Character 'b' .null) (.Character 'c' .null) .null)
      (.Repetition .OneOrMore (.Character 'd' .null) .null))) (by decide)⟩

/-- C20 fails on the code: the mask is a `std::bitset<255>`, so 255 is no index of it
(and as a signed `char` the code unit 255 is converted to the index `2 ^ 64 - 1`);
`Bitset::match` reads outside the mask for this code unit, and `full_match` of `.` on the
input of the one code unit 255 does not return `true`. -/
theorem C20_mask_has_255_entries :
    Bitset.size = 255 ∧ ¬ (255 < Bitset.size) ∧
      size_t_of_char (Char.ofNat 255) = 2 ^ 64 - 1 ∧
      Bitset.index_valid (Char.ofNat 255) = false ∧
      (class_mask .All false).match_ (Char.ofNat 255) = none ∧
      (Char.ofNat 255 ≠ '\n') ∧
      ∀ fuel, 1 ≤ fuel → full_match fuel ".".toList [Char.ofNat 255] = .undefined := by
  refine ⟨rfl, by decide, by decide, by decide, by decide, by decide, ?_⟩
  intro fuel hf
  obtain ⟨n, rfl⟩ : ∃ n, fuel = n + 1 := ⟨fuel - 1, by omega⟩
  have hc : compile_full ".".toList =
      some [.Bitset (class_mask .All false), .Assertion .EndOfString, .Match] := by decide
  simp only [full_match, hc, match_, Range.of]
  have f0 : fetch [Instruction.Bitset (class_mask .All false), .Assertion .EndOfString, .Match] 0
      = some (.Bitset (class_mask .All false)) := rfl
  exact @mf_bitset_outside _ _ _ n ⟨0, [Char.ofNat 255]⟩ (Char.ofNat 255) [] f0 rfl (by decide)

/-- C21, as amended: `parse_alternation`, `parse_raw_character` and `parse_character_class`
restore the scan position when they return no match. `parse_regex`, `parse_concatenation`,
`parse_repetition` and `parse_atom`, when they return no match, leave the scan position
inside the text, at or behind the start position, and at the start position exactly when the
text there does not begin with `(` or with a backslash. -/
theorem C21_position_after_no_match (fuel : Nat) (current after : List Char) :
    (parse_alternation fuel current = some (none, after) → after = current) ∧
    (parse_raw_character current = (none, after) → after = current) ∧
    (parse_character_class current = (none, after) → after = current) ∧
    ((parse_regex fuel current = some (none, after) ∨
        parse_concatenation fuel current = some (none, after) ∨
        parse_repetition fuel current = some (none, after) ∨
        parse_atom fuel current = some (none, after)) →
      after <:+ current ∧ (after = current ↔ opens_or_escapes current = false)) := by
  refine ⟨parse_alternation_restores, parse_raw_character_restores,
    parse_character_class_restores, ?_⟩
  rintro (h | h | h | h)
  · obtain ⟨n, hn⟩ := regex_no_match h
    exact atom_no_match hn
  · obtain ⟨n, hn⟩ := concatenation_no_match h
    exact atom_no_match hn
  · obtain ⟨n, hn⟩ := repetition_no_match h
    exact atom_no_match hn
  · exact atom_no_match h

/-- C21, the theorem at the text `(a`, where `parse_atom` returns no match at the end of the
text, and at the failing calls of the three restoring functions on `a`, the empty text and
`q`. -/
theorem C21_position_after_no_match_witness :
    parse_alternation 10 "a".toList = some (none, "a".toList) ∧
      parse_raw_character [] = (none, []) ∧
      parse_character_class "q".toList = (none, "q".toList) ∧
      parse_atom 10 "(a".toList = some (none, []) ∧
      (([] : List Char) <:+ "(a".toList ∧
        (([] : List Char) = "(a".toList ↔ opens_or_escapes "(a".toList = false)) :=
  ⟨by decide, rfl, by decide, by decide,
    (C21_position_after_no_match 10 "(a".toList []).2.2.2
      (Or.inr (Or.inr (Or.inr (by decide))))⟩

/-- C21 as stated fails for four of the seven functions. On the pattern `(a` from its start,
`parse_atom`, `parse_repetition`, `parse_concatenation` and `parse_regex` return no match
with the scan position at the end of the text, two characters behind the start; on a
backslash followed by `q` they return no match with the scan position behind the
backslash. -/
theorem C21_position_not_restored :
    (∀ fuel, 20 ≤ fuel →
      parse_atom fuel "(a".toList = some (none, []) ∧
      parse_repetition fuel "(a".toList = some (none, []) ∧
      parse_concatenation fuel "(a".toList = some (none, []) ∧
      parse_regex fuel "(a".toList = some (none, [])) ∧
    "(a".toList ≠ [] ∧
    (∀ fuel, 20 ≤ fuel →
      parse_atom fuel "\\q".toList = some (none, "q".toList) ∧
      parse_repetition fuel "\\q".toList = some (none, "q".toList) ∧
      parse_concatenation fuel "\\q".toList = some (none, "q".toList) ∧
      parse_regex fuel "\\q".toList = some (none, "q".toList)) ∧
    "\\q".toList ≠ "q".toList := by
  refine ⟨fun fuel hf => ⟨parse_atom_mono hf (by decide), parse_repetition_mono hf (by decide),
      parse_concatenation_mono hf (by decide), parse_regex_mono hf (by decide)⟩,
    by decide,
    fun fuel hf => ⟨parse_atom_mono hf (by decide), parse_repetition_mono hf (by decide),
      parse_concatenation_mono hf (by decide), parse_regex_mono hf (by decide)⟩,
    by decide⟩

/-- C22: at every scan position each of `parse_atom`, `parse_repetition`,
`parse_concatenation`, `parse_alternation` and `parse_regex` returns, with one result under
every call budget from `5 * length + k` on (`k` from 1 to 5); the scan position it leaves is
inside the text; and when it returns a fragment, the scan position has moved on by at least
one character, the fragment is a node and its code holds at least one instruction. `parse`
returns under the budget it hands out, and the code of a tree it returns is not empty. -/
theorem C22_parser_progress (current : List Char) :
    (∃ r, (∀ fuel, 5 * current.length + 1 ≤ fuel → parse_atom fuel current = some r) ∧
      r.2 <:+ current ∧ ∀ ast, r.1 = some ast →
        r.2.length < current.length ∧ ast ≠ .null ∧ compile_fragment ast ≠ []) ∧
    (∃ r, (∀ fuel, 5 * current.length + 2 ≤ fuel → parse_repetition fuel current = some r) ∧
      r.2 <:+ current ∧ ∀ ast, r.1 = some ast →
        r.2.length < current.length ∧ ast ≠ .null ∧ compile_fragment ast ≠ []) ∧
    (∃ r, (∀ fuel, 5 * current.length + 3 ≤ fuel →
        parse_concatenation fuel current = some r) ∧
      r.2 <:+ current ∧ ∀ ast, r.1 = some ast →
        r.2.length < current.length ∧ ast ≠ .null ∧ compile_fragment ast ≠ []) ∧
    (∃ r, (∀ fuel, 5 * current.length + 4 ≤ fuel → parse_alternation fuel current = some r) ∧
      r.2 <:+ current ∧ ∀ ast, r.1 = some ast →
        r.2.length < current.length ∧ ast ≠ .null ∧ compile_fragment ast ≠ []) ∧
    (∃ r, (∀ fuel, 5 * current.length + 5 ≤ fuel → parse_regex fuel current = some r) ∧
      parse current = r.1 ∧
      r.2 <:+ current ∧ ∀ ast, r.1 = some ast →
        r.2.length < current.length ∧ ast ≠ .null ∧ compile_fragment ast ≠ []) := by
  obtain ⟨⟨r1, h1, ok1⟩, ⟨r2, h2, ok2⟩, ⟨r3, h3, ok3⟩, ⟨r4, h4, ok4⟩, ⟨r5, h5, ok5⟩⟩ :=
    yields_exists current
  have e1 := h1 _ (le_refl _)
  have e2 := h2 _ (le_refl _)
  have e3 := h3 _ (le_refl _)
  have e4 := h4 _ (le_refl _)
  have e5 := h5 _ (le_refl _)
  refine ⟨⟨r1, h1, ?_⟩, ⟨r2, h2, ?_⟩, ⟨r3, h3, ?_⟩, ⟨r4, h4, ?_⟩, ⟨r5, h5, ?_, ?_⟩⟩
  · exact progress_of_result ok1 (parse_gives_node _ current).1 e1
  · exact progress_of_result ok2 (parse_gives_node _ current).2.1 e2
  · exact progress_of_result ok3 (parse_gives_node _ current).2.2.1 e3
  · exact progress_of_result ok4 (parse_gives_node _ current).2.2.2.1 e4
  · simp [parse, e5]
  · exact progress_of_result ok5 (parse_gives_node _ current).2.2.2.2 e5

/-- C23 fails on the code: `deallocate` has no branch for `Type::Assertion`. The pattern
`^a` parses to an `Assertion` node followed by a `Character` node, and `deallocate` of that
tree deletes nothing: both nodes are leaked. The pattern `a^b` parses to a chain of three
nodes of which `deallocate` deletes the first only. In general different nodes of a tree
have different names, `deallocate` deletes no node twice and only nodes of the tree, and it
deletes every node of the tree if and only if the tree holds no `Assertion` node. -/
theorem C23_assertion_never_released :
    parse "^a".toList = some (.Assertion .BeginOfString (.Character 'a' .null)) ∧
    reachable (.Assertion .BeginOfString (.Character 'a' .null)) = [[], [Link.next]] ∧
    deallocate (.Assertion .BeginOfString (.Character 'a' .null)) = [] ∧
    parse "a^b".toList =
      some (.Character 'a' (.Assertion .BeginOfString (.Character 'b' .null))) ∧
    reachable (.Character 'a' (.Assertion .BeginOfString (.Character 'b' .null))) =
      [[], [Link.next], [Link.next, Link.next]] ∧
    deallocate (.Character 'a' (.Assertion .BeginOfString (.Character 'b' .null))) = [[]] ∧
    ∀ p : AtomPointer,
      (reachable p).Nodup ∧ (deallocate p).Nodup ∧
      (∀ x ∈ deallocate p, x ∈ reachable p) ∧
      ((∀ x ∈ reachable p, x ∈ deallocate p) ↔ assertion_free p = true) := by
  refine ⟨by decide, by decide, by decide, by decide, by decide, by decide, ?_⟩
  intro p
  refine ⟨reachable_nodup p, deallocate_nodup p, deallocate_reachable p, ?_, ?_⟩
  · intro h
    by_contra hf
    obtain ⟨x, hx, hn⟩ := deallocate_leaks p (by simpa using hf)
    exact hn (h x hx)
  · exact deallocate_complete p

end re
